import Mathlib

/-! # arc_unpacker: the archive decoders `leaf/pak1` and `twilight-frontier/pak2`

A shallow embedding of

* `custom_lzss_decompress` and the members `set_version`, `is_recognized_impl`,
  `read_meta_impl`, `read_file_impl` and `preprocess` of `Pak1ArchiveDecoder`
  (`src/fmt/leaf/pak1_group/pak1_archive_decoder.cc`),
* `decrypt` and the members `is_recognized_impl`, `read_meta_impl` and
  `read_file_impl` of `Pak2ArchiveDecoder`
  (`src/dec/twilight_frontier/pak2_archive_decoder.cc`),

followed by the properties established about them.

Conventions of the embedding.

* A byte is a `Nat`; a byte buffer (`bstr`, `std::vector<u8>`) is a `List Nat`.
  Stores into `u8` storage and values of type `u8`, `u16`, `u32` are reduced
  `% 2^w` where the source truncates or can overflow.
* `size_t` is taken to be 64 bits wide.
* A C++ exception and an unchecked access of the source (a read through a
  pointer past its buffer, an out-of-range `operator[]`, a `%` by zero) are the
  two kinds of `Fault`; a function of the source that can throw or run into such
  an access becomes a function into `Outcome`.
* Loops of the source are structurally recursive functions over the number of
  iterations that remain.
* The stream classes, the Mersenne Twister and the name transcoding are not among
  the sources: the stream is modelled, the generator and the transcoding are
  parameters. So are the collaborators of `preprocess` (path helpers, image
  codec, saver), with path helpers modelled from the specification for the
  worked examples; a `std::map` is an association list in key order, and a
  pointer to an entry of the metadata is the index of the entry.
-/

namespace ArcUnpacker

/-! ## Outcomes -/

/-- The ways in which a call of the source does not return normally: the
exceptions of `err.h` that the two decoders throw or let through, and the
accesses the source performs without a check, whose behaviour is undefined. -/
inductive Fault where
  /-- `err::EofError`, thrown by a stream read or seek past the end. -/
  | eofError
  /-- `err::RecognitionError`. -/
  | recognitionError
  /-- `err::BadDataOffsetError`. -/
  | badDataOffsetError
  /-- `err::UsageError`. -/
  | usageError
  /-- Undefined: `*input_ptr` read at index `idx`, at or past `input_end`. -/
  | ubInputRead (idx : Nat)
  /-- Undefined: `dict[idx]` with `idx` not below `dict_capacity`. -/
  | ubDictIndex (idx : Nat)
  /-- Undefined: `look_behind_pos %= dict_size` while `dict_size` is zero. -/
  | ubModZero
  /-- Undefined: `&output_ptr[-repetitions]` lies before the output buffer. -/
  | ubOutputBefore
  /-- Any other exception, thrown by a collaborator outside the sources (the image
  codec, the file saver). -/
  | otherError
  /-- Undefined: `*sprite_file` while `sprite_file` is null. -/
  | ubNullDeref
  deriving DecidableEq, Repr

/-- Whether the fault is a thrown C++ exception (as opposed to undefined
behaviour). -/
def Fault.isException : Fault → Bool
  | .eofError => true
  | .recognitionError => true
  | .badDataOffsetError => true
  | .usageError => true
  | .otherError => true
  | _ => false

/-- Result of running a function of the source. -/
inductive Outcome (α : Type) where
  | ok (v : α)
  | fail (f : Fault)
  deriving DecidableEq, Repr

/-! ## The modified LZSS routine (`custom_lzss_decompress`) -/

/-- The local variables of `custom_lzss_decompress` that change while it runs.
`input_ptr` and `output_ptr` are kept as indices into `input` and `output`. -/
structure LzssState where
  dict : List Nat
  dict_size : Nat
  dict_pos : Nat
  output : List Nat
  output_ptr : Nat
  input_ptr : Nat
  control : Nat
  deriving DecidableEq, Repr

/-- The state before the first iteration: `std::vector<u8> dict(dict_capacity)`,
`bstr output(output_size)`, both zero-filled, and all cursors at 0. -/
def lzss_init (output_size dict_capacity : Nat) : LzssState :=
  { dict := List.replicate dict_capacity 0
    dict_size := 0
    dict_pos := 0
    output := List.replicate output_size 0
    output_ptr := 0
    input_ptr := 0
    control := 0 }

/-- The expression `*input_ptr++`: the source does not compare `input_ptr` with
`input_end`, so a read at or past the end is undefined. -/
def lzss_read_input (input : List Nat) (s : LzssState) : Outcome (Nat × LzssState) :=
  match input[s.input_ptr]? with
  | some b => .ok (b, { s with input_ptr := s.input_ptr + 1 })
  | none => .fail (.ubInputRead s.input_ptr)

/-- The statements
`dict[dict_pos++] = b; dict_pos %= dict_capacity; if (dict_size < dict_capacity) dict_size++;`. -/
def lzss_dict_put (dict_capacity : Nat) (b : Nat) (s : LzssState) : Outcome LzssState :=
  if s.dict_pos < dict_capacity then
    .ok { s with
      dict := s.dict.set s.dict_pos b
      dict_pos := (s.dict_pos + 1) % dict_capacity
      dict_size := if s.dict_size < dict_capacity then s.dict_size + 1 else s.dict_size }
  else .fail (.ubDictIndex s.dict_pos)

/-- The literal branch: `dict[dict_pos++] = *output_ptr++ = *input_ptr++;` and the
two statements after it. It runs under the loop guard `output_ptr < output_end`. -/
def lzss_literal (input : List Nat) (dict_capacity : Nat) (s : LzssState) :
    Outcome LzssState :=
  match lzss_read_input input s with
  | .fail f => .fail f
  | .ok (b, s1) =>
    lzss_dict_put dict_capacity b
      { s1 with output := s1.output.set s1.output_ptr b, output_ptr := s1.output_ptr + 1 }

/-- The first pass of a back-reference,
`while (i-- && output_ptr < output_end) { *output_ptr++ = dict[look_behind_pos++];
look_behind_pos %= dict_size; }`, with `i` iterations left and the read position
`look_behind_pos`. -/
def lzss_copy (output_size dict_capacity : Nat) :
    Nat → Nat → LzssState → Outcome LzssState
  | 0, _, s => .ok s
  | i + 1, look_behind_pos, s =>
    if s.output_ptr < output_size then
      if look_behind_pos < dict_capacity then
        if s.dict_size = 0 then .fail .ubModZero
        else
          lzss_copy output_size dict_capacity i ((look_behind_pos + 1) % s.dict_size)
            { s with
              output := s.output.set s.output_ptr (s.dict.getD look_behind_pos 0)
              output_ptr := s.output_ptr + 1 }
      else .fail (.ubDictIndex look_behind_pos)
    else .ok s

/-- The second pass of a back-reference,
`while (source < output_ptr) { dict[dict_pos++] = *source++; ... }`, with `k`
iterations left (`k = output_ptr - source`). -/
def lzss_reinsert (dict_capacity : Nat) : Nat → Nat → LzssState → Outcome LzssState
  | 0, _, s => .ok s
  | k + 1, source, s =>
    match lzss_dict_put dict_capacity (s.output.getD source 0) s with
    | .fail f => .fail f
    | .ok s1 => lzss_reinsert dict_capacity k (source + 1) s1

/-- The back-reference branch. `tmp` is the `u16` read through
`reinterpret_cast<const u16*>(input_ptr)` (two byte reads, low byte first). -/
def lzss_backref (input : List Nat) (output_size dict_capacity : Nat) (s : LzssState) :
    Outcome LzssState :=
  match lzss_read_input input s with
  | .fail f => .fail f
  | .ok (lo, s1) =>
    match lzss_read_input input s1 with
    | .fail f => .fail f
    | .ok (hi, s2) =>
      let tmp := (lo + 256 * hi) % 65536
      let look_behind_pos := tmp >>> 4
      let repetitions := tmp &&& 0xF
      let ext : Outcome (Nat × LzssState) :=
        if repetitions = 0xF then
          match lzss_read_input input s2 with
          | .fail f => .fail f
          | .ok (e, s3) => .ok (repetitions + e, s3)
        else .ok (repetitions, s2)
      match ext with
      | .fail f => .fail f
      | .ok (repetitions, s3) =>
        let repetitions := repetitions + 3
        match lzss_copy output_size dict_capacity repetitions look_behind_pos s3 with
        | .fail f => .fail f
        | .ok s4 =>
          if repetitions ≤ s4.output_ptr then
            lzss_reinsert dict_capacity repetitions (s4.output_ptr - repetitions) s4
          else .fail .ubOutputBefore

/-- One iteration of the outer loop body: shift the control word, refill it when
the sentinel bit `0x100` has gone, then decode one token. -/
def lzss_token (input : List Nat) (output_size dict_capacity : Nat) (s : LzssState) :
    Outcome LzssState :=
  let control := s.control >>> 1
  let refill : Outcome LzssState :=
    if control &&& 0x100 = 0 then
      match lzss_read_input input s with
      | .fail f => .fail f
      | .ok (b, s1) => .ok { s1 with control := (b ||| 0xFF00) % 65536 }
    else .ok { s with control := control }
  match refill with
  | .fail f => .fail f
  | .ok s1 =>
    if s1.control &&& 1 ≠ 0 then lzss_literal input dict_capacity s1
    else lzss_backref input output_size dict_capacity s1

/-- The outer loop `while (output_ptr < output_end)`, at most `fuel` iterations. -/
def lzss_loop (input : List Nat) (output_size dict_capacity : Nat) :
    Nat → LzssState → Outcome LzssState
  | 0, s => .ok s
  | fuel + 1, s =>
    if s.output_ptr < output_size then
      match lzss_token input output_size dict_capacity s with
      | .fail f => .fail f
      | .ok s1 => lzss_loop input output_size dict_capacity fuel s1
    else .ok s

/-- The whole run of `custom_lzss_decompress`, returning the final state. Every
iteration advances `output_ptr`, so `output_size` iterations are enough
(`lzss_run_filled`). -/
def lzss_run (input : List Nat) (output_size dict_capacity : Nat) : Outcome LzssState :=
  lzss_loop input output_size dict_capacity output_size (lzss_init output_size dict_capacity)

/-- The function `custom_lzss_decompress(input, output_size, dict_capacity)`. -/
def custom_lzss_decompress (input : List Nat) (output_size dict_capacity : Nat) :
    Outcome (List Nat) :=
  match lzss_run input output_size dict_capacity with
  | .fail f => .fail f
  | .ok s => .ok s.output



/-! ## Reference encoder for the round trip (literal tokens only) -/

/-- Reference encoder, following the token semantics of the routine: split the
data into consecutive groups of at most 8 bytes and emit, for each group, the
control byte `0xFF` (eight literal flags) followed by the bytes of the group.
`fuel` bounds the number of groups. -/
def lzss_encode_groups : Nat → List Nat → List Nat
  | 0, _ => []
  | _ + 1, [] => []
  | fuel + 1, b :: rest =>
    0xFF :: ((b :: rest).take 8 ++ lzss_encode_groups fuel ((b :: rest).drop 8))

/-- The reference encoder on a whole buffer (`d.length` groups always suffice). -/
def lzss_encode_literals (d : List Nat) : List Nat :=
  lzss_encode_groups d.length d

/-- Invariant of the run of the routine on `lzss_encode_literals d` once `t`
literal tokens have been decoded: the first `t` bytes of `d` are in place, the
input cursor is past `t` literals and the control bytes of the groups begun, and
the control word is the `0xFF` refill shifted by the tokens used of the group. -/
def LzssLiteralInv (d : List Nat) (dict_capacity t : Nat) (s : LzssState) : Prop :=
  s.output = d.take t ++ List.replicate (d.length - t) 0 ∧
  s.output_ptr = t ∧
  s.input_ptr = t + (t + 7) / 8 ∧
  ((t % 8 = 0 ∧ (s.control >>> 1) &&& 0x100 = 0) ∨
    (t % 8 ≠ 0 ∧ s.control = 0xFFFF >>> (t % 8 - 1))) ∧
  s.dict_pos < dict_capacity

/-! ## Token view of the routine and the naive self-copying reference decoder -/

/-- A decoded token: a literal byte, or a back-reference with its start position
in the dictionary and its repetition count (the `+ 3` already applied). -/
inductive LzssToken where
  | literal (b : Nat)
  | backref (look_behind_pos repetitions : Nat)
  deriving DecidableEq, Repr

/-- The reads one iteration of the outer loop performs on the input, in the
order of the source: control shift and refill, then the operands of the token
the control bit selects. `lzss_token_eq_parse` shows that `lzss_token` is this
parse followed by the action of the token. -/
def lzss_parse (input : List Nat) (s : LzssState) : Outcome (LzssToken × LzssState) :=
  let control := s.control >>> 1
  let refill : Outcome LzssState :=
    if control &&& 0x100 = 0 then
      match lzss_read_input input s with
      | .fail f => .fail f
      | .ok (b, s1) => .ok { s1 with control := (b ||| 0xFF00) % 65536 }
    else .ok { s with control := control }
  match refill with
  | .fail f => .fail f
  | .ok s1 =>
    if s1.control &&& 1 ≠ 0 then
      match lzss_read_input input s1 with
      | .fail f => .fail f
      | .ok (b, s2) => .ok (.literal b, s2)
    else
      match lzss_read_input input s1 with
      | .fail f => .fail f
      | .ok (lo, s2) =>
        match lzss_read_input input s2 with
        | .fail f => .fail f
        | .ok (hi, s3) =>
          let tmp := (lo + 256 * hi) % 65536
          if tmp &&& 0xF = 0xF then
            match lzss_read_input input s3 with
            | .fail f => .fail f
            | .ok (e, s4) => .ok (.backref (tmp >>> 4) ((tmp &&& 0xF) + e + 3), s4)
          else .ok (.backref (tmp >>> 4) ((tmp &&& 0xF) + 3), s3)

/-- The action of a literal token on the state: store the byte in the output and
append it to the dictionary. -/
def lzss_literal_exec (dict_capacity b : Nat) (s : LzssState) : Outcome LzssState :=
  lzss_dict_put dict_capacity b
    { s with output := s.output.set s.output_ptr b, output_ptr := s.output_ptr + 1 }

/-- The action of a back-reference token in the source: the copy pass, then the
pass that inserts the last `repetitions` output bytes into the dictionary. -/
def lzss_backref_exec (output_size dict_capacity look_behind_pos repetitions : Nat)
    (s : LzssState) : Outcome LzssState :=
  match lzss_copy output_size dict_capacity repetitions look_behind_pos s with
  | .fail f => .fail f
  | .ok s1 =>
    if repetitions ≤ s1.output_ptr then
      lzss_reinsert dict_capacity repetitions (s1.output_ptr - repetitions) s1
    else .fail .ubOutputBefore

/-- Back-reference of the naive self-copying reference decoder, in the words of
the specification: each byte is emitted and appended to the dictionary
immediately (write cursor wrapping modulo the capacity, fill saturating), and the
read position is then advanced and wrapped modulo the fill at that moment. A copy
that runs into the bytes it has just written reads them back. It stops early
when the output is full. -/
def naive_copy (output_size dict_capacity : Nat) :
    Nat → Nat → LzssState → Outcome LzssState
  | 0, _, s => .ok s
  | i + 1, look_behind_pos, s =>
    if s.output_ptr < output_size then
      if look_behind_pos < dict_capacity then
        match lzss_literal_exec dict_capacity (s.dict.getD look_behind_pos 0) s with
        | .fail f => .fail f
        | .ok s1 =>
          naive_copy output_size dict_capacity i ((look_behind_pos + 1) % s1.dict_size) s1
      else .fail (.ubDictIndex look_behind_pos)
    else .ok s

/-- One token of the naive reference decoder: the same token stream
(`lzss_parse`), the same literal action, the self-copying back-reference. -/
def naive_token (input : List Nat) (output_size dict_capacity : Nat) (s : LzssState) :
    Outcome LzssState :=
  match lzss_parse input s with
  | .fail f => .fail f
  | .ok (.literal b, s1) => lzss_literal_exec dict_capacity b s1
  | .ok (.backref look_behind_pos repetitions, s1) =>
    naive_copy output_size dict_capacity repetitions look_behind_pos s1

/-- The token loop of the naive reference decoder. -/
def naive_loop (input : List Nat) (output_size dict_capacity : Nat) :
    Nat → LzssState → Outcome LzssState
  | 0, s => .ok s
  | fuel + 1, s =>
    if s.output_ptr < output_size then
      match naive_token input output_size dict_capacity s with
      | .fail f => .fail f
      | .ok s1 => naive_loop input output_size dict_capacity fuel s1
    else .ok s

/-- The naive self-copying reference decoder. -/
def naive_lzss_decompress (input : List Nat) (output_size dict_capacity : Nat) :
    Outcome (List Nat) :=
  match naive_loop input output_size dict_capacity output_size
      (lzss_init output_size dict_capacity) with
  | .fail f => .fail f
  | .ok s => .ok s.output

/-- A back-reference about to emit `m = min repetitions (space left)` bytes keeps
clear of the bytes it writes: its read range `[look_behind_pos,
look_behind_pos + m)` lies below the fill, and the write cursor is not strictly
inside it. -/
def lzss_backref_separate (output_size look_behind_pos repetitions : Nat)
    (s : LzssState) : Bool :=
  let m := min repetitions (output_size - s.output_ptr)
  decide (look_behind_pos + m ≤ s.dict_size) &&
    !(decide (look_behind_pos < s.dict_pos) && decide (s.dict_pos < look_behind_pos + m))

/-- Every back-reference met by the routine on its run from `s` satisfies
`lzss_backref_separate`. -/
def lzss_separated (input : List Nat) (output_size dict_capacity : Nat) :
    Nat → LzssState → Bool
  | 0, _ => true
  | fuel + 1, s =>
    if s.output_ptr < output_size then
      match lzss_parse input s, lzss_token input output_size dict_capacity s with
      | .ok (.backref look_behind_pos repetitions, s1), .ok s2 =>
        lzss_backref_separate output_size look_behind_pos repetitions s1 &&
          lzss_separated input output_size dict_capacity fuel s2
      | .ok (.literal _, _), .ok s2 => lzss_separated input output_size dict_capacity fuel s2
      | _, _ => true
    else true

/-- A back-reference on which the copy pass of the routine, which reads the
dictionary as it stands when the token begins (read position wrapped modulo the
fill of that moment), emits the bytes that the naive self-copying copy emits. -/
def lzss_backref_agrees (output_size dict_capacity look_behind_pos repetitions : Nat)
    (s : LzssState) : Bool :=
  match lzss_copy output_size dict_capacity repetitions look_behind_pos s,
      naive_copy output_size dict_capacity repetitions look_behind_pos s with
  | .ok sc, .ok sn => decide (sc.output = sn.output)
  | _, _ => false

/-- Every back-reference met by the routine on its run from `s` satisfies
`lzss_backref_agrees`. -/
def lzss_agrees (input : List Nat) (output_size dict_capacity : Nat) :
    Nat → LzssState → Bool
  | 0, _ => true
  | fuel + 1, s =>
    if s.output_ptr < output_size then
      match lzss_parse input s, lzss_token input output_size dict_capacity s with
      | .ok (.backref look_behind_pos repetitions, s1), .ok s2 =>
        lzss_backref_agrees output_size dict_capacity look_behind_pos repetitions s1 &&
          lzss_agrees input output_size dict_capacity fuel s2
      | .ok (.literal _, _), .ok s2 => lzss_agrees input output_size dict_capacity fuel s2
      | _, _ => true
    else true

/-- Shape invariant of the state of the routine: the buffers keep their
allocated lengths and the dictionary cursors stay within the capacity. -/
def LzssWf (output_size dict_capacity : Nat) (s : LzssState) : Prop :=
  s.dict.length = dict_capacity ∧ s.dict_size ≤ dict_capacity ∧
  s.dict_pos < dict_capacity ∧ s.output.length = output_size ∧
  s.output_ptr ≤ output_size

/-! ## Byte streams (`io::File::stream`, `io::MemoryStream`) -/

/-- Modelled from the spec: the container handle, "a random-access byte stream
over the archive's bytes". The stream classes are not among the sources; a
stream is its bytes and a read cursor. -/
structure ByteStream where
  data : List Nat
  pos : Nat
  deriving DecidableEq, Repr

/-- Little-endian value of a byte string. -/
def le_value : List Nat → Nat
  | [] => 0
  | b :: rest => b + 256 * le_value rest

/-- Modelled from the spec: `stream.size()`, the total length of the container. -/
def ByteStream.size (st : ByteStream) : Nat := st.data.length

/-- Modelled from the spec: `stream.tell()`, the read cursor. -/
def ByteStream.tell (st : ByteStream) : Nat := st.pos

/-- Modelled from the spec: `stream.seek(offset)`; seeking past the end throws
`err::EofError`. -/
def ByteStream.seek (st : ByteStream) (offset : Nat) : Outcome ByteStream :=
  if offset ≤ st.data.length then .ok { st with pos := offset } else .fail .eofError

/-- Modelled from the spec: `stream.read(n)` returns the next `n` bytes and
advances the cursor; it throws `err::EofError` when fewer than `n` bytes are
left. -/
def ByteStream.read (st : ByteStream) (n : Nat) : Outcome (List Nat × ByteStream) :=
  if st.pos + n ≤ st.data.length then
    .ok ((st.data.drop st.pos).take n, { st with pos := st.pos + n })
  else .fail .eofError

/-- Modelled from the spec: `stream.read_u8()`. -/
def ByteStream.read_u8 (st : ByteStream) : Outcome (Nat × ByteStream) :=
  match st.read 1 with
  | .fail f => .fail f
  | .ok (bytes, st1) => .ok (le_value bytes % 2 ^ 8, st1)

/-- Modelled from the spec: `stream.read_u16_le()`, "a 16-bit entry count". -/
def ByteStream.read_u16_le (st : ByteStream) : Outcome (Nat × ByteStream) :=
  match st.read 2 with
  | .fail f => .fail f
  | .ok (bytes, st1) => .ok (le_value bytes % 2 ^ 16, st1)

/-- Modelled from the spec: `stream.read_u32_le()`, a little-endian 32-bit field. -/
def ByteStream.read_u32_le (st : ByteStream) : Outcome (Nat × ByteStream) :=
  match st.read 4 with
  | .fail f => .fail f
  | .ok (bytes, st1) => .ok (le_value bytes % 2 ^ 32, st1)

/-- The bytes of a field before its first zero byte. -/
def zero_terminated (bytes : List Nat) : List Nat :=
  bytes.takeWhile (fun b => b ≠ 0)

/-- Modelled from the spec: `stream.read_to_zero(n)`, "a fixed 16-byte
zero-terminated name field": `n` bytes are consumed and the part before the first
zero byte is returned. -/
def ByteStream.read_to_zero (st : ByteStream) (n : Nat) : Outcome (List Nat × ByteStream) :=
  match st.read n with
  | .fail f => .fail f
  | .ok (bytes, st1) => .ok (zero_terminated bytes, st1)

/-! ## `Pak1ArchiveDecoder::read_meta_impl` (dictionary-compressed format)

`sjis_to_utf8` stands for `algo::sjis_to_utf8(...).str()`, the transcoding of a
name into a path, which is not among the sources. -/

namespace Pak1ArchiveDecoder

/-- The struct `ArchiveEntryImpl` of `pak1_archive_decoder.cc` (with the `path`
of its base `fmt::ArchiveEntry`). -/
structure ArchiveEntryImpl where
  path : List Nat
  offset : Nat
  size : Nat
  compressed : Bool
  already_unpacked : Bool
  deriving DecidableEq, Repr

/-- The loop `for (auto i : algo::range(file_count))` of `read_meta_impl`, with
`k` rows left and `entries` the `meta->entries` built so far. -/
def read_meta_loop (sjis_to_utf8 : List Nat → List Nat) :
    Nat → ByteStream → List ArchiveEntryImpl → Outcome (List ArchiveEntryImpl × ByteStream)
  | 0, st, entries => .ok (entries, st)
  | k + 1, st, entries =>
    match st.read_to_zero 16 with
    | .fail f => .fail f
    | .ok (name, st1) =>
      match st1.read_u32_le with
      | .fail f => .fail f
      | .ok (size, st2) =>
        match st2.read_u32_le with
        | .fail f => .fail f
        | .ok (indicator, st3) =>
          match st3.read_u32_le with
          | .fail f => .fail f
          | .ok (offset, st4) =>
            let entry : ArchiveEntryImpl :=
              { path := sjis_to_utf8 name
                offset := offset
                size := size
                compressed := decide (indicator > 0)
                already_unpacked := false }
            if entry.size ≠ 0 then
              read_meta_loop sjis_to_utf8 k st4 (entries ++ [entry])
            else read_meta_loop sjis_to_utf8 k st4 entries

/-- The function `Pak1ArchiveDecoder::read_meta_impl`; it returns the entries of
the `ArchiveMeta` and the stream as it leaves it. -/
def read_meta_impl (sjis_to_utf8 : List Nat → List Nat) (st : ByteStream) :
    Outcome (List ArchiveEntryImpl × ByteStream) :=
  match st.read_u32_le with
  | .fail f => .fail f
  | .ok (file_count, st1) => read_meta_loop sjis_to_utf8 file_count st1 []

end Pak1ArchiveDecoder

/-- Row `i` of the table of a dictionary-compressed container, read off the bytes
at its fixed place `4 + 28 * i`: a 16-byte zero-terminated name, then the `u32`
fields size, compression indicator and offset. -/
def pak1_row (sjis_to_utf8 : List Nat → List Nat) (data : List Nat) (i : Nat) :
    Pak1ArchiveDecoder.ArchiveEntryImpl :=
  { path := sjis_to_utf8 (zero_terminated ((data.drop (4 + 28 * i)).take 16))
    size := le_value ((data.drop (4 + 28 * i + 16)).take 4) % 2 ^ 32
    compressed := decide (le_value ((data.drop (4 + 28 * i + 20)).take 4) % 2 ^ 32 > 0)
    offset := le_value ((data.drop (4 + 28 * i + 24)).take 4) % 2 ^ 32
    already_unpacked := false }

/-- The `file_count` field of a dictionary-compressed container. -/
def pak1_file_count (data : List Nat) : Nat := le_value (data.take 4) % 2 ^ 32

/-- The table rows of a dictionary-compressed container, in table order. -/
def pak1_rows (sjis_to_utf8 : List Nat → List Nat) (data : List Nat) :
    List Pak1ArchiveDecoder.ArchiveEntryImpl :=
  (List.range (pak1_file_count data)).map (pak1_row sjis_to_utf8 data)

/-! ## The stream cipher `decrypt` and `Pak2ArchiveDecoder::read_meta_impl` -/

/-- Modelled from the spec: "a Mersenne-Twister (32-bit word) generator" seeded
with a 32-bit seed. `algo::crypt::MersenneTwister` is not among the sources; the
generator is a parameter of the embedding: a state, the seeding function
`Improved` and `next_u32`, which yields a word and the next state. -/
structure MersenneTwister where
  State : Type
  Improved : Nat → State
  next_u32 : State → Nat × State

/-- The successive words of the generator from a state: `words mt k` is the word
returned by the `k`-th call of `next_u32` (counting from 0). -/
def MersenneTwister.words (G : MersenneTwister) : G.State → Nat → Nat
  | mt, 0 => (G.next_u32 mt).1
  | mt, k + 1 => G.words (G.next_u32 mt).2 k

/-- The loop of `decrypt` over the bytes of the buffer, in order; `a`, `b` are
`u8` variables and `buffer[i]` is `u8` storage. -/
def decrypt_loop (G : MersenneTwister) (delta : Nat) :
    G.State → Nat → Nat → List Nat → List Nat
  | _, _, _, [] => []
  | mt, a, b, x :: rest =>
    let x1 := (x ^^^ (G.next_u32 mt).1) % 256
    let x2 := (x1 ^^^ a) % 256
    x2 :: decrypt_loop G delta (G.next_u32 mt).2 ((a + b) % 256) ((b + delta) % 256) rest

/-- The function `decrypt(buffer, mt_seed, a, b, delta)`; the result is the buffer
after the in-place update. -/
def decrypt (G : MersenneTwister) (buffer : List Nat) (mt_seed a b delta : Nat) : List Nat :=
  decrypt_loop G delta (G.Improved mt_seed) a b buffer

/-- The pair of running bytes `(a_i, b_i)` of `decrypt` before byte `i`:
`a_0 = a0`, `b_0 = b0`, `a_(i+1) = (a_i + b_i) mod 256`, `b_(i+1) = (b_i + delta) mod 256`. -/
def decrypt_ab (a0 b0 delta : Nat) : Nat → Nat × Nat
  | 0 => (a0, b0)
  | i + 1 =>
    (((decrypt_ab a0 b0 delta i).1 + (decrypt_ab a0 b0 delta i).2) % 256,
     ((decrypt_ab a0 b0 delta i).2 + delta) % 256)

namespace Pak2ArchiveDecoder

/-- The struct `ArchiveEntryImpl` of `pak2_archive_decoder.cc` (with the `path`
of its base `dec::ArchiveEntry`). -/
structure ArchiveEntryImpl where
  path : List Nat
  offset : Nat
  size : Nat
  already_unpacked : Bool
  deriving DecidableEq, Repr

/-- The loop `for (const auto i : algo::range(file_count))` of `read_meta_impl`
over the decrypted table, with `k` records left. The sum `offset + size` is a
`size_t` sum. -/
def read_meta_loop (sjis_to_utf8 : List Nat → List Nat) (container_size : Nat) :
    Nat → ByteStream → List ArchiveEntryImpl → Outcome (List ArchiveEntryImpl)
  | 0, _, entries => .ok entries
  | k + 1, table_stream, entries =>
    match table_stream.read_u32_le with
    | .fail f => .fail f
    | .ok (offset, ts1) =>
      match ts1.read_u32_le with
      | .fail f => .fail f
      | .ok (size, ts2) =>
        match ts2.read_u8 with
        | .fail f => .fail f
        | .ok (name_size, ts3) =>
          match ts3.read name_size with
          | .fail f => .fail f
          | .ok (name, ts4) =>
            if (offset + size) % 2 ^ 64 > container_size then .fail .badDataOffsetError
            else
              read_meta_loop sjis_to_utf8 container_size k ts4
                (entries ++ [{ path := sjis_to_utf8 name, offset := offset, size := size,
                               already_unpacked := false }])

/-- The function `Pak2ArchiveDecoder::read_meta_impl`; it returns the entries of
the `ArchiveMeta`. -/
def read_meta_impl (G : MersenneTwister) (sjis_to_utf8 : List Nat → List Nat)
    (st : ByteStream) : Outcome (List ArchiveEntryImpl) :=
  match st.seek 0 with
  | .fail f => .fail f
  | .ok st0 =>
    match st0.read_u16_le with
    | .fail f => .fail f
    | .ok (file_count, st1) =>
      if file_count = 0 ∧ st1.size ≠ 6 then .fail .recognitionError
      else
        match st1.read_u32_le with
        | .fail f => .fail f
        | .ok (table_size, st2) =>
          if table_size > st2.size - st2.tell then .fail .recognitionError
          else if table_size > file_count * (4 + 4 + 256 + 1) then .fail .recognitionError
          else
            match st2.read table_size with
            | .fail f => .fail f
            | .ok (table_data, st3) =>
              let table_data := decrypt G table_data ((table_size + 6) % 2 ^ 32) 0xC5 0x83 0x53
              read_meta_loop sjis_to_utf8 st3.size file_count
                { data := table_data, pos := 0 } []

end Pak2ArchiveDecoder

/-- A record of the decrypted table of an encrypted-table container. -/
structure Pak2Record where
  offset : Nat
  size : Nat
  name : List Nat
  deriving DecidableEq, Repr

/-- The `k` low bytes of a value, low byte first. -/
def le_bytes : Nat → Nat → List Nat
  | 0, _ => []
  | k + 1, v => v % 256 :: le_bytes k (v / 256)

/-- The layout of a record in the table: `offset: u32 LE, size: u32 LE,
name_length: u8, name`. -/
def Pak2Record.bytes (r : Pak2Record) : List Nat :=
  le_bytes 4 r.offset ++ le_bytes 4 r.size ++ [r.name.length] ++ r.name

/-- A record whose fields fit their widths and whose name is made of bytes. -/
def Pak2Record.valid (r : Pak2Record) : Prop :=
  r.offset < 2 ^ 32 ∧ r.size < 2 ^ 32 ∧ r.name.length < 256 ∧ ∀ b ∈ r.name, b < 256

/-- The entry `read_meta_impl` makes of a record. -/
def Pak2Record.entry (sjis_to_utf8 : List Nat → List Nat) (r : Pak2Record) :
    Pak2ArchiveDecoder.ArchiveEntryImpl :=
  { path := sjis_to_utf8 r.name, offset := r.offset, size := r.size, already_unpacked := false }

/-- The `file_count` field of the header of an encrypted-table container. -/
def pak2_file_count (data : List Nat) : Nat := le_value (data.take 2) % 2 ^ 16

/-- The table length field of the header of an encrypted-table container. -/
def pak2_table_size (data : List Nat) : Nat := le_value ((data.drop 2).take 4) % 2 ^ 32

/-- The decrypted table of an encrypted-table container: the `table_size` bytes
after the 6-byte header, decrypted with seed `table_size + 6` and the constants
`0xC5`, `0x83`, `0x53`. -/
def pak2_table (G : MersenneTwister) (data : List Nat) : List Nat :=
  decrypt G ((data.drop 6).take (pak2_table_size data)) (pak2_table_size data + 6)
    0xC5 0x83 0x53

/-- A 32-bit linear congruential generator, used to instantiate the generator
parameter in worked examples (it is not the Mersenne Twister). -/
def lcg_generator : MersenneTwister :=
  { State := Nat
    Improved := fun seed => seed % 2 ^ 32
    next_u32 := fun s =>
      ((s * 1664525 + 1013904223) % 2 ^ 32, (s * 1664525 + 1013904223) % 2 ^ 32) }

/-- A 32-byte dictionary-compressed container used in worked examples: one table
row named `a` with size 1, not compressed, and offset `0xFFFFFFFF`. -/
def pak1_sample_far_offset : List Nat :=
  [1, 0, 0, 0,
   97, 0, 0, 0, 0, 0, 0, 0, 0, 0, 0, 0, 0, 0, 0, 0, 1, 0, 0, 0, 0, 0, 0, 0, 255, 255, 255, 255]

/-! ## Extraction of single entries (`read_file_impl`) and recognition -/

/-- Modelled from the spec: an extracted file (`io::File`), a path and its
bytes. -/
structure File where
  path : List Nat
  data : List Nat
  deriving DecidableEq, Repr

/-- Modelled from the spec: `algo::unxor(input, key)` with a `u8` key, "each byte
is masked with a constant ... XORed uniformly across the payload". -/
def unxor (input : List Nat) (key : Nat) : List Nat :=
  input.map (fun b => (b ^^^ key) % 256)

namespace Pak2ArchiveDecoder

/-- The function `Pak2ArchiveDecoder::read_file_impl`; `none` is the null pointer
returned for an entry that is already unpacked. The key `(offset >> 1) | 0x23` is
computed in `size_t` and passed as a `u8`. -/
def read_file_impl (st : ByteStream) (e : ArchiveEntryImpl) : Outcome (Option File) :=
  if e.already_unpacked then .ok none
  else
    match st.seek e.offset with
    | .fail f => .fail f
    | .ok st1 =>
      match st1.read e.size with
      | .fail f => .fail f
      | .ok (bytes, _) =>
        .ok (some { path := e.path, data := unxor bytes (((e.offset >>> 1) ||| 0x23) % 256) })

/-- Modelled from the spec: the base-class `read_meta`, which is not among the
sources: the metadata parse of the container, from its start. -/
def read_meta (G : MersenneTwister) (sjis_to_utf8 : List Nat → List Nat) (st : ByteStream) :
    Outcome (List ArchiveEntryImpl) :=
  match st.seek 0 with
  | .fail f => .fail f
  | .ok st0 => read_meta_impl G sjis_to_utf8 st0

/-- The function `Pak2ArchiveDecoder::is_recognized_impl`: `try { read_meta(...);
return true; } catch (...) { return false; }`. Only an exception can be
caught. -/
def is_recognized_impl (G : MersenneTwister) (sjis_to_utf8 : List Nat → List Nat)
    (st : ByteStream) : Outcome Bool :=
  match read_meta G sjis_to_utf8 st with
  | .ok _ => .ok true
  | .fail f => if f.isException then .ok false else .fail f

end Pak2ArchiveDecoder

/-- The difference `a - b` of two `u32` values `a`, `b`, which wraps modulo
`2^32`. -/
def u32_sub (a b : Nat) : Nat := if b ≤ a then a - b else a + 2 ^ 32 - b

namespace Pak1ArchiveDecoder

/-- The struct `Pak1ArchiveDecoder::Priv`: `boost::optional<int> version`. -/
structure Priv where
  version : Option Int
  deriving DecidableEq, Repr

/-- The function `Pak1ArchiveDecoder::set_version`; the second component is the
decoder state after the call, also when the call throws. -/
def set_version (p : Priv) (version : Int) : Outcome Unit × Priv :=
  if version ≠ 1 ∧ version ≠ 2 then (.fail .usageError, p)
  else (.ok (), { p with version := some version })

/-- The function `Pak1ArchiveDecoder::read_file_impl`; `none` is the null pointer
returned for an entry that is already unpacked. `size_comp - 8` is a `u32`
difference. -/
def read_file_impl (p : Priv) (st : ByteStream) (e : ArchiveEntryImpl) :
    Outcome (Option File) :=
  match p.version with
  | none => .fail .usageError
  | some version =>
    if e.already_unpacked then .ok none
    else
      match st.seek e.offset with
      | .fail f => .fail f
      | .ok st1 =>
        if e.compressed then
          match st1.read_u32_le with
          | .fail f => .fail f
          | .ok (size_comp, st2) =>
            match st2.read_u32_le with
            | .fail f => .fail f
            | .ok (size_orig, st3) =>
              match st3.read (u32_sub size_comp 8) with
              | .fail f => .fail f
              | .ok (data, _) =>
                match custom_lzss_decompress data size_orig
                    (if version = 1 then 0x1000 else 0x800) with
                | .fail f => .fail f
                | .ok data => .ok (some { path := e.path, data := data })
        else
          match st1.read e.size with
          | .fail f => .fail f
          | .ok (data, _) => .ok (some { path := e.path, data := data })

/-- Modelled from the spec: the base-class `read_meta`, which is not among the
sources: the metadata parse of the container, from its start. The decoder object
is passed as for every member function. -/
def read_meta (_p : Priv) (sjis_to_utf8 : List Nat → List Nat) (st : ByteStream) :
    Outcome (List ArchiveEntryImpl × ByteStream) :=
  match st.seek 0 with
  | .fail f => .fail f
  | .ok st0 => read_meta_impl sjis_to_utf8 st0

/-- The function `Pak1ArchiveDecoder::is_recognized_impl`. The sum
`offset + size` is a `size_t` sum. -/
def is_recognized_impl (p : Priv) (sjis_to_utf8 : List Nat → List Nat) (st : ByteStream) :
    Outcome Bool :=
  match read_meta p sjis_to_utf8 st with
  | .fail f => .fail f
  | .ok (entries, st1) =>
    if entries.length = 0 then .ok false
    else
      match entries[entries.length - 1]? with
      | none => .ok false
      | some last_entry =>
        .ok (decide ((last_entry.offset + last_entry.size) % 2 ^ 64 = st1.size))

end Pak1ArchiveDecoder

/-! ## Cross-entry preprocessing (`preprocess`) -/

/-- The role of an entry in `preprocess`, one for each of the maps
`palette_entries`, `sprite_entries` and `mask_entries`. -/
inductive Role where
  | palette
  | sprite
  | mask
  deriving DecidableEq, Repr

/-- Modelled from the spec: what a call of the file saver does, "save(logical_path,
bytes) -> success|failure": it saves the file, or it returns without having saved
it (a failure it reports to its caller or logs), or it throws. -/
inductive SaveResult where
  | saved
  | failed
  | thrown
  deriving DecidableEq, Repr

/-- Modelled from the spec: the collaborators of `preprocess` that are not among
the sources. `stem` and `has_extension` are the path helpers `io::path::stem` and
`io::path::has_extension`; `decode` is `GrpImageDecoder::decode` on the sprite
file and the optional palette and mask files, `none` when it throws;
`file_from_image` is `util::file_from_image`; `save` is `FileSaver::save`, given
the files saved before. -/
structure Collaborators where
  stem : List Nat → List Nat
  has_extension : List Nat → String → Bool
  decode : File → Option File → Option File → Option (List Nat)
  file_from_image : List Nat → List Nat → File
  save : List File → File → SaveResult

/-- A `std::map<std::string, ArchiveEntryImpl*>`: the pairs in ascending key
order (byte-wise lexicographic, as `std::string` compares); a pointer to an
entry is its index in `meta.entries`. -/
abbrev PathMap := List (List Nat × Nat)

/-- Insertion of a key that a `std::map` does not hold yet, at its place in the
key order. -/
def map_insert (key : List Nat) (value : Nat) : PathMap → PathMap
  | [] => [(key, value)]
  | (k, v) :: rest =>
    if key < k then (key, value) :: (k, v) :: rest
    else (k, v) :: map_insert key value rest

/-- The assignment `m[key] = value` on a `std::map`: the value of a key already
held is replaced, a new key is inserted. -/
def map_assign (m : PathMap) (key : List Nat) (value : Nat) : PathMap :=
  if m.any (fun e => e.1 == key) then
    m.map (fun e => if e.1 = key then (key, value) else e)
  else map_insert key value m

/-- The lookup `m.find(key)` on a `std::map`; `none` is `m.end()`. -/
def map_find (m : PathMap) (key : List Nat) : Option Nat :=
  m.lookup key

namespace Pak1ArchiveDecoder

instance : Inhabited ArchiveEntryImpl := ⟨⟨[], 0, 0, false, false⟩⟩

/-- The `if`/`else if` chain of the first loop of `preprocess`: the map, if any,
that receives an entry with this path. -/
def preprocess_role (c : Collaborators) (path : List Nat) : Option Role :=
  if c.has_extension path "c16" then some .palette
  else if c.has_extension path "grp" then some .sprite
  else if c.has_extension path "msk" then some .mask
  else none

/-- The first loop of `preprocess`, `for (auto &entry : meta.entries)`, from the
entry with index `i` on; `maps r` is the map of the role `r`. -/
def preprocess_collect (c : Collaborators) :
    List ArchiveEntryImpl → Nat → (Role → PathMap) → (Role → PathMap)
  | [], _, maps => maps
  | entry :: rest, i, maps =>
    let fn := c.stem entry.path
    match preprocess_role c entry.path with
    | some r =>
      preprocess_collect c rest (i + 1)
        (fun r2 => if r2 = r then map_assign (maps r) fn i else maps r2)
    | none => preprocess_collect c rest (i + 1) maps

/-- The state that `preprocess` changes: the entries of `meta` (their
`already_unpacked` flags) and the files the saver has saved so far. -/
structure PreprocessState where
  entries : List ArchiveEntryImpl
  saved : List File
  deriving DecidableEq, Repr

/-- The assignment `entry->already_unpacked = true` through the pointer `i`. -/
def set_already_unpacked (entries : List ArchiveEntryImpl) (i : Nat) :
    List ArchiveEntryImpl :=
  match entries[i]? with
  | some e => entries.set i { e with already_unpacked := true }
  | none => entries

/-- The guarded assignment `if (entry) entry->already_unpacked = true` through
the pointer `entry`, null when the group has no such entry. -/
def set_already_unpacked_if (entries : List ArchiveEntryImpl) (entry : Option Nat) :
    List ArchiveEntryImpl :=
  match entry with
  | some i => set_already_unpacked entries i
  | none => entries

/-- Modelled from the spec: the base-class `read_file`, which is not among the
sources: the extraction of one entry by `read_file_impl`. -/
def read_file (p : Priv) (st : ByteStream) (e : ArchiveEntryImpl) : Outcome (Option File) :=
  read_file_impl p st e

/-- The extraction of the optional palette or mask entry of a group: a null
file when the map has no entry for the stem. -/
def preprocess_read (p : Priv) (st : ByteStream) (entries : List ArchiveEntryImpl)
    (entry : Option Nat) : Outcome (Option File) :=
  match entry with
  | none => .ok none
  | some i => read_file p st (entries.getD i default)

/-- The body of the `try` block of `preprocess` for the group `it` = (`key`,
`sprite`). A failure that is an exception is what the block throws; `*sprite_file`
on a null `sprite_file` is undefined behaviour. The call `saver.save(...)` is a
statement of its own: when it returns, whatever it reports is discarded and the
three assignments follow. -/
def preprocess_try (p : Priv) (c : Collaborators) (st : ByteStream) (maps : Role → PathMap)
    (key : List Nat) (sprite : Nat) (s : PreprocessState) : Outcome PreprocessState :=
  let sprite_entry := s.entries.getD sprite default
  match read_file p st sprite_entry with
  | .fail f => .fail f
  | .ok sprite_file =>
    let palette_entry := map_find (maps .palette) key
    match preprocess_read p st s.entries palette_entry with
    | .fail f => .fail f
    | .ok palette_file =>
      let mask_entry := map_find (maps .mask) key
      match preprocess_read p st s.entries mask_entry with
      | .fail f => .fail f
      | .ok mask_file =>
        match sprite_file with
        | none => .fail .ubNullDeref
        | some sprite_file =>
          match c.decode sprite_file palette_file mask_file with
          | none => .fail .otherError
          | some sprite_image =>
            let file := c.file_from_image sprite_image sprite_entry.path
            match c.save s.saved file with
            | .thrown => .fail .otherError
            | result =>
              let entries1 := set_already_unpacked s.entries sprite
              let entries2 := set_already_unpacked_if entries1 mask_entry
              let entries3 := set_already_unpacked_if entries2 palette_entry
              .ok { entries := entries3
                    saved := if result = .saved then s.saved ++ [file] else s.saved }

/-- One iteration of `for (auto it : sprite_entries)`: the `try` block and
`catch (...) { continue; }`, which catches every exception and nothing else. -/
def preprocess_group (p : Priv) (c : Collaborators) (st : ByteStream) (maps : Role → PathMap)
    (it : List Nat × Nat) (s : PreprocessState) : Outcome PreprocessState :=
  match preprocess_try p c st maps it.1 it.2 s with
  | .ok s1 => .ok s1
  | .fail f => if f.isException then .ok s else .fail f

/-- The loop `for (auto it : sprite_entries)` over the groups still to visit. -/
def preprocess_loop (p : Priv) (c : Collaborators) (st : ByteStream) (maps : Role → PathMap) :
    List (List Nat × Nat) → PreprocessState → Outcome PreprocessState
  | [], s => .ok s
  | it :: rest, s =>
    match preprocess_group p c st maps it s with
    | .fail f => .fail f
    | .ok s1 => preprocess_loop p c st maps rest s1

/-- The maps of `preprocess` after its first loop. -/
def preprocess_maps (c : Collaborators) (entries : List ArchiveEntryImpl) : Role → PathMap :=
  preprocess_collect c entries 0 (fun _ => [])

/-- The function `Pak1ArchiveDecoder::preprocess` on the entries of `meta`, with
the files saved before the call. -/
def preprocess (p : Priv) (c : Collaborators) (st : ByteStream)
    (entries : List ArchiveEntryImpl) (saved : List File) : Outcome PreprocessState :=
  let maps := preprocess_maps c entries
  preprocess_loop p c st maps (maps .sprite) { entries := entries, saved := saved }

/-- Invariant of the first loop of `preprocess` once the first `n` entries of
`es` are visited: the keys of each map are distinct; each pair of the map of a
role points to a visited entry that has this role and the key as its stem; and
the stem of each visited entry that has a role is a key of the map of that
role. -/
def PreprocessMapsInv (c : Collaborators) (es : List ArchiveEntryImpl) (n : Nat)
    (maps : Role → PathMap) : Prop :=
  (∀ r, ((maps r).map Prod.fst).Nodup) ∧
  (∀ r k i, (k, i) ∈ maps r →
    i < n ∧ ∃ e, es[i]? = some e ∧ preprocess_role c e.path = some r ∧ c.stem e.path = k) ∧
  (∀ i e r, i < n → es[i]? = some e → preprocess_role c e.path = some r →
    ∃ j, (c.stem e.path, j) ∈ maps r)

/-- The entries whose flags the iteration for the group `it` assigns: the sprite
entry and the mask and palette entries found for the stem. -/
def preprocess_touches (maps : Role → PathMap) (it : List Nat × Nat) (i : Nat) : Prop :=
  i = it.2 ∨ map_find (maps .mask) it.1 = some i ∨ map_find (maps .palette) it.1 = some i

instance (maps : Role → PathMap) (it : List Nat × Nat) (i : Nat) :
    Decidable (preprocess_touches maps it i) :=
  inferInstanceAs (Decidable
    (i = it.2 ∨ map_find (maps .mask) it.1 = some i ∨ map_find (maps .palette) it.1 = some i))

end Pak1ArchiveDecoder

/-- Modelled from the spec: `io::path::name`, the file name of a path: the part
after its last `/`. The path class is not among the sources. -/
def path_name (path : List Nat) : List Nat :=
  (path.reverse.takeWhile (fun b => b != 47)).reverse

/-- Modelled from the spec: `io::path::stem`, "a file name with its extension
removed": the file name up to its last `.`, the whole file name when it has no
`.`. -/
def path_stem (path : List Nat) : List Nat :=
  let name := path_name path
  if name.contains 46 then ((name.reverse.dropWhile (fun b => b != 46)).drop 1).reverse
  else name

/-- Modelled from the spec: `io::path::has_extension`: the file name has an
extension, the part after its last `.`, and it is `ext`. -/
def path_has_extension (path : List Nat) (ext : String) : Bool :=
  let name := path_name path
  name.contains 46 &&
    (name.reverse.takeWhile (fun b => b != 46)).reverse == ext.toList.map Char.toNat

/-- Collaborators used in worked examples: the path helpers `path_stem` and
`path_has_extension`; the image is the sprite bytes followed by the palette and
the mask bytes, the composite file holds the image under the given path, and the
saver accepts every file. -/
def sample_collaborators : Collaborators :=
  { stem := path_stem
    has_extension := path_has_extension
    decode := fun s pal msk =>
      some (s.data ++ (match pal with | some f => f.data | none => []) ++
        (match msk with | some f => f.data | none => []))
    file_from_image := fun image path => { path := path, data := image }
    save := fun _ _ => .saved }

/-- Collaborators used in worked examples: as `sample_collaborators`, with a
codec that throws when it is given no palette. -/
def sample_collaborators_strict : Collaborators :=
  { sample_collaborators with
    decode := fun s pal msk =>
      match pal with
      | none => none
      | some f => some (s.data ++ f.data ++ (match msk with | some g => g.data | none => [])) }

/-- Collaborators used in worked examples: as `sample_collaborators`, with a
saver that saves nothing and reports the failure without throwing. -/
def sample_collaborators_silent : Collaborators :=
  { sample_collaborators with save := fun _ _ => .failed }

/-- The entries of an archive used in worked examples: the sprite `s.grp`, the
text file `r.txt`, the palette `s.c16`, the palette `t.c16` (no sprite has the
stem `t`) and the mask `s.msk`; none is compressed, none is marked. -/
def pak1_sample_trio : List Pak1ArchiveDecoder.ArchiveEntryImpl :=
  [ ⟨[115, 46, 103, 114, 112], 0, 2, false, false⟩,
    ⟨[114, 46, 116, 120, 116], 2, 1, false, false⟩,
    ⟨[115, 46, 99, 49, 54], 3, 1, false, false⟩,
    ⟨[116, 46, 99, 49, 54], 4, 1, false, false⟩,
    ⟨[115, 46, 109, 115, 107], 5, 2, false, false⟩ ]

/-- The payload bytes addressed by the sample archives. -/
def pak1_sample_trio_stream : ByteStream :=
  { data := [1, 2, 3, 4, 5, 6, 7], pos := 0 }

/-- The entries of an archive used in worked examples: the sprite `s.grp`, then
the sprite `a.grp` (no palette has the stem `a`) and the palette `s.c16`; the
loop over the groups visits the stem `a` before the stem `s`. -/
def pak1_sample_two_groups : List Pak1ArchiveDecoder.ArchiveEntryImpl :=
  [ ⟨[115, 46, 103, 114, 112], 0, 2, false, false⟩,
    ⟨[97, 46, 103, 114, 112], 2, 1, false, false⟩,
    ⟨[115, 46, 99, 49, 54], 3, 1, false, false⟩ ]

/-- The entries of an archive used in worked examples, with four distinct paths:
the sprite `x/s.grp` in a directory, the palette `s.c16`, the mask `s.msk` and
the sprite `s.grp`; all four have the stem `s`. -/
def pak1_sample_shadowed : List Pak1ArchiveDecoder.ArchiveEntryImpl :=
  [ ⟨[120, 47, 115, 46, 103, 114, 112], 0, 2, false, false⟩,
    ⟨[115, 46, 99, 49, 54], 2, 1, false, false⟩,
    ⟨[115, 46, 109, 115, 107], 3, 1, false, false⟩,
    ⟨[115, 46, 103, 114, 112], 4, 2, false, false⟩ ]

/-- A 20-byte encrypted-table container used in worked examples (table encrypted
for `lcg_generator`): one record named `a` with offset 16 and size 4, followed by
the payload bytes `1 2 3 4`. -/
def pak2_sample : List Nat :=
  [1, 0, 10, 0, 0, 0, 250, 138, 39, 3, 20, 132, 201, 145, 71, 199, 1, 2, 3, 4]

/-- A payload used in worked examples: the sub-header `compressed_size = 14`,
`uncompressed_size = 5`, then the token stream `FF 68 65 6C 6C 6F` (five
literals). -/
def pak1_sample_payload : List Nat :=
  [14, 0, 0, 0, 5, 0, 0, 0, 0xFF, 0x68, 0x65, 0x6C, 0x6C, 0x6F]

/-- A 63-byte dictionary-compressed container used in worked examples: two table
rows, `ab` (size 3, not compressed, offset 60) and `c` (size 0, offset 63),
followed by the payload bytes `7 8 9`. -/
def pak1_sample_two_rows : List Nat :=
  [2, 0, 0, 0,
   97, 98, 0, 0, 0, 0, 0, 0, 0, 0, 0, 0, 0, 0, 0, 0, 3, 0, 0, 0, 0, 0, 0, 0, 60, 0, 0, 0,
   99, 0, 0, 0, 0, 0, 0, 0, 0, 0, 0, 0, 0, 0, 0, 0, 0, 0, 0, 0, 1, 0, 0, 0, 63, 0, 0, 0,
   7, 8, 9]

/-- A state of the routine used in worked examples (capacity 8, output size 8):
the literals `a b c` have been decoded from the stream `07 61 62 63 12 00` and
the next token is the back-reference with word `0x0012`. -/
def lzss_sample_state : LzssState :=
  { dict := [97, 98, 99, 0, 0, 0, 0, 0]
    dict_size := 3
    dict_pos := 3
    output := [97, 98, 99, 0, 0, 0, 0, 0]
    output_ptr := 3
    input_ptr := 4
    control := 0 }
/-! ## Properties of the LZSS routine: size of the result -/

theorem lzss_read_input_ok {input : List Nat} {s s1 : LzssState} {b : Nat}
    (h : lzss_read_input input s = .ok (b, s1)) :
    s1 = { s with input_ptr := s.input_ptr + 1 } ∧ input[s.input_ptr]? = some b := by
  unfold lzss_read_input at h
  split at h
  · rename_i b0 hb
    simp only [Outcome.ok.injEq, Prod.mk.injEq] at h
    exact ⟨h.2.symm, by rw [hb, h.1]⟩
  · simp at h

theorem lzss_dict_put_ok {cap b : Nat} {s s1 : LzssState}
    (h : lzss_dict_put cap b s = .ok s1) :
    s1.output = s.output ∧ s1.output_ptr = s.output_ptr ∧ s1.input_ptr = s.input_ptr ∧
      s1.control = s.control := by
  unfold lzss_dict_put at h
  split at h
  · simp only [Outcome.ok.injEq] at h
    subst h
    simp
  · simp at h

theorem lzss_copy_ok {n cap : Nat} (i : Nat) :
    ∀ (pos : Nat) (s s1 : LzssState), lzss_copy n cap i pos s = .ok s1 →
      s1.output.length = s.output.length ∧ s.output_ptr ≤ s1.output_ptr ∧
      (s.output_ptr ≤ n → s1.output_ptr ≤ n) ∧
      (0 < i → s.output_ptr < n → s.output_ptr < s1.output_ptr) ∧
      s1.input_ptr = s.input_ptr := by
  induction i with
  | zero =>
    intro pos s s1 h
    simp only [lzss_copy, Outcome.ok.injEq] at h
    subst h
    simp
  | succ i ih =>
    intro pos s s1 h
    rw [lzss_copy] at h
    split at h
    · rename_i hlt
      split at h
      · split at h
        · simp at h
        · have := ih _ _ _ h
          simp only [List.length_set] at this
          refine ⟨this.1, by omega, fun _ => this.2.2.1 (by omega), fun _ _ => by omega,
            this.2.2.2.2⟩
      · simp at h
    · simp only [Outcome.ok.injEq] at h
      subst h
      exact ⟨rfl, le_refl _, id, fun _ h2 => absurd h2 ‹_›, rfl⟩

theorem lzss_reinsert_ok {cap : Nat} (k : Nat) :
    ∀ (src : Nat) (s s1 : LzssState), lzss_reinsert cap k src s = .ok s1 →
      s1.output = s.output ∧ s1.output_ptr = s.output_ptr ∧ s1.input_ptr = s.input_ptr := by
  induction k with
  | zero =>
    intro src s s1 h
    simp only [lzss_reinsert, Outcome.ok.injEq] at h
    subst h
    simp
  | succ k ih =>
    intro src s s1 h
    rw [lzss_reinsert] at h
    split at h
    · simp at h
    · rename_i s2 h2
      have h3 := lzss_dict_put_ok h2
      have h4 := ih _ _ _ h
      exact ⟨h4.1.trans h3.1, h4.2.1.trans h3.2.1, h4.2.2.trans h3.2.2.1⟩

theorem lzss_literal_ok {input : List Nat} {cap : Nat} {s s1 : LzssState}
    (h : lzss_literal input cap s = .ok s1) :
    s1.output.length = s.output.length ∧ s1.output_ptr = s.output_ptr + 1 ∧
      s1.input_ptr = s.input_ptr + 1 := by
  unfold lzss_literal at h
  split at h
  · simp at h
  · rename_i b s2 h2
    have h3 := lzss_read_input_ok h2
    have h4 := lzss_dict_put_ok h
    simp only at h4
    rw [h4.1, h4.2.1, h4.2.2.1, h3.1]
    simp

theorem lzss_backref_ok {input : List Nat} {n cap : Nat} {s s1 : LzssState}
    (h : lzss_backref input n cap s = .ok s1) :
    s1.output.length = s.output.length ∧ s.output_ptr ≤ s1.output_ptr ∧
      (s.output_ptr ≤ n → s1.output_ptr ≤ n) ∧
      (s.output_ptr < n → s.output_ptr < s1.output_ptr) ∧
      s.input_ptr + 2 ≤ s1.input_ptr := by
  unfold lzss_backref at h
  split at h
  · simp at h
  · rename_i lo sa ha
    split at h
    · simp at h
    · rename_i hi sb hb
      have ha1 := (lzss_read_input_ok ha).1
      have hb1 := (lzss_read_input_ok hb).1
      simp only at h
      split at h
      · simp at h
      · rename_i rep sc hc
        have hsc : sc.output = s.output ∧ sc.output_ptr = s.output_ptr ∧
            s.input_ptr + 2 ≤ sc.input_ptr := by
          split at hc
          · split at hc
            · simp at hc
            · rename_i e sd hd
              have hd1 := (lzss_read_input_ok hd).1
              simp only [Outcome.ok.injEq, Prod.mk.injEq] at hc
              rw [← hc.2, hd1, hb1, ha1]
              simp
          · simp only [Outcome.ok.injEq, Prod.mk.injEq] at hc
            rw [← hc.2, hb1, ha1]
            simp
        split at h
        · simp at h
        · rename_i se he
          split at h
          · have h1 := lzss_copy_ok _ _ _ _ he
            have h2 := lzss_reinsert_ok _ _ _ _ h
            rw [h2.1, h2.2.1, h2.2.2, h1.1, h1.2.2.2.2, hsc.1]
            rw [hsc.2.1] at h1
            exact ⟨rfl, h1.2.1, h1.2.2.1, h1.2.2.2.1 (by omega), hsc.2.2⟩
          · simp at h

theorem lzss_token_ok {input : List Nat} {n cap : Nat} {s s1 : LzssState}
    (h : lzss_token input n cap s = .ok s1) :
    s1.output.length = s.output.length ∧ s.output_ptr ≤ s1.output_ptr ∧
      (s.output_ptr < n → s1.output_ptr ≤ n) ∧
      (s.output_ptr < n → s.output_ptr < s1.output_ptr) ∧
      s.input_ptr < s1.input_ptr := by
  unfold lzss_token at h
  simp only at h
  split at h
  · simp at h
  · rename_i sa ha
    have hsa : sa.output = s.output ∧ sa.output_ptr = s.output_ptr ∧
        s.input_ptr ≤ sa.input_ptr := by
      split at ha
      · split at ha
        · simp at ha
        · rename_i b sb hb
          have hb1 := (lzss_read_input_ok hb).1
          simp only [Outcome.ok.injEq] at ha
          rw [← ha, hb1]
          simp
      · simp only [Outcome.ok.injEq] at ha
        rw [← ha]
        simp
    split at h
    · have h1 := lzss_literal_ok h
      rw [hsa.1, hsa.2.1] at h1
      refine ⟨h1.1, by omega, fun _ => by omega, fun _ => by omega, by omega⟩
    · have h1 := lzss_backref_ok h
      rw [hsa.1, hsa.2.1] at h1
      exact ⟨h1.1, h1.2.1, fun h2 => h1.2.2.1 (by omega), h1.2.2.2.1, by omega⟩

theorem lzss_loop_ok {input : List Nat} {n cap : Nat} (fuel : Nat) :
    ∀ (s s1 : LzssState), lzss_loop input n cap fuel s = .ok s1 →
      s.output_ptr ≤ n → n ≤ s.output_ptr + fuel →
      s1.output.length = s.output.length ∧ s1.output_ptr = n ∧
        s.input_ptr ≤ s1.input_ptr := by
  induction fuel with
  | zero =>
    intro s s1 h h1 h2
    simp only [lzss_loop, Outcome.ok.injEq] at h
    subst h
    exact ⟨rfl, by omega, le_refl _⟩
  | succ fuel ih =>
    intro s s1 h h1 h2
    rw [lzss_loop] at h
    split at h
    · rename_i hlt
      split at h
      · simp at h
      · rename_i s2 h3
        have h4 := lzss_token_ok h3
        have h5 := ih _ _ h (h4.2.2.1 hlt) (by have := h4.2.2.2.1 hlt; omega)
        exact ⟨h5.1.trans h4.1, h5.2.1, by omega⟩
    · simp only [Outcome.ok.injEq] at h
      subst h
      exact ⟨rfl, by omega, le_refl _⟩

/-- The outer loop never stops for lack of fuel: a run that returns has filled the
whole output buffer, whose length is still `output_size`. -/
theorem lzss_run_filled {input : List Nat} {n cap : Nat} {s : LzssState}
    (h : lzss_run input n cap = .ok s) : s.output.length = n ∧ s.output_ptr = n := by
  have := lzss_loop_ok n _ _ h (by simp [lzss_init]) (by simp [lzss_init])
  simpa [lzss_init] using And.intro this.1 this.2.1

/-- C1. Whenever `custom_lzss_decompress` returns a buffer, the buffer has exactly
`output_size` bytes and the write cursor has reached its end; with
`output_size = 0` it returns the empty buffer and reads no input byte
(`input_ptr` stays 0). Holds for every dictionary capacity, in particular `0x800`
and `0x1000`. -/
theorem custom_lzss_decompress_size (input : List Nat) (output_size dict_capacity : Nat) :
    (∀ out, custom_lzss_decompress input output_size dict_capacity = .ok out →
      out.length = output_size ∧
      ∃ s, lzss_run input output_size dict_capacity = .ok s ∧ s.output = out ∧
        s.output_ptr = output_size) ∧
    custom_lzss_decompress input 0 dict_capacity = .ok [] ∧
    ∃ s, lzss_run input 0 dict_capacity = .ok s ∧ s.input_ptr = 0 := by
  refine ⟨?_, rfl, ⟨_, rfl, rfl⟩⟩
  intro out h
  unfold custom_lzss_decompress at h
  split at h
  · simp at h
  · rename_i s hs
    simp only [Outcome.ok.injEq] at h
    have := lzss_run_filled hs
    subst h
    exact ⟨this.1, s, hs, rfl, this.2⟩

theorem custom_lzss_decompress_size_witness :
    custom_lzss_decompress [0x07, 97, 98, 99, 0x12, 0x00] 8 0x800
        = .ok [97, 98, 99, 98, 99, 97, 98, 99] ∧
      [97, 98, 99, 98, 99, 97, 98, 99].length = 8 :=
  ⟨by decide,
   ((custom_lzss_decompress_size [0x07, 97, 98, 99, 0x12, 0x00] 8 0x800).1 _ (by decide)).1⟩

/-! ## Properties of the LZSS routine: exhausted input -/

theorem lzss_read_input_take {input : List Nat} {j b : Nat} {s s1 : LzssState}
    (h : lzss_read_input input s = .ok (b, s1)) (hle : s.input_ptr ≤ j) :
    (s1.input_ptr ≤ j ∧ lzss_read_input (input.take j) s = .ok (b, s1)) ∨
    (s.input_ptr = j ∧ lzss_read_input (input.take j) s = .fail (.ubInputRead j)) := by
  have h1 := lzss_read_input_ok h
  by_cases hlt : s.input_ptr < j
  · left
    refine ⟨by rw [h1.1]; exact hlt, ?_⟩
    unfold lzss_read_input
    rw [List.getElem?_take_of_lt hlt, h1.2, h1.1]
  · right
    have heq : s.input_ptr = j := by omega
    refine ⟨heq, ?_⟩
    unfold lzss_read_input
    rw [List.getElem?_take_eq_none (by omega), heq]

theorem lzss_literal_take {input : List Nat} {cap j : Nat} {s s1 : LzssState}
    (h : lzss_literal input cap s = .ok s1) (hle : s.input_ptr ≤ j) :
    (s1.input_ptr ≤ j ∧ lzss_literal (input.take j) cap s = .ok s1) ∨
    (j < s1.input_ptr ∧ lzss_literal (input.take j) cap s = .fail (.ubInputRead j)) := by
  have hmono := (lzss_literal_ok h).2.2
  unfold lzss_literal at h ⊢
  split at h
  · simp at h
  · rename_i b sa ha
    rcases lzss_read_input_take ha hle with ⟨hlea, hr⟩ | ⟨heq, hr⟩
    · rw [hr]
      simp only
      have h4 := (lzss_dict_put_ok h).2.2.1
      simp only at h4
      exact Or.inl ⟨by omega, h⟩
    · rw [hr]
      exact Or.inr ⟨by omega, rfl⟩

theorem lzss_backref_take {input : List Nat} {n cap j : Nat} {s s1 : LzssState}
    (h : lzss_backref input n cap s = .ok s1) (hle : s.input_ptr ≤ j) :
    (s1.input_ptr ≤ j ∧ lzss_backref (input.take j) n cap s = .ok s1) ∨
    (j < s1.input_ptr ∧ lzss_backref (input.take j) n cap s = .fail (.ubInputRead j)) := by
  have hmono := (lzss_backref_ok h).2.2.2.2
  unfold lzss_backref at h ⊢
  split at h
  · simp at h
  · rename_i lo sa ha
    have ha1 := (lzss_read_input_ok ha).1
    rcases lzss_read_input_take ha hle with ⟨hlea, hr⟩ | ⟨heq, hr⟩
    swap
    · rw [hr]
      exact Or.inr ⟨by omega, rfl⟩
    rw [hr]
    simp only
    split at h
    · simp at h
    · rename_i hi sb hb
      have hb1 := (lzss_read_input_ok hb).1
      rcases lzss_read_input_take hb hlea with ⟨hleb, hr⟩ | ⟨heq, hr⟩
      swap
      · rw [hr]
        refine Or.inr ⟨?_, rfl⟩
        rw [ha1] at heq
        simp only at heq
        omega
      rw [hr]
      simp only at h ⊢
      split at h
      · simp at h
      · rename_i rep sc hc
        split at hc
        · rename_i hF
          rw [if_pos hF]
          split at hc
          · simp at hc
          · rename_i e sd hd
            have hd1 := (lzss_read_input_ok hd).1
            simp only [Outcome.ok.injEq, Prod.mk.injEq] at hc
            have hs1 : sc.input_ptr ≤ s1.input_ptr := by
              split at h
              · simp at h
              · rename_i se he
                split at h
                · rw [(lzss_reinsert_ok _ _ _ _ h).2.2, (lzss_copy_ok _ _ _ _ he).2.2.2.2]
                · simp at h
            rcases lzss_read_input_take hd hleb with ⟨hled, hr⟩ | ⟨heq, hr⟩
            swap
            · rw [hr]
              refine Or.inr ⟨?_, rfl⟩
              rw [← hc.2, hd1] at hs1
              simp only at hs1
              omega
            rw [hr]
            simp only
            rw [hc.1, hc.2]
            by_cases hfin : s1.input_ptr ≤ j
            · exact Or.inl ⟨hfin, h⟩
            · exfalso
              split at h
              · simp at h
              · rename_i se he
                split at h
                · rw [(lzss_reinsert_ok _ _ _ _ h).2.2, (lzss_copy_ok _ _ _ _ he).2.2.2.2,
                    ← hc.2] at hfin
                  exact hfin hled
                · simp at h
        · rename_i hF
          rw [if_neg hF]
          simp only [Outcome.ok.injEq, Prod.mk.injEq] at hc
          simp only
          rw [hc.1, hc.2]
          by_cases hfin : s1.input_ptr ≤ j
          · exact Or.inl ⟨hfin, h⟩
          · exfalso
            split at h
            · simp at h
            · rename_i se he
              split at h
              · rw [(lzss_reinsert_ok _ _ _ _ h).2.2, (lzss_copy_ok _ _ _ _ he).2.2.2.2,
                  ← hc.2] at hfin
                exact hfin hleb
              · simp at h

theorem lzss_token_take {input : List Nat} {n cap j : Nat} {s s1 : LzssState}
    (h : lzss_token input n cap s = .ok s1) (hle : s.input_ptr ≤ j) :
    (s1.input_ptr ≤ j ∧ lzss_token (input.take j) n cap s = .ok s1) ∨
    (j < s1.input_ptr ∧ lzss_token (input.take j) n cap s = .fail (.ubInputRead j)) := by
  have hmono := (lzss_token_ok h).2.2.2.2
  unfold lzss_token at h ⊢
  simp only at h ⊢
  split at h
  · simp at h
  · rename_i sa ha
    have hsa1 : sa.input_ptr ≤ s1.input_ptr := by
      split at h
      · rw [(lzss_literal_ok h).2.2]; omega
      · have := (lzss_backref_ok h).2.2.2.2; omega
    have key : (sa.input_ptr ≤ j ∧
        (if (s.control >>> 1) &&& 0x100 = 0 then
          match lzss_read_input (input.take j) s with
          | .fail f => .fail f
          | .ok (b, s1) => .ok { s1 with control := (b ||| 0xFF00) % 65536 }
        else (.ok { s with control := s.control >>> 1 } : Outcome LzssState)) = .ok sa) ∨
      (j < sa.input_ptr ∧
        (if (s.control >>> 1) &&& 0x100 = 0 then
          match lzss_read_input (input.take j) s with
          | .fail f => .fail f
          | .ok (b, s1) => .ok { s1 with control := (b ||| 0xFF00) % 65536 }
        else (.ok { s with control := s.control >>> 1 } : Outcome LzssState))
          = .fail (.ubInputRead j)) := by
      split at ha
      · rename_i hF
        rw [if_pos hF]
        split at ha
        · simp at ha
        · rename_i b sb hb
          have hb1 := (lzss_read_input_ok hb).1
          simp only [Outcome.ok.injEq] at ha
          rcases lzss_read_input_take hb hle with ⟨hleb, hr⟩ | ⟨heq, hr⟩
          · rw [hr]
            simp only
            rw [ha]
            refine Or.inl ⟨?_, rfl⟩
            rw [← ha]
            exact hleb
          · rw [hr]
            simp only
            refine Or.inr ⟨?_, trivial⟩
            rw [← ha, hb1]
            simp only
            omega
      · rename_i hF
        rw [if_neg hF]
        simp only [Outcome.ok.injEq] at ha
        refine Or.inl ⟨?_, by rw [ha]⟩
        rw [← ha]
        exact hle
    rcases key with ⟨hlea, hr⟩ | ⟨hlt, hr⟩
    · rw [hr]
      simp only
      split at h
      · rename_i hbit
        rw [if_pos hbit]
        exact lzss_literal_take h hlea
      · rename_i hbit
        rw [if_neg hbit]
        exact lzss_backref_take h hlea
    · rw [hr]
      exact Or.inr ⟨by omega, rfl⟩

theorem lzss_loop_take {input : List Nat} {n cap j : Nat} (fuel : Nat) :
    ∀ (s s1 : LzssState), lzss_loop input n cap fuel s = .ok s1 → s.input_ptr ≤ j →
      (s1.input_ptr ≤ j ∧ lzss_loop (input.take j) n cap fuel s = .ok s1) ∨
      (j < s1.input_ptr ∧ lzss_loop (input.take j) n cap fuel s = .fail (.ubInputRead j)) := by
  induction fuel with
  | zero =>
    intro s s1 h hle
    simp only [lzss_loop, Outcome.ok.injEq] at h
    subst h
    exact Or.inl ⟨hle, rfl⟩
  | succ fuel ih =>
    intro s s1 h hle
    rw [lzss_loop] at h ⊢
    split at h
    · rename_i hlt
      rw [if_pos hlt]
      split at h
      · simp at h
      · rename_i s2 h2
        rcases lzss_token_take h2 hle with ⟨hle2, hr⟩ | ⟨hlt2, hr⟩
        · rw [hr]
          exact ih _ _ h hle2
        · rw [hr]
          refine Or.inr ⟨?_, rfl⟩
          have hmono : ∀ (fuel : Nat) (a b : LzssState),
              lzss_loop input n cap fuel a = .ok b → a.input_ptr ≤ b.input_ptr := by
            intro fuel
            induction fuel with
            | zero =>
              intro a b hab
              simp only [lzss_loop, Outcome.ok.injEq] at hab
              rw [hab]
            | succ fuel ih2 =>
              intro a b hab
              rw [lzss_loop] at hab
              split at hab
              · split at hab
                · simp at hab
                · rename_i c hc
                  have := (lzss_token_ok hc).2.2.2.2
                  have := ih2 _ _ hab
                  omega
              · simp only [Outcome.ok.injEq] at hab
                rw [hab]
          have := hmono _ _ _ h
          omega
    · rename_i hlt
      rw [if_neg hlt]
      simp only [Outcome.ok.injEq] at h
      subst h
      exact Or.inl ⟨hle, rfl⟩

/-- A stream that decodes, cut anywhere below the number of bytes the decoder
consumed, makes the routine read the byte just past the end of what is left. -/
theorem lzss_run_take {input : List Nat} {n cap j : Nat} {s : LzssState}
    (h : lzss_run input n cap = .ok s) (hj : j < s.input_ptr) :
    custom_lzss_decompress (input.take j) n cap = .fail (.ubInputRead j) := by
  unfold lzss_run at h
  rcases lzss_loop_take n _ _ h (Nat.zero_le j) with ⟨hle, _⟩ | ⟨_, hr⟩
  · omega
  · unfold custom_lzss_decompress lzss_run
    rw [hr]

theorem lzss_read_input_fail {input : List Nat} {s : LzssState} {f : Fault}
    (h : lzss_read_input input s = .fail f) :
    f = .ubInputRead s.input_ptr ∧ input.length ≤ s.input_ptr := by
  unfold lzss_read_input at h
  split at h
  · simp at h
  · rename_i hnone
    simp only [Outcome.fail.injEq] at h
    exact ⟨h.symm, by simpa using hnone⟩

theorem lzss_dict_put_fail {cap b : Nat} {s : LzssState} {f : Fault}
    (h : lzss_dict_put cap b s = .fail f) : f.isException = false := by
  unfold lzss_dict_put at h
  split at h
  · simp at h
  · simp only [Outcome.fail.injEq] at h
    subst h
    rfl

theorem lzss_copy_fail {n cap : Nat} (i : Nat) :
    ∀ (pos : Nat) (s : LzssState) (f : Fault), lzss_copy n cap i pos s = .fail f →
      f.isException = false := by
  induction i with
  | zero =>
    intro pos s f h
    simp [lzss_copy] at h
  | succ i ih =>
    intro pos s f h
    rw [lzss_copy] at h
    split at h
    · split at h
      · split at h
        · simp only [Outcome.fail.injEq] at h
          subst h
          rfl
        · exact ih _ _ _ h
      · simp only [Outcome.fail.injEq] at h
        subst h
        rfl
    · simp at h

theorem lzss_reinsert_fail {cap : Nat} (k : Nat) :
    ∀ (src : Nat) (s : LzssState) (f : Fault), lzss_reinsert cap k src s = .fail f →
      f.isException = false := by
  induction k with
  | zero =>
    intro src s f h
    simp [lzss_reinsert] at h
  | succ k ih =>
    intro src s f h
    rw [lzss_reinsert] at h
    split at h
    · rename_i f1 h1
      simp only [Outcome.fail.injEq] at h
      subst h
      exact lzss_dict_put_fail h1
    · exact ih _ _ _ h

theorem lzss_literal_fail {input : List Nat} {cap : Nat} {s : LzssState} {f : Fault}
    (h : lzss_literal input cap s = .fail f) : f.isException = false := by
  unfold lzss_literal at h
  split at h
  · rename_i f1 h1
    simp only [Outcome.fail.injEq] at h
    subst h
    rw [(lzss_read_input_fail h1).1]
    rfl
  · exact lzss_dict_put_fail h

theorem lzss_backref_fail {input : List Nat} {n cap : Nat} {s : LzssState} {f : Fault}
    (h : lzss_backref input n cap s = .fail f) : f.isException = false := by
  unfold lzss_backref at h
  split at h
  · rename_i f1 h1
    simp only [Outcome.fail.injEq] at h
    subst h
    rw [(lzss_read_input_fail h1).1]
    rfl
  · split at h
    · rename_i f1 h1
      simp only [Outcome.fail.injEq] at h
      subst h
      rw [(lzss_read_input_fail h1).1]
      rfl
    · simp only at h
      split at h
      · rename_i f1 h1
        simp only [Outcome.fail.injEq] at h
        subst h
        split at h1
        · split at h1
          · rename_i f2 h2
            simp only [Outcome.fail.injEq] at h1
            subst h1
            rw [(lzss_read_input_fail h2).1]
            rfl
          · simp at h1
        · simp at h1
      · split at h
        · rename_i f1 h1
          simp only [Outcome.fail.injEq] at h
          subst h
          exact lzss_copy_fail _ _ _ _ h1
        · split at h
          · exact lzss_reinsert_fail _ _ _ _ h
          · simp only [Outcome.fail.injEq] at h
            subst h
            rfl

theorem lzss_token_fail {input : List Nat} {n cap : Nat} {s : LzssState} {f : Fault}
    (h : lzss_token input n cap s = .fail f) : f.isException = false := by
  unfold lzss_token at h
  simp only at h
  split at h
  · rename_i f1 h1
    simp only [Outcome.fail.injEq] at h
    subst h
    split at h1
    · split at h1
      · rename_i f2 h2
        simp only [Outcome.fail.injEq] at h1
        subst h1
        rw [(lzss_read_input_fail h2).1]
        rfl
      · simp at h1
    · simp at h1
  · split at h
    · exact lzss_literal_fail h
    · exact lzss_backref_fail h

theorem lzss_loop_fail {input : List Nat} {n cap : Nat} (fuel : Nat) :
    ∀ (s : LzssState) (f : Fault), lzss_loop input n cap fuel s = .fail f →
      f.isException = false := by
  induction fuel with
  | zero =>
    intro s f h
    simp [lzss_loop] at h
  | succ fuel ih =>
    intro s f h
    rw [lzss_loop] at h
    split at h
    · split at h
      · rename_i f1 h1
        simp only [Outcome.fail.injEq] at h
        subst h
        exact lzss_token_fail h1
      · exact ih _ _ h
    · simp at h

/-- No path of `custom_lzss_decompress` throws: each of its faults is an
unchecked access. -/
theorem custom_lzss_decompress_fail {input : List Nat} {n cap : Nat} {f : Fault}
    (h : custom_lzss_decompress input n cap = .fail f) : f.isException = false := by
  unfold custom_lzss_decompress at h
  split at h
  · rename_i f1 h1
    simp only [Outcome.fail.injEq] at h
    subst h
    exact lzss_loop_fail _ _ _ h1
  · simp at h

/-- C2 (evaluation at the failing input). For the stream `FF 41`, one control
byte and one literal, and `output_size = 2`, the token stream is exhausted after
one byte of output: the routine then reads `input[2]`, one past the end of the
two-byte input, without any check. It raises no error (the fault is an
undefined access, not an exception), so the malformed-stream failure the
contract promises does not happen. -/
theorem custom_lzss_decompress_exhausted :
    custom_lzss_decompress [0xFF, 0x41] 2 0x800 = .fail (.ubInputRead 2) ∧
    ([0xFF, 0x41] : List Nat).length ≤ 2 ∧
    (Fault.ubInputRead 2).isException = false ∧
    custom_lzss_decompress [] 1 0x1000 = .fail (.ubInputRead 0) := by
  decide

/-! ## Properties of the LZSS routine: round trip with the literal encoder -/

theorem lzss_encode_groups_get (fuel : Nat) :
    ∀ (d : List Nat) (t : Nat), d.length ≤ fuel → t < d.length →
      (lzss_encode_groups fuel d)[t + t / 8 + 1]? = d[t]? ∧
      (t % 8 = 0 → (lzss_encode_groups fuel d)[t + t / 8]? = some 0xFF) := by
  induction fuel with
  | zero =>
    intro d t h1 h2
    omega
  | succ fuel ih =>
    intro d t h1 h2
    match d with
    | [] => simp at h2
    | b :: rest =>
      rw [lzss_encode_groups]
      by_cases h8 : t < 8
      · have ht8 : t / 8 = 0 := by omega
        rw [ht8]
        constructor
        · simp only [Nat.add_zero, List.getElem?_cons_succ]
          rw [List.getElem?_append_left (by simp only [List.length_take]; omega)]
          rw [List.getElem?_take]
          simp [h8]
        · intro h0
          have : t = 0 := by omega
          subst this
          rfl
      · have hlen : ((b :: rest).take 8).length = 8 := by
          simp only [List.length_take]
          omega
        have hd : ((b :: rest).drop 8).length ≤ fuel := by
          simp only [List.length_drop]
          simp only [List.length_cons] at h1 ⊢
          omega
        have ht : t - 8 < ((b :: rest).drop 8).length := by
          simp only [List.length_drop]
          omega
        have := ih _ (t - 8) hd ht
        have e1 : t + t / 8 + 1 = (8 + ((t - 8) + (t - 8) / 8 + 1)) + 1 := by omega
        have e2 : t + t / 8 = (8 + ((t - 8) + (t - 8) / 8)) + 1 := by omega
        constructor
        · rw [e1, List.getElem?_cons_succ, List.getElem?_append_right (by omega), hlen,
            Nat.add_sub_cancel_left, this.1, List.getElem?_drop]
          congr 1
          omega
        · intro h0
          rw [e2, List.getElem?_cons_succ, List.getElem?_append_right (by omega), hlen,
            Nat.add_sub_cancel_left]
          exact this.2 (by omega)

theorem lzss_read_input_some {input : List Nat} {s : LzssState} {b : Nat}
    (h : input[s.input_ptr]? = some b) :
    lzss_read_input input s = .ok (b, { s with input_ptr := s.input_ptr + 1 }) := by
  unfold lzss_read_input
  rw [h]

theorem lzss_output_set (d : List Nat) (t : Nat) (ht : t < d.length) :
    (d.take t ++ List.replicate (d.length - t) 0).set t d[t]
      = d.take (t + 1) ++ List.replicate (d.length - (t + 1)) 0 := by
  have hlen : (d.take t).length = t := by
    simp only [List.length_take]
    omega
  have hrep : d.length - t = (d.length - (t + 1)) + 1 := by omega
  have htake : d.take (t + 1) = d.take t ++ [d[t]] := by
    rw [List.take_succ, List.getElem?_eq_getElem ht]
    rfl
  rw [List.set_append, hlen, if_neg (Nat.lt_irrefl t), Nat.sub_self, htake]
  conv_lhs => rw [hrep, List.replicate_succ, List.set_cons_zero]
  simp only [List.append_assoc, List.singleton_append]

theorem lzss_literal_step {d : List Nat} {cap t : Nat} {s : LzssState}
    (hout : s.output = d.take t ++ List.replicate (d.length - t) 0)
    (hop : s.output_ptr = t) (hpos : s.dict_pos < cap) (ht : t < d.length)
    (hin : (lzss_encode_literals d)[s.input_ptr]? = d[t]?) :
    ∃ s1, lzss_literal (lzss_encode_literals d) cap s = .ok s1 ∧
      s1.output = d.take (t + 1) ++ List.replicate (d.length - (t + 1)) 0 ∧
      s1.output_ptr = t + 1 ∧ s1.input_ptr = s.input_ptr + 1 ∧ s1.control = s.control ∧
      s1.dict_pos < cap := by
  rw [List.getElem?_eq_getElem ht] at hin
  unfold lzss_literal
  rw [lzss_read_input_some hin]
  simp only
  unfold lzss_dict_put
  simp only [hpos, if_true]
  refine ⟨_, rfl, ?_, ?_, rfl, rfl, ?_⟩
  · simp only
    rw [hout, hop]
    exact lzss_output_set d t ht
  · simp only
    rw [hop]
  · exact Nat.mod_lt _ (by omega)

theorem lzss_token_literal_inv {d : List Nat} {cap t : Nat} {s : LzssState}
    (hinv : LzssLiteralInv d cap t s) (ht : t < d.length) :
    ∃ s1, lzss_token (lzss_encode_literals d) d.length cap s = .ok s1 ∧
      LzssLiteralInv d cap (t + 1) s1 := by
  obtain ⟨hout, hop, hip, hctl, hpos⟩ := hinv
  have hE := lzss_encode_groups_get d.length d t le_rfl ht
  unfold lzss_token
  simp only
  rcases hctl with ⟨h0, hc⟩ | ⟨h0, hc⟩
  · rw [if_pos hc]
    have hrd : (lzss_encode_literals d)[s.input_ptr]? = some 0xFF := by
      have e : s.input_ptr = t + t / 8 := by omega
      rw [e]
      exact hE.2 h0
    rw [lzss_read_input_some hrd]
    simp only
    have hbit : ((0xFF ||| 0xFF00) % 65536) &&& 1 ≠ 0 := by decide
    rw [if_pos hbit]
    have hin : (lzss_encode_literals d)[s.input_ptr + 1]? = d[t]? := by
      have e : s.input_ptr + 1 = t + t / 8 + 1 := by omega
      rw [e]
      exact hE.1
    obtain ⟨s1, h1, h2, h3, h4, h5, h6⟩ :=
      @lzss_literal_step d cap t
        { s with input_ptr := s.input_ptr + 1, control := (0xFF ||| 0xFF00) % 65536 }
        hout hop hpos ht hin
    refine ⟨s1, h1, h2, h3, ?_, ?_, h6⟩
    · rw [h4]
      simp only
      omega
    · right
      have e : (t + 1) % 8 = 1 := by omega
      rw [h5, e]
      refine ⟨by decide, ?_⟩
      show (0xFF ||| 0xFF00) % 65536 = 0xFFFF >>> (1 - 1)
      decide
  · have hk : t % 8 = 1 ∨ t % 8 = 2 ∨ t % 8 = 3 ∨ t % 8 = 4 ∨ t % 8 = 5 ∨ t % 8 = 6 ∨
        t % 8 = 7 := by omega
    have e1 : (s.control >>> 1) &&& 0x100 ≠ 0 := by
      rw [hc]
      rcases hk with hk | hk | hk | hk | hk | hk | hk <;> rw [hk] <;> decide
    have e2 : (s.control >>> 1) &&& 1 ≠ 0 := by
      rw [hc]
      rcases hk with hk | hk | hk | hk | hk | hk | hk <;> rw [hk] <;> decide
    rw [if_neg e1]
    simp only
    rw [if_pos e2]
    have hin : (lzss_encode_literals d)[s.input_ptr]? = d[t]? := by
      have e : s.input_ptr = t + t / 8 + 1 := by omega
      rw [e]
      exact hE.1
    obtain ⟨s1, h1, h2, h3, h4, h5, h6⟩ :=
      @lzss_literal_step d cap t { s with control := s.control >>> 1 }
        hout hop hpos ht hin
    refine ⟨s1, h1, h2, h3, ?_, ?_, h6⟩
    · rw [h4]
      simp only
      omega
    · rw [h5]
      simp only
      rw [hc]
      rcases hk with hk | hk | hk | hk | hk | hk | hk
      · exact Or.inr ⟨by omega, by rw [hk, show (t + 1) % 8 = 2 by omega]; decide⟩
      · exact Or.inr ⟨by omega, by rw [hk, show (t + 1) % 8 = 3 by omega]; decide⟩
      · exact Or.inr ⟨by omega, by rw [hk, show (t + 1) % 8 = 4 by omega]; decide⟩
      · exact Or.inr ⟨by omega, by rw [hk, show (t + 1) % 8 = 5 by omega]; decide⟩
      · exact Or.inr ⟨by omega, by rw [hk, show (t + 1) % 8 = 6 by omega]; decide⟩
      · exact Or.inr ⟨by omega, by rw [hk, show (t + 1) % 8 = 7 by omega]; decide⟩
      · exact Or.inl ⟨by omega, by rw [hk]; decide⟩

theorem lzss_loop_literal_inv {d : List Nat} {cap : Nat} (fuel : Nat) :
    ∀ (t : Nat) (s : LzssState), LzssLiteralInv d cap t s → t ≤ d.length →
      d.length ≤ t + fuel →
      ∃ s1, lzss_loop (lzss_encode_literals d) d.length cap fuel s = .ok s1 ∧
        LzssLiteralInv d cap d.length s1 := by
  induction fuel with
  | zero =>
    intro t s hinv h1 h2
    have : t = d.length := by omega
    subst this
    exact ⟨s, rfl, hinv⟩
  | succ fuel ih =>
    intro t s hinv h1 h2
    rw [lzss_loop]
    by_cases hlt : t < d.length
    · rw [if_pos (by rw [hinv.2.1]; exact hlt)]
      obtain ⟨s1, hs1, hinv1⟩ := lzss_token_literal_inv hinv hlt
      rw [hs1]
      exact ih (t + 1) s1 hinv1 hlt (by omega)
    · have : t = d.length := by omega
      subst this
      rw [if_neg (by rw [hinv.2.1]; exact hlt)]
      exact ⟨s, rfl, hinv⟩

/-- C3. Round trip: for every byte sequence `d` and every dictionary capacity
`c > 0` (in particular `0x800` and `0x1000`), decompressing the output of the
reference literal encoder (groups of at most 8 bytes, each preceded by the
control byte `0xFF`) with `output_size = |d|` returns `d`. -/
theorem custom_lzss_decompress_roundtrip (d : List Nat) (dict_capacity : Nat)
    (hc : dict_capacity = 0x800 ∨ dict_capacity = 0x1000) :
    custom_lzss_decompress (lzss_encode_literals d) d.length dict_capacity = .ok d := by
  have hinit : LzssLiteralInv d dict_capacity 0 (lzss_init d.length dict_capacity) := by
    refine ⟨by simp [lzss_init], rfl, rfl,
      Or.inl ⟨rfl, show ((0 : Nat) >>> 1) &&& 0x100 = 0 by decide⟩, ?_⟩
    simp only [lzss_init]
    omega
  obtain ⟨s1, hs1, hinv⟩ := lzss_loop_literal_inv d.length 0 _ hinit (Nat.zero_le _) (by omega)
  unfold custom_lzss_decompress lzss_run
  rw [hs1]
  simp only [Outcome.ok.injEq]
  rw [hinv.1]
  simp

theorem custom_lzss_decompress_roundtrip_witness :
    custom_lzss_decompress
      (lzss_encode_literals [1, 2, 3, 4, 5, 6, 7, 8, 9, 10]) 10 0x800
        = .ok [1, 2, 3, 4, 5, 6, 7, 8, 9, 10] ∧
    lzss_encode_literals [1, 2, 3, 4, 5, 6, 7, 8, 9, 10]
        = [0xFF, 1, 2, 3, 4, 5, 6, 7, 8, 0xFF, 9, 10] :=
  ⟨custom_lzss_decompress_roundtrip [1, 2, 3, 4, 5, 6, 7, 8, 9, 10] 0x800 (Or.inl rfl),
   by decide⟩

/-! ## The routine against the naive self-copying reference decoder -/

/-- The body of the outer loop is the token parse followed by the action of the
token. -/
theorem lzss_token_eq_parse (input : List Nat) (n cap : Nat) (s : LzssState) :
    lzss_token input n cap s =
      match lzss_parse input s with
      | .fail f => .fail f
      | .ok (.literal b, s1) => lzss_literal_exec cap b s1
      | .ok (.backref p r, s1) => lzss_backref_exec n cap p r s1 := by
  unfold lzss_token lzss_parse
  simp only
  split
  · rfl
  · rename_i s1 h1
    split
    · unfold lzss_literal
      cases lzss_read_input input s1 with
      | fail f => rfl
      | ok v => rfl
    · unfold lzss_backref
      cases lzss_read_input input s1 with
      | fail f => rfl
      | ok v =>
        obtain ⟨lo, s2⟩ := v
        simp only
        cases lzss_read_input input s2 with
        | fail f => rfl
        | ok v =>
          obtain ⟨hi, s3⟩ := v
          simp only
          by_cases hF : (lo + 256 * hi) % 65536 &&& 0xF = 0xF
          · rw [if_pos hF, if_pos hF]
            cases lzss_read_input input s3 with
            | fail f => rfl
            | ok v => rfl
          · rw [if_neg hF, if_neg hF]
            rfl

/-- C4 (counterexample). After the literals `a b c`, a back-reference with start
position 1 and count 5 makes the read position reach the fill (3). The routine
wraps to position 0 of the dictionary as it stood when the token began and emits
`b c a b c`; the naive self-copying decoder reads back the bytes it has just
written and emits `b c b c b`. -/
theorem custom_lzss_decompress_ne_naive :
    custom_lzss_decompress [0x07, 97, 98, 99, 0x12, 0x00] 8 0x800
        = .ok [97, 98, 99, 98, 99, 97, 98, 99] ∧
    naive_lzss_decompress [0x07, 97, 98, 99, 0x12, 0x00] 8 0x800
        = .ok [97, 98, 99, 98, 99, 98, 99, 98] ∧
    custom_lzss_decompress [0x07, 97, 98, 99, 0x12, 0x00] 8 0x800
        ≠ naive_lzss_decompress [0x07, 97, 98, 99, 0x12, 0x00] 8 0x800 := by
  decide

theorem lzss_dict_put_eq {cap b : Nat} {s : LzssState} (h : s.dict_pos < cap) :
    lzss_dict_put cap b s = .ok { s with
      dict := s.dict.set s.dict_pos b
      dict_pos := (s.dict_pos + 1) % cap
      dict_size := if s.dict_size < cap then s.dict_size + 1 else s.dict_size } := by
  unfold lzss_dict_put
  rw [if_pos h]

theorem lzss_dict_put_wf {n cap b : Nat} {s s1 : LzssState} (hwf : LzssWf n cap s)
    (h : lzss_dict_put cap b s = .ok s1) :
    LzssWf n cap s1 ∧ s.dict_size ≤ s1.dict_size ∧ s1.control = s.control ∧
      s1.dict = s.dict.set s.dict_pos b ∧ s1.dict_pos = (s.dict_pos + 1) % cap := by
  obtain ⟨h1, h2, h3, h4, h5⟩ := hwf
  rw [lzss_dict_put_eq h3] at h
  simp only [Outcome.ok.injEq] at h
  subst h
  refine ⟨⟨by simp [h1], ?_, Nat.mod_lt _ (by omega), h4, h5⟩, ?_, rfl, rfl, rfl⟩
  · simp only
    split <;> omega
  · simp only
    split <;> omega

theorem lzss_reinsert_wf {n cap : Nat} (k : Nat) :
    ∀ (src : Nat) (s : LzssState), LzssWf n cap s →
      ∃ s1, lzss_reinsert cap k src s = .ok s1 ∧ LzssWf n cap s1 ∧
        s.dict_size ≤ s1.dict_size ∧ s1.control = s.control := by
  induction k with
  | zero =>
    intro src s hwf
    exact ⟨s, rfl, hwf, le_refl _, rfl⟩
  | succ k ih =>
    intro src s hwf
    rw [lzss_reinsert, lzss_dict_put_eq hwf.2.2.1]
    simp only
    have h1 := lzss_dict_put_wf hwf (lzss_dict_put_eq (b := s.output.getD src 0) hwf.2.2.1)
    obtain ⟨s2, h2, h3, h4, h5⟩ := ih (src + 1) _ h1.1
    exact ⟨s2, h2, h3, le_trans h1.2.1 h4, h5.trans h1.2.2.1⟩

theorem lzss_reinsert_getD {cap : Nat} (k : Nat) :
    ∀ (src q : Nat) (s s1 : LzssState), lzss_reinsert cap k src s = .ok s1 →
      (∀ j, j < k → (s.dict_pos + j) % cap ≠ q) →
      s1.dict.getD q 0 = s.dict.getD q 0 := by
  induction k with
  | zero =>
    intro src q s s1 h _
    simp only [lzss_reinsert, Outcome.ok.injEq] at h
    rw [h]
  | succ k ih =>
    intro src q s s1 h hq
    rw [lzss_reinsert] at h
    split at h
    · simp at h
    · rename_i s2 h2
      unfold lzss_dict_put at h2
      split at h2
      · rename_i hpos
        simp only [Outcome.ok.injEq] at h2
        have hne : s.dict_pos ≠ q := by
          have := hq 0 (Nat.succ_pos k)
          rwa [Nat.add_zero, Nat.mod_eq_of_lt hpos] at this
        have hstep : ∀ j, j < k → (s2.dict_pos + j) % cap ≠ q := by
          intro j hj
          rw [← h2]
          simp only
          rw [Nat.mod_add_mod]
          have := hq (j + 1) (by omega)
          rwa [show s.dict_pos + (j + 1) = s.dict_pos + 1 + j by omega] at this
        rw [ih _ _ _ _ h hstep, ← h2]
        simp only [List.getD_eq_getElem?_getD]
        rw [List.getElem?_set_ne hne]
      · simp at h2

theorem lzss_reinsert_snoc {cap : Nat} (k : Nat) :
    ∀ (src : Nat) (c v : LzssState) (b t op1 : Nat),
      lzss_reinsert cap k src c = .ok v → src + k = t → t < c.output.length →
      lzss_reinsert cap (k + 1) src { c with output := c.output.set t b, output_ptr := op1 }
        = lzss_dict_put cap b { v with output := v.output.set t b, output_ptr := op1 } := by
  induction k with
  | zero =>
    intro src c v b t op1 h hsrc ht
    simp only [lzss_reinsert, Outcome.ok.injEq] at h
    subst h
    simp only [Nat.add_zero] at hsrc
    subst hsrc
    rw [lzss_reinsert]
    have hb : (c.output.set src b).getD src 0 = b := by
      simp only [List.getD_eq_getElem?_getD]
      rw [List.getElem?_set_self ht]
      rfl
    simp only [hb]
    cases lzss_dict_put cap b { c with output := c.output.set src b, output_ptr := op1 } with
    | fail f => rfl
    | ok s1 => rfl
  | succ k ih =>
    intro src c v b t op1 h hsrc ht
    rw [lzss_reinsert] at h
    split at h
    · simp at h
    · rename_i c1 h1
      unfold lzss_dict_put at h1
      split at h1
      · rename_i hpos
        simp only [Outcome.ok.injEq] at h1
        rw [lzss_reinsert]
        have hb : (c.output.set t b).getD src 0 = c.output.getD src 0 := by
          simp only [List.getD_eq_getElem?_getD]
          rw [List.getElem?_set_ne (by omega)]
        simp only [hb]
        rw [lzss_dict_put_eq (by exact hpos)]
        simp only
        have hlen : t < c1.output.length := by
          rw [← h1]
          exact ht
        have := ih (src + 1) c1 v b t op1 h (by omega) hlen
        rw [← this, ← h1]
      · simp at h1

/-- Simulation of the self-copying loop by the two passes of the source, while
the reads keep clear of the writes: the naive loop started in the state where
the `k` bytes copied so far are already in the dictionary ends where the copy
pass followed by the insertion pass ends. -/
theorem naive_copy_sim {n cap : Nat} (i : Nat) :
    ∀ (k qc qv src : Nat) (c v c1 z : LzssState),
      LzssWf n cap c →
      lzss_reinsert cap k src c = .ok v → src + k = c.output_ptr → c.output_ptr + i ≤ n →
      (0 < i → qc = qv ∧ qv + i ≤ c.dict_size) →
      (∀ i1, i1 < i → ∀ j, j < k + i1 → (c.dict_pos + j) % cap ≠ qv + i1) →
      lzss_copy n cap i qc c = .ok c1 → lzss_reinsert cap (k + i) src c1 = .ok z →
      naive_copy n cap i qv v = .ok z := by
  induction i with
  | zero =>
    intro k qc qv src c v c1 z _ hre _ _ _ _ hcopy hz
    simp only [lzss_copy, Outcome.ok.injEq] at hcopy
    subst hcopy
    rw [Nat.add_zero, hre] at hz
    rw [naive_copy]
    exact hz
  | succ i ih =>
    intro k qc qv src c v c1 z hwf hre hsrc hspace hpos hsep hcopy hz
    obtain ⟨hqq, hq⟩ := hpos (Nat.succ_pos i)
    subst hqq
    obtain ⟨hd, hds, hdp, hol, hop⟩ := hwf
    have hv := lzss_reinsert_ok k src c v hre
    have hlt : c.output_ptr < n := by omega
    have hqc : qc < cap := by omega
    have hne : c.dict_size ≠ 0 := by omega
    rw [lzss_copy, if_pos hlt, if_pos hqc, if_neg hne] at hcopy
    rw [naive_copy, if_pos (by rw [hv.2.1]; exact hlt), if_pos hqc]
    unfold lzss_literal_exec
    have hb : v.dict.getD qc 0 = c.dict.getD qc 0 :=
      lzss_reinsert_getD k _ _ _ _ hre
        (fun j hj => by simpa using hsep 0 (Nat.succ_pos i) j (by omega))
    rw [hb, hv.2.1]
    have hsn := lzss_reinsert_snoc k src c v (c.dict.getD qc 0) c.output_ptr
      (c.output_ptr + 1) hre hsrc (by omega)
    rw [← hsn]
    have hwf1 : LzssWf n cap { c with
        output := c.output.set c.output_ptr (c.dict.getD qc 0)
        output_ptr := c.output_ptr + 1 } :=
      ⟨hd, hds, hdp, by simp only [List.length_set]; exact hol, by simp only; omega⟩
    obtain ⟨v1, hv1, _, hmono1, _⟩ := lzss_reinsert_wf (k + 1) src _ hwf1
    rw [hv1]
    simp only
    simp only at hmono1
    refine ih (k + 1) ((qc + 1) % c.dict_size) ((qc + 1) % v1.dict_size) src _ v1 c1 z
      hwf1 hv1 (by simp only; omega) (by simp only; omega) ?_ ?_ hcopy ?_
    · intro hi
      simp only
      have h1 : qc + 1 < c.dict_size := by omega
      rw [Nat.mod_eq_of_lt h1, Nat.mod_eq_of_lt (by omega)]
      exact ⟨rfl, by omega⟩
    · intro i1 hi1 j hj
      simp only
      have h1 : qc + 1 < c.dict_size := by omega
      rw [Nat.mod_eq_of_lt (show qc + 1 < v1.dict_size by omega)]
      have := hsep (i1 + 1) (by omega) j (by omega)
      rwa [show qc + (i1 + 1) = qc + 1 + i1 by omega] at this
    · rw [show k + 1 + i = k + (i + 1) by omega]
      exact hz

theorem lzss_copy_dict {n cap : Nat} (i : Nat) :
    ∀ (q : Nat) (s s1 : LzssState), lzss_copy n cap i q s = .ok s1 →
      s1.dict = s.dict ∧ s1.dict_size = s.dict_size ∧ s1.dict_pos = s.dict_pos ∧
      s1.control = s.control ∧ (s.output_ptr + i ≤ n → s1.output_ptr = s.output_ptr + i) := by
  induction i with
  | zero =>
    intro q s s1 h
    simp only [lzss_copy, Outcome.ok.injEq] at h
    subst h
    simp
  | succ i ih =>
    intro q s s1 h
    rw [lzss_copy] at h
    split at h
    · split at h
      · split at h
        · simp at h
        · have := ih _ _ _ h
          simp only at this
          exact ⟨this.1, this.2.1, this.2.2.1, this.2.2.2.1, fun h2 => by
            rw [this.2.2.2.2 (by omega)]; omega⟩
      · simp at h
    · rename_i hge
      exact ⟨by simp_all, by simp_all, by simp_all, by simp_all, fun h2 => by omega⟩

theorem lzss_copy_truncate {n cap : Nat} (m : Nat) :
    ∀ (i q : Nat) (s : LzssState), s.output_ptr + m = n → m ≤ i →
      lzss_copy n cap i q s = lzss_copy n cap m q s := by
  induction m with
  | zero =>
    intro i q s h _
    cases i with
    | zero => rfl
    | succ i =>
      have e : lzss_copy n cap 0 q s = .ok s := rfl
      rw [e, lzss_copy, if_neg (show ¬ s.output_ptr < n by omega)]
  | succ m ih =>
    intro i q s h hle
    cases i with
    | zero => omega
    | succ i =>
      rw [lzss_copy, lzss_copy]
      split
      · split
        · split
          · rfl
          · exact ih _ _ _ (by simp only; omega) (by omega)
        · rfl
      · rfl

theorem naive_copy_truncate {n cap : Nat} (m : Nat) :
    ∀ (i q : Nat) (s : LzssState), s.output_ptr + m = n → m ≤ i →
      naive_copy n cap i q s = naive_copy n cap m q s := by
  induction m with
  | zero =>
    intro i q s h _
    cases i with
    | zero => rfl
    | succ i =>
      have e : naive_copy n cap 0 q s = .ok s := rfl
      rw [e, naive_copy, if_neg (show ¬ s.output_ptr < n by omega)]
  | succ m ih =>
    intro i q s h hle
    cases i with
    | zero => omega
    | succ i =>
      rw [naive_copy, naive_copy]
      split
      · split
        · split
          · rfl
          · rename_i s1 h1
            have := lzss_dict_put_ok h1
            exact ih _ _ _ (by rw [this.2.1]; simp only; omega) (by omega)
        · rfl
      · rfl

theorem lzss_backref_separate_spec {n cap p r : Nat} {s : LzssState}
    (hwf : LzssWf n cap s) (h : lzss_backref_separate n p r s = true) :
    p + min r (n - s.output_ptr) ≤ s.dict_size ∧
    ∀ i1, i1 < min r (n - s.output_ptr) → ∀ j, j < i1 →
      (s.dict_pos + j) % cap ≠ p + i1 := by
  obtain ⟨_, hds, hdp, _, _⟩ := hwf
  unfold lzss_backref_separate at h
  simp only [Bool.and_eq_true, decide_eq_true_eq, Bool.not_eq_true', Bool.and_eq_false_iff,
    decide_eq_false_iff_not] at h
  refine ⟨h.1, ?_⟩
  intro i1 hi1 j hj heq
  by_cases hlt : s.dict_pos + j < cap
  · rw [Nat.mod_eq_of_lt hlt] at heq
    omega
  · rw [Nat.mod_eq_sub_mod (by omega), Nat.mod_eq_of_lt (by omega)] at heq
    omega

theorem lzss_copy_wf {n cap i q : Nat} {s s1 : LzssState} (hwf : LzssWf n cap s)
    (h : lzss_copy n cap i q s = .ok s1) : LzssWf n cap s1 := by
  obtain ⟨h1, h2, h3, h4, h5⟩ := hwf
  have ha := lzss_copy_dict i q s s1 h
  have hb := lzss_copy_ok i q s s1 h
  exact ⟨by rw [ha.1]; exact h1, by rw [ha.2.1]; exact h2, by rw [ha.2.2.1]; exact h3,
    by rw [hb.1]; exact h4, hb.2.2.1 h5⟩

/-- One back-reference: where the read range keeps clear of the write cursor, the
naive self-copying loop emits what the two passes of the source emit, and ends
in the same state unless the output became full inside the token. -/
theorem lzss_backref_exec_naive {n cap p r : Nat} {s z : LzssState}
    (hwf : LzssWf n cap s) (hsep : lzss_backref_separate n p r s = true)
    (h : lzss_backref_exec n cap p r s = .ok z) :
    ∃ z1, naive_copy n cap r p s = .ok z1 ∧ z1.output = z.output ∧
      z1.output_ptr = z.output_ptr ∧ (s.output_ptr + r ≤ n → z1 = z) ∧
      (n < s.output_ptr + r → z.output_ptr = n) := by
  have hspec := lzss_backref_separate_spec hwf hsep
  unfold lzss_backref_exec at h
  split at h
  · simp at h
  · rename_i c1 hc1
    split at h
    swap
    · simp at h
    rename_i hrle
    have hwf1 := lzss_copy_wf hwf hc1
    have hzok := lzss_reinsert_ok _ _ _ _ h
    by_cases hcase : s.output_ptr + r ≤ n
    · have hmin : min r (n - s.output_ptr) = r := by omega
      rw [hmin] at hspec
      have hop1 := (lzss_copy_dict r p s c1 hc1).2.2.2.2 hcase
      have hsrc : c1.output_ptr - r = s.output_ptr := by omega
      rw [hsrc] at h
      have := naive_copy_sim r 0 p p s.output_ptr s s c1 z hwf rfl rfl hcase
        (fun _ => ⟨rfl, hspec.1⟩)
        (fun i1 hi1 j hj => hspec.2 i1 hi1 j (by omega)) hc1 (by rw [Nat.zero_add]; exact h)
      exact ⟨z, this, rfl, rfl, fun _ => rfl, fun h2 => by omega⟩
    · have hle := hwf.2.2.2.2
      have hmin : min r (n - s.output_ptr) = n - s.output_ptr := by omega
      rw [hmin] at hspec
      have hm : s.output_ptr + (n - s.output_ptr) = n := by omega
      have hcm : lzss_copy n cap (n - s.output_ptr) p s = .ok c1 := by
        rw [← lzss_copy_truncate (n - s.output_ptr) r p s hm (by omega)]
        exact hc1
      have hop1 := (lzss_copy_dict _ p s c1 hcm).2.2.2.2 (by omega)
      obtain ⟨zm, hzm, _, _, _⟩ := lzss_reinsert_wf (n - s.output_ptr) s.output_ptr c1 hwf1
      have hzmok := lzss_reinsert_ok _ _ _ _ hzm
      have := naive_copy_sim (n - s.output_ptr) 0 p p s.output_ptr s s c1 zm hwf rfl rfl
        (by omega) (fun _ => ⟨rfl, hspec.1⟩)
        (fun i1 hi1 j hj => hspec.2 i1 hi1 j (by omega)) hcm
        (by rw [Nat.zero_add]; exact hzm)
      refine ⟨zm, ?_, ?_, ?_, fun h2 => absurd h2 hcase, fun _ => ?_⟩
      · rw [naive_copy_truncate (n - s.output_ptr) r p s hm (by omega)]
        exact this
      · rw [hzmok.1, hzok.1]
      · rw [hzmok.2.1, hzok.2.1]
      · rw [hzok.2.1]
        omega

theorem lzss_parse_ok {input : List Nat} {s s1 : LzssState} {tok : LzssToken}
    (h : lzss_parse input s = .ok (tok, s1)) :
    s1.dict = s.dict ∧ s1.dict_size = s.dict_size ∧ s1.dict_pos = s.dict_pos ∧
      s1.output = s.output ∧ s1.output_ptr = s.output_ptr := by
  have key : ∀ {a a1 : LzssState} {b : Nat}, lzss_read_input input a = .ok (b, a1) →
      a1.dict = a.dict ∧ a1.dict_size = a.dict_size ∧ a1.dict_pos = a.dict_pos ∧
        a1.output = a.output ∧ a1.output_ptr = a.output_ptr := by
    intro a a1 b hr
    rw [(lzss_read_input_ok hr).1]
    simp
  unfold lzss_parse at h
  simp only at h
  split at h
  · simp at h
  · rename_i sa ha
    have hsa : sa.dict = s.dict ∧ sa.dict_size = s.dict_size ∧ sa.dict_pos = s.dict_pos ∧
        sa.output = s.output ∧ sa.output_ptr = s.output_ptr := by
      split at ha
      · split at ha
        · simp at ha
        · rename_i b sb hb
          simp only [Outcome.ok.injEq] at ha
          have := key hb
          rw [← ha]
          exact this
      · simp only [Outcome.ok.injEq] at ha
        rw [← ha]
        simp
    split at h
    · split at h
      · simp at h
      · rename_i b sb hb
        simp only [Outcome.ok.injEq, Prod.mk.injEq] at h
        have := key hb
        rw [← h.2]
        exact ⟨this.1.trans hsa.1, this.2.1.trans hsa.2.1, this.2.2.1.trans hsa.2.2.1,
          this.2.2.2.1.trans hsa.2.2.2.1, this.2.2.2.2.trans hsa.2.2.2.2⟩
    · split at h
      · simp at h
      · rename_i lo sb hb
        have hsb := key hb
        split at h
        · simp at h
        · rename_i hi sc hc
          have hsc := key hc
          have hcomb : sc.dict = s.dict ∧ sc.dict_size = s.dict_size ∧
              sc.dict_pos = s.dict_pos ∧ sc.output = s.output ∧
              sc.output_ptr = s.output_ptr :=
            ⟨hsc.1.trans (hsb.1.trans hsa.1), hsc.2.1.trans (hsb.2.1.trans hsa.2.1),
              hsc.2.2.1.trans (hsb.2.2.1.trans hsa.2.2.1),
              hsc.2.2.2.1.trans (hsb.2.2.2.1.trans hsa.2.2.2.1),
              hsc.2.2.2.2.trans (hsb.2.2.2.2.trans hsa.2.2.2.2)⟩
          split at h
          · split at h
            · simp at h
            · rename_i e sd hd
              have hsd := key hd
              simp only [Outcome.ok.injEq, Prod.mk.injEq] at h
              rw [← h.2]
              exact ⟨hsd.1.trans hcomb.1, hsd.2.1.trans hcomb.2.1,
                hsd.2.2.1.trans hcomb.2.2.1, hsd.2.2.2.1.trans hcomb.2.2.2.1,
                hsd.2.2.2.2.trans hcomb.2.2.2.2⟩
          · simp only [Outcome.ok.injEq, Prod.mk.injEq] at h
            rw [← h.2]
            exact hcomb

theorem lzss_literal_exec_wf {n cap b : Nat} {s s1 : LzssState} (hwf : LzssWf n cap s)
    (hlt : s.output_ptr < n) (h : lzss_literal_exec cap b s = .ok s1) : LzssWf n cap s1 := by
  obtain ⟨h1, h2, h3, h4, h5⟩ := hwf
  unfold lzss_literal_exec at h
  have hwf1 : LzssWf n cap { s with
      output := s.output.set s.output_ptr b, output_ptr := s.output_ptr + 1 } :=
    ⟨h1, h2, h3, by simp only [List.length_set]; exact h4, by simp only; omega⟩
  exact (lzss_dict_put_wf hwf1 h).1

theorem lzss_backref_exec_wf {n cap p r : Nat} {s s1 : LzssState} (hwf : LzssWf n cap s)
    (h : lzss_backref_exec n cap p r s = .ok s1) : LzssWf n cap s1 := by
  unfold lzss_backref_exec at h
  split at h
  · simp at h
  · rename_i c1 hc1
    split at h
    · obtain ⟨z, hz, hwfz, _, _⟩ := lzss_reinsert_wf r (c1.output_ptr - r) c1
        (lzss_copy_wf hwf hc1)
      rw [hz] at h
      simp only [Outcome.ok.injEq] at h
      rw [← h]
      exact hwfz
    · simp at h

theorem lzss_loop_done {input : List Nat} {n cap : Nat} (fuel : Nat) (s : LzssState)
    (h : n ≤ s.output_ptr) : lzss_loop input n cap fuel s = .ok s := by
  cases fuel with
  | zero => rfl
  | succ fuel => rw [lzss_loop, if_neg (by omega)]

theorem naive_loop_done {input : List Nat} {n cap : Nat} (fuel : Nat) (s : LzssState)
    (h : n ≤ s.output_ptr) : naive_loop input n cap fuel s = .ok s := by
  cases fuel with
  | zero => rfl
  | succ fuel => rw [naive_loop, if_neg (by omega)]

theorem lzss_loop_naive {input : List Nat} {n cap : Nat} (fuel : Nat) :
    ∀ (s z : LzssState), LzssWf n cap s → lzss_separated input n cap fuel s = true →
      lzss_loop input n cap fuel s = .ok z →
      ∃ z1, naive_loop input n cap fuel s = .ok z1 ∧ z1.output = z.output := by
  induction fuel with
  | zero =>
    intro s z _ _ h
    simp only [lzss_loop, Outcome.ok.injEq] at h
    exact ⟨s, rfl, by rw [h]⟩
  | succ fuel ih =>
    intro s z hwf hsep h
    rw [lzss_loop] at h
    rw [naive_loop]
    split at h
    swap
    · rename_i hge
      rw [if_neg hge]
      simp only [Outcome.ok.injEq] at h
      exact ⟨s, rfl, by rw [h]⟩
    rename_i hlt
    rw [if_pos hlt]
    split at h
    · simp at h
    rename_i s2 hs2
    rw [lzss_separated, if_pos hlt, hs2] at hsep
    have hview := lzss_token_eq_parse input n cap s
    rw [hs2] at hview
    unfold naive_token
    cases hp : lzss_parse input s with
    | fail f =>
      rw [hp] at hview
      simp at hview
    | ok v =>
      obtain ⟨tok, s1⟩ := v
      rw [hp] at hview hsep
      have hp1 := lzss_parse_ok hp
      have hwf1 : LzssWf n cap s1 := by
        obtain ⟨h1, h2, h3, h4, h5⟩ := hwf
        exact ⟨by rw [hp1.1]; exact h1, by rw [hp1.2.1]; exact h2,
          by rw [hp1.2.2.1]; exact h3, by rw [hp1.2.2.2.1]; exact h4,
          by rw [hp1.2.2.2.2]; exact h5⟩
      cases tok with
      | literal b =>
        simp only at hview hsep ⊢
        rw [← hview]
        simp only
        exact ih s2 z (lzss_literal_exec_wf hwf1 (by rw [hp1.2.2.2.2]; exact hlt) hview.symm)
          hsep h
      | backref p r =>
        simp only [Bool.and_eq_true] at hview hsep ⊢
        obtain ⟨z1, hz1, hout, hop, hsame, hfull⟩ :=
          lzss_backref_exec_naive hwf1 hsep.1 hview.symm
        rw [hz1]
        simp only
        by_cases hcase : s1.output_ptr + r ≤ n
        · rw [hsame hcase]
          exact ih s2 z (lzss_backref_exec_wf hwf1 hview.symm) hsep.2 h
        · have h2 := hfull (by omega)
          rw [lzss_loop_done fuel s2 (by omega)] at h
          simp only [Outcome.ok.injEq] at h
          rw [naive_loop_done fuel z1 (by omega)]
          exact ⟨z1, rfl, by rw [hout, h]⟩

/-! ## The stream cipher `decrypt` -/

theorem xor_mod_256 (x w : Nat) (hx : x < 256) : (x ^^^ w) % 256 = x ^^^ (w % 256) := by
  have e : (256 : Nat) = 2 ^ 8 := by norm_num
  rw [e] at hx ⊢
  apply Nat.eq_of_testBit_eq
  intro i
  simp only [Nat.testBit_mod_two_pow, Nat.testBit_xor]
  by_cases hi : i < 8
  · simp [hi]
  · have : x.testBit i = false :=
      Nat.testBit_lt_two_pow (lt_of_lt_of_le hx (Nat.pow_le_pow_right (by norm_num) (by omega)))
    simp [hi, this]

theorem decrypt_ab_shift (a b delta : Nat) (i : Nat) :
    decrypt_ab a b delta (i + 1) = decrypt_ab ((a + b) % 256) ((b + delta) % 256) delta i := by
  induction i with
  | zero => rfl
  | succ i ih =>
    rw [decrypt_ab, ih]
    rfl

theorem decrypt_ab_lt (a b delta : Nat) (ha : a < 256) (i : Nat) :
    (decrypt_ab a b delta i).1 < 256 := by
  cases i with
  | zero => exact ha
  | succ i =>
    rw [decrypt_ab]
    exact Nat.mod_lt _ (by norm_num)

theorem decrypt_loop_spec (G : MersenneTwister) (delta : Nat) (x : List Nat) :
    ∀ (mt : G.State) (a b : Nat), (∀ v ∈ x, v < 256) → a < 256 →
      (decrypt_loop G delta mt a b x).length = x.length ∧
      ∀ i (hi : i < x.length), (decrypt_loop G delta mt a b x)[i]? =
        some (x[i] ^^^ (G.words mt i % 256) ^^^ (decrypt_ab a b delta i).1) := by
  induction x with
  | nil =>
    intro mt a b _ _
    exact ⟨rfl, fun i hi => absurd hi (Nat.not_lt_zero i)⟩
  | cons v rest ih =>
    intro mt a b hx ha
    have hv : v < 256 := hx v (List.mem_cons_self v rest)
    have hrest : ∀ u ∈ rest, u < 256 := fun u hu => hx u (List.mem_cons_of_mem v hu)
    obtain ⟨h1, h2⟩ := ih (G.next_u32 mt).2 ((a + b) % 256) ((b + delta) % 256) hrest
      (Nat.mod_lt _ (by norm_num))
    rw [decrypt_loop]
    refine ⟨by simp only [List.length_cons, h1], ?_⟩
    intro i hi
    cases i with
    | zero =>
      simp only [List.getElem?_cons_zero, List.getElem_cons_zero, Option.some.injEq]
      have hlt : v ^^^ (G.next_u32 mt).1 % 256 < 256 := by
        have e : (256 : Nat) = 2 ^ 8 := by norm_num
        rw [e] at hv ⊢
        exact Nat.xor_lt_two_pow hv (Nat.mod_lt _ (by norm_num))
      rw [xor_mod_256 v _ hv, Nat.mod_eq_of_lt]
      · rfl
      · have e : (256 : Nat) = 2 ^ 8 := by norm_num
        rw [e] at hlt ha ⊢
        exact Nat.xor_lt_two_pow hlt ha
    | succ i =>
      simp only [List.getElem?_cons_succ, List.getElem_cons_succ]
      rw [h2 i (by simpa using hi), decrypt_ab_shift]
      rfl

/-- C10. For every buffer `x` of bytes (of any length, 0 included), seed and
starting byte `a0`, `decrypt` keeps the length and sets byte `i` to
`x[i] XOR (w_i mod 256) XOR a_i`, where `w_i` is the word returned by the `i`-th
call of `next_u32` on the generator seeded with the seed (one word per byte, in
order) and `a_0 = a0`, `b_0 = b0`, `a_(i+1) = (a_i + b_i) mod 256`,
`b_(i+1) = (b_i + delta) mod 256`. It is a total function: there is no failure
case. -/
theorem decrypt_spec (G : MersenneTwister) (x : List Nat) (seed a0 b0 delta : Nat)
    (hx : ∀ v ∈ x, v < 256) (ha : a0 < 256) :
    (decrypt G x seed a0 b0 delta).length = x.length ∧
    ∀ i (hi : i < x.length), (decrypt G x seed a0 b0 delta)[i]? =
      some (x[i] ^^^ (G.words (G.Improved seed) i % 256) ^^^ (decrypt_ab a0 b0 delta i).1) :=
  decrypt_loop_spec G delta x (G.Improved seed) a0 b0 hx ha

theorem decrypt_spec_witness :
    (∀ v ∈ [0x41, 0x42, 0x43], v < 256) ∧ 0xC5 < 256 ∧
    (decrypt lcg_generator [0x41, 0x42, 0x43] 9 0xC5 0x83 0x53).length = 3 ∧
    (decrypt lcg_generator [0x41, 0x42, 0x43] 9 0xC5 0x83 0x53)[1]? =
      some (0x42 ^^^ (lcg_generator.words (lcg_generator.Improved 9) 1 % 256) ^^^ 0x48) :=
  ⟨by decide, by decide,
   (decrypt_spec lcg_generator [0x41, 0x42, 0x43] 9 0xC5 0x83 0x53 (by decide) (by decide)).1,
   (decrypt_spec lcg_generator [0x41, 0x42, 0x43] 9 0xC5 0x83 0x53 (by decide) (by decide)).2
     1 (by decide)⟩

/-! ## Byte streams -/

theorem ByteStream.read_ok {st st1 : ByteStream} {n : Nat} {bytes : List Nat}
    (h : st.read n = .ok (bytes, st1)) :
    st.pos + n ≤ st.data.length ∧ bytes = (st.data.drop st.pos).take n ∧
      st1 = { st with pos := st.pos + n } ∧ bytes.length = n := by
  unfold ByteStream.read at h
  split at h
  · rename_i hle
    simp only [Outcome.ok.injEq, Prod.mk.injEq] at h
    refine ⟨hle, h.1.symm, h.2.symm, ?_⟩
    rw [← h.1, List.length_take, List.length_drop]
    omega
  · simp at h

theorem ByteStream.read_fail {st : ByteStream} {n : Nat} {f : Fault}
    (h : st.read n = .fail f) : f = .eofError ∧ st.data.length < st.pos + n := by
  unfold ByteStream.read at h
  split at h
  · simp at h
  · simp only [Outcome.fail.injEq] at h
    exact ⟨h.symm, by omega⟩

theorem ByteStream.read_of_le {st : ByteStream} {n : Nat} (h : st.pos + n ≤ st.data.length) :
    st.read n = .ok ((st.data.drop st.pos).take n, { st with pos := st.pos + n }) := by
  unfold ByteStream.read
  rw [if_pos h]

theorem ByteStream.read_u8_ok {st st1 : ByteStream} {v : Nat}
    (h : st.read_u8 = .ok (v, st1)) :
    st.pos + 1 ≤ st.data.length ∧ v = le_value ((st.data.drop st.pos).take 1) % 2 ^ 8 ∧
      st1 = { st with pos := st.pos + 1 } := by
  unfold ByteStream.read_u8 at h
  split at h
  · simp at h
  · rename_i bytes st2 hr
    have := ByteStream.read_ok hr
    simp only [Outcome.ok.injEq, Prod.mk.injEq] at h
    exact ⟨this.1, by rw [← h.1, this.2.1], by rw [← h.2, this.2.2.1]⟩

theorem ByteStream.read_u16_le_ok {st st1 : ByteStream} {v : Nat}
    (h : st.read_u16_le = .ok (v, st1)) :
    st.pos + 2 ≤ st.data.length ∧ v = le_value ((st.data.drop st.pos).take 2) % 2 ^ 16 ∧
      st1 = { st with pos := st.pos + 2 } := by
  unfold ByteStream.read_u16_le at h
  split at h
  · simp at h
  · rename_i bytes st2 hr
    have := ByteStream.read_ok hr
    simp only [Outcome.ok.injEq, Prod.mk.injEq] at h
    exact ⟨this.1, by rw [← h.1, this.2.1], by rw [← h.2, this.2.2.1]⟩

theorem ByteStream.read_u32_le_ok {st st1 : ByteStream} {v : Nat}
    (h : st.read_u32_le = .ok (v, st1)) :
    st.pos + 4 ≤ st.data.length ∧ v = le_value ((st.data.drop st.pos).take 4) % 2 ^ 32 ∧
      st1 = { st with pos := st.pos + 4 } := by
  unfold ByteStream.read_u32_le at h
  split at h
  · simp at h
  · rename_i bytes st2 hr
    have := ByteStream.read_ok hr
    simp only [Outcome.ok.injEq, Prod.mk.injEq] at h
    exact ⟨this.1, by rw [← h.1, this.2.1], by rw [← h.2, this.2.2.1]⟩

theorem ByteStream.read_u8_fail {st : ByteStream} {f : Fault}
    (h : st.read_u8 = .fail f) : f = .eofError ∧ st.data.length < st.pos + 1 := by
  unfold ByteStream.read_u8 at h
  split at h
  · rename_i f1 hr
    simp only [Outcome.fail.injEq] at h
    rw [← h]
    exact ByteStream.read_fail hr
  · simp at h

theorem ByteStream.read_u16_le_fail {st : ByteStream} {f : Fault}
    (h : st.read_u16_le = .fail f) : f = .eofError ∧ st.data.length < st.pos + 2 := by
  unfold ByteStream.read_u16_le at h
  split at h
  · rename_i f1 hr
    simp only [Outcome.fail.injEq] at h
    rw [← h]
    exact ByteStream.read_fail hr
  · simp at h

theorem ByteStream.read_u32_le_fail {st : ByteStream} {f : Fault}
    (h : st.read_u32_le = .fail f) : f = .eofError ∧ st.data.length < st.pos + 4 := by
  unfold ByteStream.read_u32_le at h
  split at h
  · rename_i f1 hr
    simp only [Outcome.fail.injEq] at h
    rw [← h]
    exact ByteStream.read_fail hr
  · simp at h

theorem ByteStream.read_u16_le_of_le {st : ByteStream} (h : st.pos + 2 ≤ st.data.length) :
    st.read_u16_le =
      .ok (le_value ((st.data.drop st.pos).take 2) % 2 ^ 16, { st with pos := st.pos + 2 }) := by
  unfold ByteStream.read_u16_le
  rw [ByteStream.read_of_le h]

theorem ByteStream.read_u32_le_of_le {st : ByteStream} (h : st.pos + 4 ≤ st.data.length) :
    st.read_u32_le =
      .ok (le_value ((st.data.drop st.pos).take 4) % 2 ^ 32, { st with pos := st.pos + 4 }) := by
  unfold ByteStream.read_u32_le
  rw [ByteStream.read_of_le h]

/-! ## `Pak2ArchiveDecoder::read_meta_impl` -/

theorem le_value_lt (bs : List Nat) (h : ∀ b ∈ bs, b < 256) :
    le_value bs < 256 ^ bs.length := by
  induction bs with
  | nil => simp [le_value]
  | cons b rest ih =>
    have hb := h b (List.mem_cons_self b rest)
    have hr := ih (fun u hu => h u (List.mem_cons_of_mem b hu))
    rw [le_value, List.length_cons, Nat.pow_succ]
    omega

theorem le_bytes_le_value (bs : List Nat) (h : ∀ b ∈ bs, b < 256) :
    le_bytes bs.length (le_value bs) = bs := by
  induction bs with
  | nil => rfl
  | cons b rest ih =>
    have hb := h b (List.mem_cons_self b rest)
    have hr := ih (fun u hu => h u (List.mem_cons_of_mem b hu))
    rw [List.length_cons, le_bytes, le_value]
    have e1 : (b + 256 * le_value rest) % 256 = b := by omega
    have e2 : (b + 256 * le_value rest) / 256 = le_value rest := by omega
    rw [e1, e2, hr]

theorem drop_split (l : List Nat) (p n : Nat) :
    l.drop p = (l.drop p).take n ++ l.drop (p + n) := by
  rw [← List.drop_drop, List.take_append_drop]

theorem le_bytes_field {table : List Nat} {p k m : Nat} (hb : ∀ b ∈ table, b < 256)
    (hlen : p + k ≤ table.length) (hk : 256 ^ k ≤ m) :
    le_bytes k (le_value ((table.drop p).take k) % m) = (table.drop p).take k := by
  have hl : ((table.drop p).take k).length = k := by
    rw [List.length_take, List.length_drop]
    omega
  have hbs : ∀ b ∈ (table.drop p).take k, b < 256 :=
    fun b hm => hb b (List.mem_of_mem_drop (List.mem_of_mem_take hm))
  have hlt := le_value_lt _ hbs
  rw [hl] at hlt
  rw [Nat.mod_eq_of_lt (by omega)]
  have := le_bytes_le_value _ hbs
  rwa [hl] at this

theorem pak2_read_meta_loop_spec (sjis : List Nat → List Nat) (csize : Nat)
    (k : Nat) :
    ∀ (table : List Nat) (p : Nat) (acc es : List Pak2ArchiveDecoder.ArchiveEntryImpl),
      (∀ b ∈ table, b < 256) → p ≤ table.length →
      Pak2ArchiveDecoder.read_meta_loop sjis csize k { data := table, pos := p } acc = .ok es →
      ∃ recs : List Pak2Record, recs.length = k ∧
        (∀ r ∈ recs, r.valid ∧ r.offset + r.size ≤ csize) ∧
        (∃ rest, table.drop p = recs.flatMap Pak2Record.bytes ++ rest) ∧
        es = acc ++ recs.map (Pak2Record.entry sjis) ∧
        p + 9 * k + (recs.map (fun r => r.name.length)).sum ≤ table.length := by
  induction k with
  | zero =>
    intro table p acc es _ hp h
    simp only [Pak2ArchiveDecoder.read_meta_loop, Outcome.ok.injEq] at h
    exact ⟨[], rfl, by simp, ⟨table.drop p, by simp⟩, by simp [h], by simpa using hp⟩
  | succ k ih =>
    intro table p acc es hb hp h
    rw [Pak2ArchiveDecoder.read_meta_loop] at h
    split at h
    · simp at h
    rename_i offset ts1 h1
    obtain ⟨h1a, h1b, h1c⟩ := ByteStream.read_u32_le_ok h1
    subst h1c
    simp only at h1a h1b
    split at h
    · simp at h
    rename_i size ts2 h2
    obtain ⟨h2a, h2b, h2c⟩ := ByteStream.read_u32_le_ok h2
    subst h2c
    simp only at h2a h2b
    split at h
    · simp at h
    rename_i name_size ts3 h3
    obtain ⟨h3a, h3b, h3c⟩ := ByteStream.read_u8_ok h3
    subst h3c
    simp only at h3a h3b
    split at h
    · simp at h
    rename_i name ts4 h4
    obtain ⟨h4a, h4b, h4c, h4d⟩ := ByteStream.read_ok h4
    subst h4c
    simp only at h4a h4b
    split at h
    · simp at h
    rename_i hchk
    have hoff : offset < 2 ^ 32 := by rw [h1b]; exact Nat.mod_lt _ (by norm_num)
    have hsz : size < 2 ^ 32 := by rw [h2b]; exact Nat.mod_lt _ (by norm_num)
    have hns : name_size < 256 := by rw [h3b]; exact Nat.mod_lt _ (by norm_num)
    have hsum : offset + size ≤ csize := by
      have e : (2 : Nat) ^ 64 = 18446744073709551616 := by norm_num
      have e2 : (2 : Nat) ^ 32 = 4294967296 := by norm_num
      rw [e] at hchk
      rw [e2] at hoff hsz
      omega
    obtain ⟨recs, hr1, hr2, ⟨rest, hr3⟩, hr4, hr5⟩ :=
      ih table (p + 4 + 4 + 1 + name_size) _ es hb h4a h
    refine ⟨⟨offset, size, name⟩ :: recs, by simp [hr1], ?_, ⟨rest, ?_⟩, ?_, ?_⟩
    · intro r hr
      rcases List.mem_cons.mp hr with rfl | hr
      · refine ⟨⟨hoff, hsz, by simp only; omega, ?_⟩, hsum⟩
        intro b hm
        simp only at hm
        rw [h4b] at hm
        exact hb b (List.mem_of_mem_drop (List.mem_of_mem_take hm))
      · exact hr2 r hr
    · rw [List.flatMap_cons, Pak2Record.bytes]
      simp only
      have f1 : le_bytes 4 offset = (table.drop p).take 4 := by
        rw [h1b]
        exact le_bytes_field hb h1a (by norm_num)
      have f2 : le_bytes 4 size = (table.drop (p + 4)).take 4 := by
        rw [h2b]
        exact le_bytes_field hb h2a (by norm_num)
      have f3 : [name.length] = (table.drop (p + 4 + 4)).take 1 := by
        have := le_bytes_field (m := 2 ^ 8) hb h3a (by norm_num)
        rw [← h3b, le_bytes, le_bytes, Nat.mod_eq_of_lt hns] at this
        rw [h4d, this]
      rw [f1, f2, f3, h4b]
      conv_lhs => rw [drop_split table p 4, drop_split table (p + 4) 4,
        drop_split table (p + 4 + 4) 1, drop_split table (p + 4 + 4 + 1) name_size,
        hr3]
      simp only [List.append_assoc]
    · rw [hr4]
      simp [Pak2Record.entry]
    · simp only [List.map_cons, List.sum_cons]
      omega

theorem decrypt_loop_lt (G : MersenneTwister) (delta : Nat) (x : List Nat) :
    ∀ (mt : G.State) (a b : Nat), ∀ v ∈ decrypt_loop G delta mt a b x, v < 256 := by
  induction x with
  | nil =>
    intro mt a b v hv
    simp [decrypt_loop] at hv
  | cons u rest ih =>
    intro mt a b v hv
    rw [decrypt_loop] at hv
    rcases List.mem_cons.mp hv with rfl | hv
    · exact Nat.mod_lt _ (by norm_num)
    · exact ih _ _ _ v hv

theorem pak2_table_lt (G : MersenneTwister) (data : List Nat) :
    ∀ v ∈ pak2_table G data, v < 256 :=
  decrypt_loop_lt G _ _ _ _ _

/-- The body of `read_meta_impl` on a container that holds the 6-byte header: the
three recognition checks, then the loop over the decrypted table. -/
theorem pak2_read_meta_impl_eq (G : MersenneTwister)
    (sjis : List Nat → List Nat) (st : ByteStream) (h6 : 6 ≤ st.data.length) :
    Pak2ArchiveDecoder.read_meta_impl G sjis st =
      if pak2_file_count st.data = 0 ∧ st.data.length ≠ 6 then .fail .recognitionError
      else if pak2_table_size st.data > st.data.length - 6 then .fail .recognitionError
      else if pak2_table_size st.data > pak2_file_count st.data * 265 then
        .fail .recognitionError
      else
        Pak2ArchiveDecoder.read_meta_loop sjis st.data.length (pak2_file_count st.data)
          { data := pak2_table G st.data, pos := 0 } [] := by
  unfold Pak2ArchiveDecoder.read_meta_impl ByteStream.seek
  rw [if_pos (Nat.zero_le _)]
  simp only
  rw [ByteStream.read_u16_le_of_le (by simp only; omega)]
  simp only [List.drop_zero, ByteStream.size]
  have hfc : le_value (List.take 2 st.data) % 2 ^ 16 = pak2_file_count st.data := rfl
  rw [hfc]
  by_cases c1 : pak2_file_count st.data = 0 ∧ st.data.length ≠ 6
  · rw [if_pos c1, if_pos c1]
  rw [if_neg c1, if_neg c1, ByteStream.read_u32_le_of_le (by simp only; omega)]
  simp only [Nat.zero_add, ByteStream.tell]
  have hts : le_value (List.take 4 (List.drop 2 st.data)) % 2 ^ 32 = pak2_table_size st.data :=
    rfl
  rw [hts]
  by_cases c2 : pak2_table_size st.data > st.data.length - 6
  · rw [if_pos c2, if_pos c2]
  rw [if_neg c2, if_neg c2]
  have e265 : 4 + 4 + 256 + 1 = 265 := by norm_num
  rw [e265]
  by_cases c3 : pak2_table_size st.data > pak2_file_count st.data * 265
  · rw [if_pos c3, if_pos c3]
  rw [if_neg c3, if_neg c3, ByteStream.read_of_le (by simp only; omega)]
  simp only
  have hfclt : pak2_file_count st.data < 2 ^ 16 := Nat.mod_lt _ (by norm_num)
  have hseed : (pak2_table_size st.data + 6) % 2 ^ 32 = pak2_table_size st.data + 6 := by
    have e1 : (2 : Nat) ^ 16 = 65536 := by norm_num
    have e2 : (2 : Nat) ^ 32 = 4294967296 := by norm_num
    rw [e1] at hfclt
    rw [e2]
    omega
  rw [hseed]
  rfl

theorem pak2_read_meta_impl_short (G : MersenneTwister)
    (sjis : List Nat → List Nat) (st : ByteStream) (h6 : st.data.length < 6) :
    Pak2ArchiveDecoder.read_meta_impl G sjis st = .fail .eofError ∨
    Pak2ArchiveDecoder.read_meta_impl G sjis st = .fail .recognitionError := by
  unfold Pak2ArchiveDecoder.read_meta_impl ByteStream.seek
  rw [if_pos (Nat.zero_le _)]
  simp only
  cases h1 : ByteStream.read_u16_le { data := st.data, pos := 0 } with
  | fail f =>
    simp only
    rw [(ByteStream.read_u16_le_fail h1).1]
    exact Or.inl rfl
  | ok v =>
    obtain ⟨fc, st1⟩ := v
    simp only
    split
    · exact Or.inr rfl
    · cases h2 : ByteStream.read_u32_le st1 with
      | fail f =>
        simp only
        rw [(ByteStream.read_u32_le_fail h2).1]
        exact Or.inl rfl
      | ok v =>
        have := ByteStream.read_u32_le_ok h2
        rw [(ByteStream.read_u16_le_ok h1).2.2] at this
        simp only at this
        omega

theorem pak2_read_meta_loop_fail (sjis : List Nat → List Nat) (csize : Nat)
    (k : Nat) :
    ∀ (ts : ByteStream) (acc : List Pak2ArchiveDecoder.ArchiveEntryImpl) (f : Fault),
      Pak2ArchiveDecoder.read_meta_loop sjis csize k ts acc = .fail f →
      f = .eofError ∨ f = .badDataOffsetError := by
  induction k with
  | zero =>
    intro ts acc f h
    simp [Pak2ArchiveDecoder.read_meta_loop] at h
  | succ k ih =>
    intro ts acc f h
    rw [Pak2ArchiveDecoder.read_meta_loop] at h
    split at h
    · rename_i f1 h1
      simp only [Outcome.fail.injEq] at h
      rw [← h]
      exact Or.inl (ByteStream.read_u32_le_fail h1).1
    split at h
    · rename_i f1 h1
      simp only [Outcome.fail.injEq] at h
      rw [← h]
      exact Or.inl (ByteStream.read_u32_le_fail h1).1
    split at h
    · rename_i f1 h1
      simp only [Outcome.fail.injEq] at h
      rw [← h]
      exact Or.inl (ByteStream.read_u8_fail h1).1
    split at h
    · rename_i f1 h1
      simp only [Outcome.fail.injEq] at h
      rw [← h]
      exact Or.inl (ByteStream.read_fail h1).1
    split at h
    · simp only [Outcome.fail.injEq] at h
      exact Or.inr h.symm
    · exact ih _ _ _ h

theorem decrypt_length (G : MersenneTwister) (x : List Nat) (seed a b delta : Nat) :
    (decrypt G x seed a b delta).length = x.length := by
  unfold decrypt
  generalize G.Improved seed = mt
  induction x generalizing mt a b with
  | nil => rfl
  | cons u rest ih =>
    rw [decrypt_loop, List.length_cons, List.length_cons, ih]

theorem pak2_table_length (G : MersenneTwister) (data : List Nat)
    (h : 6 + pak2_table_size data ≤ data.length) :
    (pak2_table G data).length = pak2_table_size data := by
  unfold pak2_table
  rw [decrypt_length, List.length_take, List.length_drop]
  omega

/-- What a successful `read_meta_impl` has established: the header checks passed
and the entries are the records at the start of the decrypted table. -/
theorem pak2_read_meta_impl_ok (G : MersenneTwister)
    (sjis : List Nat → List Nat) (st : ByteStream) (es : List Pak2ArchiveDecoder.ArchiveEntryImpl)
    (h : Pak2ArchiveDecoder.read_meta_impl G sjis st = .ok es) :
    6 + pak2_table_size st.data ≤ st.data.length ∧
    ¬(pak2_file_count st.data = 0 ∧ st.data.length ≠ 6) ∧
    pak2_table_size st.data ≤ pak2_file_count st.data * 265 ∧
    ∃ recs : List Pak2Record, recs.length = pak2_file_count st.data ∧
      (∀ r ∈ recs, r.valid ∧ r.offset + r.size ≤ st.data.length) ∧
      (∃ rest, pak2_table G st.data = recs.flatMap Pak2Record.bytes ++ rest) ∧
      es = recs.map (Pak2Record.entry sjis) ∧
      9 * pak2_file_count st.data + (recs.map (fun r => r.name.length)).sum
        ≤ pak2_table_size st.data := by
  by_cases h6 : 6 ≤ st.data.length
  swap
  · rcases pak2_read_meta_impl_short G sjis st (by omega) with h1 | h1 <;>
      rw [h1] at h <;> simp at h
  rw [pak2_read_meta_impl_eq G sjis st h6] at h
  split at h
  · simp at h
  rename_i c1
  split at h
  · simp at h
  rename_i c2
  split at h
  · simp at h
  rename_i c3
  have hlen : 6 + pak2_table_size st.data ≤ st.data.length := by omega
  obtain ⟨recs, h1, h2, ⟨rest, h3⟩, h4, h5⟩ :=
    pak2_read_meta_loop_spec sjis _ _ _ 0 [] es (pak2_table_lt G st.data)
      (Nat.zero_le _) h
  rw [pak2_table_length G st.data hlen] at h5
  refine ⟨hlen, c1, by omega, recs, h1, h2, ⟨rest, ?_⟩, by simpa using h4, by omega⟩
  simpa using h3

theorem le_bytes_length (k v : Nat) : (le_bytes k v).length = k := by
  induction k generalizing v with
  | zero => rfl
  | succ k ih => rw [le_bytes, List.length_cons, ih]

theorem le_value_le_bytes (k v : Nat) (h : v < 256 ^ k) : le_value (le_bytes k v) = v := by
  induction k generalizing v with
  | zero =>
    simp only [Nat.pow_zero, Nat.lt_one_iff] at h
    rw [h]
    rfl
  | succ k ih =>
    rw [le_bytes, le_value, ih (v / 256) (by rw [Nat.pow_succ] at h; omega)]
    omega

theorem le_bytes_inj {k v w : Nat} (hv : v < 256 ^ k) (hw : w < 256 ^ k)
    (h : le_bytes k v = le_bytes k w) : v = w := by
  rw [← le_value_le_bytes k v hv, ← le_value_le_bytes k w hw, h]

theorem pak2_records_unique (recs : List Pak2Record) :
    ∀ (recs1 : List Pak2Record) (rest rest1 : List Nat),
      (∀ r ∈ recs, r.valid) → (∀ r ∈ recs1, r.valid) → recs.length = recs1.length →
      recs.flatMap Pak2Record.bytes ++ rest = recs1.flatMap Pak2Record.bytes ++ rest1 →
      recs = recs1 := by
  induction recs with
  | nil =>
    intro recs1 rest rest1 _ _ hlen _
    exact (List.length_eq_zero.mp hlen.symm).symm
  | cons r tail ih =>
    intro recs1 rest rest1 hv hv1 hlen h
    cases recs1 with
    | nil => simp at hlen
    | cons r1 tail1 =>
      have hr := hv r (List.mem_cons_self r tail)
      have hr1 := hv1 r1 (List.mem_cons_self r1 tail1)
      obtain ⟨o, s, name⟩ := r
      obtain ⟨o1, s1, name1⟩ := r1
      simp only [List.flatMap_cons, Pak2Record.bytes, List.append_assoc] at h
      obtain ⟨ho, h⟩ := List.append_inj h (by rw [le_bytes_length, le_bytes_length])
      obtain ⟨hs, h⟩ := List.append_inj h (by rw [le_bytes_length, le_bytes_length])
      simp only [List.singleton_append, List.cons.injEq] at h
      obtain ⟨hn, h⟩ := List.append_inj h.2 h.1
      have e : (256 : Nat) ^ 4 = 2 ^ 32 := by norm_num
      have ho1 : o = o1 := le_bytes_inj (by rw [e]; exact hr.1) (by rw [e]; exact hr1.1) ho
      have hs1 : s = s1 := le_bytes_inj (by rw [e]; exact hr.2.1) (by rw [e]; exact hr1.2.1) hs
      have htail := ih tail1 rest rest1 (fun u hu => hv u (List.mem_cons_of_mem _ hu))
        (fun u hu => hv1 u (List.mem_cons_of_mem _ hu)) (by simpa using hlen) h
      rw [ho1, hs1, hn, htail]

/-- C5. Whenever `Pak2ArchiveDecoder::read_meta_impl` returns metadata, every
entry satisfies `offset + size <= container length` (the sum taken without
32-bit wraparound). Equivalently: when the decrypted table begins with
`file_count` records and one of them has `offset + size` greater than the
container length, the function fails. -/
theorem pak2_read_meta_impl_extents (G : MersenneTwister) (sjis_to_utf8 : List Nat → List Nat)
    (st : ByteStream) :
    (∀ entries, Pak2ArchiveDecoder.read_meta_impl G sjis_to_utf8 st = .ok entries →
      ∀ e ∈ entries, e.offset + e.size ≤ st.data.length) ∧
    (∀ recs : List Pak2Record, recs.length = pak2_file_count st.data →
      (∀ r ∈ recs, r.valid) →
      (∃ rest, pak2_table G st.data = recs.flatMap Pak2Record.bytes ++ rest) →
      (∃ r ∈ recs, st.data.length < r.offset + r.size) →
      ∃ f, Pak2ArchiveDecoder.read_meta_impl G sjis_to_utf8 st = .fail f) := by
  constructor
  · intro entries h
    obtain ⟨_, _, _, recs, _, h2, _, h4, _⟩ :=
      pak2_read_meta_impl_ok G sjis_to_utf8 st entries h
    intro e he
    rw [h4] at he
    obtain ⟨r, hr, rfl⟩ := List.mem_map.mp he
    exact (h2 r hr).2
  · intro recs hlen hvalid hlay hbad
    cases h : Pak2ArchiveDecoder.read_meta_impl G sjis_to_utf8 st with
    | fail f => exact ⟨f, rfl⟩
    | ok entries =>
      exfalso
      obtain ⟨_, _, _, recs0, h1, h2, ⟨rest0, h3⟩, _, _⟩ :=
        pak2_read_meta_impl_ok G sjis_to_utf8 st entries h
      obtain ⟨rest, hrest⟩ := hlay
      have := pak2_records_unique recs recs0 rest rest0 hvalid (fun r hr => (h2 r hr).1)
        (by rw [hlen, h1]) (by rw [← hrest, ← h3])
      obtain ⟨r, hr, hlt⟩ := hbad
      rw [this] at hr
      have := (h2 r hr).2
      omega

theorem pak2_read_meta_impl_extents_witness :
    Pak2ArchiveDecoder.read_meta_impl lcg_generator id
        { data := [1, 0, 10, 0, 0, 0, 250, 138, 39, 3, 20, 132, 201, 145, 71, 199, 1, 2, 3, 4],
          pos := 0 }
      = .ok [{ path := [97], offset := 16, size := 4, already_unpacked := false }] ∧
    ∀ e ∈ [({ path := [97], offset := 16, size := 4, already_unpacked := false } :
        Pak2ArchiveDecoder.ArchiveEntryImpl)],
      e.offset + e.size ≤ 20 :=
  ⟨by decide,
   (pak2_read_meta_impl_extents lcg_generator id
      { data := [1, 0, 10, 0, 0, 0, 250, 138, 39, 3, 20, 132, 201, 145, 71, 199, 1, 2, 3, 4],
        pos := 0 }).1 _ (by decide)⟩

/-- C8. Whenever `Pak2ArchiveDecoder::read_meta_impl` succeeds, the entries
returned are, in table order, the `file_count` records
`{offset: u32 LE, size: u32 LE, name_length: u8, name}` laid out back to back
from byte 0 of the decrypted table (the `table_size` bytes after the 6-byte
header, decrypted with seed `table_size + 6` and `0xC5`, `0x83`, `0x53`), each
with `already_unpacked = false`, and the records fit the table:
`9 * file_count + sum of the name lengths <= table_size`. -/
theorem pak2_read_meta_impl_records (G : MersenneTwister)
    (sjis_to_utf8 : List Nat → List Nat) (st : ByteStream)
    (entries : List Pak2ArchiveDecoder.ArchiveEntryImpl)
    (h : Pak2ArchiveDecoder.read_meta_impl G sjis_to_utf8 st = .ok entries) :
    ∃ recs : List Pak2Record, recs.length = pak2_file_count st.data ∧
      (∀ r ∈ recs, r.valid) ∧
      (∃ rest, pak2_table G st.data = recs.flatMap Pak2Record.bytes ++ rest) ∧
      entries = recs.map (Pak2Record.entry sjis_to_utf8) ∧
      (∀ e ∈ entries, e.already_unpacked = false) ∧
      9 * pak2_file_count st.data + (recs.map (fun r => r.name.length)).sum
        ≤ pak2_table_size st.data := by
  obtain ⟨_, _, _, recs, h1, h2, h3, h4, h5⟩ :=
    pak2_read_meta_impl_ok G sjis_to_utf8 st entries h
  refine ⟨recs, h1, fun r hr => (h2 r hr).1, h3, h4, ?_, h5⟩
  intro e he
  rw [h4] at he
  obtain ⟨r, _, rfl⟩ := List.mem_map.mp he
  rfl

theorem pak2_records_length (recs : List Pak2Record) (h : ∀ r ∈ recs, r.name.length ≤ 255) :
    (recs.flatMap Pak2Record.bytes).length ≤ recs.length * 265 := by
  induction recs with
  | nil => simp
  | cons r rest ih =>
    have h1 := h r (List.mem_cons_self r rest)
    have h2 := ih (fun u hu => h u (List.mem_cons_of_mem r hu))
    rw [List.flatMap_cons, List.length_append, List.length_cons, Pak2Record.bytes]
    simp only [List.length_append, le_bytes_length, List.length_singleton]
    omega

theorem pak2_read_meta_impl_records_witness :
    Pak2ArchiveDecoder.read_meta_impl lcg_generator id
        { data := [1, 0, 10, 0, 0, 0, 250, 138, 39, 3, 20, 132, 201, 145, 71, 199, 1, 2, 3, 4],
          pos := 0 }
      = .ok [{ path := [97], offset := 16, size := 4, already_unpacked := false }] ∧
    ∃ recs : List Pak2Record, recs.length = 1 ∧ (∀ r ∈ recs, r.valid) ∧
      (∃ rest, [16, 0, 0, 0, 4, 0, 0, 0, 1, 97] = recs.flatMap Pak2Record.bytes ++ rest) ∧
      [({ path := [97], offset := 16, size := 4, already_unpacked := false } :
          Pak2ArchiveDecoder.ArchiveEntryImpl)]
        = recs.map (Pak2Record.entry id) ∧
      (∀ e ∈ [({ path := [97], offset := 16, size := 4, already_unpacked := false } :
        Pak2ArchiveDecoder.ArchiveEntryImpl)], e.already_unpacked = false) ∧
      9 * 1 + (recs.map (fun r => r.name.length)).sum ≤ 10 :=
  ⟨by decide,
   pak2_read_meta_impl_records lcg_generator id
      { data := [1, 0, 10, 0, 0, 0, 250, 138, 39, 3, 20, 132, 201, 145, 71, 199, 1, 2, 3, 4],
        pos := 0 } _ (by decide)⟩

/-- C9. On a container of at least 6 bytes, `read_meta_impl` raises
`RecognitionError` exactly when `file_count = 0` and the length is not 6, or the
table length exceeds the bytes after the header, or it exceeds
`file_count * 265`. With `file_count = 0` it succeeds only for a 6-byte container
with table length 0, and then returns no entry. The per-entry bound never
rejects a table made of exactly `file_count` records whose names have at most
255 bytes. -/
theorem pak2_read_meta_impl_recognition (G : MersenneTwister)
    (sjis_to_utf8 : List Nat → List Nat) (st : ByteStream) (h6 : 6 ≤ st.data.length) :
    (Pak2ArchiveDecoder.read_meta_impl G sjis_to_utf8 st = .fail .recognitionError ↔
      (pak2_file_count st.data = 0 ∧ st.data.length ≠ 6) ∨
      pak2_table_size st.data > st.data.length - 6 ∨
      pak2_table_size st.data > pak2_file_count st.data * 265) ∧
    (pak2_file_count st.data = 0 →
      ∀ entries, Pak2ArchiveDecoder.read_meta_impl G sjis_to_utf8 st = .ok entries →
        st.data.length = 6 ∧ pak2_table_size st.data = 0 ∧ entries = []) ∧
    (pak2_file_count st.data = 0 → st.data.length = 6 → pak2_table_size st.data = 0 →
      Pak2ArchiveDecoder.read_meta_impl G sjis_to_utf8 st = .ok []) ∧
    (∀ recs : List Pak2Record, recs.length = pak2_file_count st.data →
      (∀ r ∈ recs, r.name.length ≤ 255) →
      pak2_table_size st.data = (recs.flatMap Pak2Record.bytes).length →
      ¬ pak2_table_size st.data > pak2_file_count st.data * 265) := by
  have heq := pak2_read_meta_impl_eq G sjis_to_utf8 st h6
  refine ⟨⟨?_, ?_⟩, ?_, ?_, ?_⟩
  · intro h
    rw [heq] at h
    by_cases c1 : pak2_file_count st.data = 0 ∧ st.data.length ≠ 6
    · exact Or.inl c1
    by_cases c2 : pak2_table_size st.data > st.data.length - 6
    · exact Or.inr (Or.inl c2)
    by_cases c3 : pak2_table_size st.data > pak2_file_count st.data * 265
    · exact Or.inr (Or.inr c3)
    rw [if_neg c1, if_neg c2, if_neg c3] at h
    rcases pak2_read_meta_loop_fail _ _ _ _ _ _ h with h1 | h1 <;> simp at h1
  · intro h
    rw [heq]
    by_cases c1 : pak2_file_count st.data = 0 ∧ st.data.length ≠ 6
    · rw [if_pos c1]
    rw [if_neg c1]
    by_cases c2 : pak2_table_size st.data > st.data.length - 6
    · rw [if_pos c2]
    rw [if_neg c2]
    by_cases c3 : pak2_table_size st.data > pak2_file_count st.data * 265
    · rw [if_pos c3]
    · rcases h with h | h | h
      · exact absurd h c1
      · exact absurd h c2
      · exact absurd h c3
  · intro hfc entries h
    obtain ⟨_, h2, h3, recs, h4, _, _, h5, _⟩ :=
      pak2_read_meta_impl_ok G sjis_to_utf8 st entries h
    rw [hfc] at h3 h4
    have hnil : recs = [] := List.length_eq_zero.mp h4
    refine ⟨?_, by omega, by rw [h5, hnil]; rfl⟩
    by_contra hne
    exact h2 ⟨hfc, hne⟩
  · intro hfc hlen hts
    rw [heq, if_neg (by omega), if_neg (by omega), if_neg (by omega), hfc]
    rfl
  · intro recs hlen hnames hts
    have := pak2_records_length recs hnames
    omega

theorem pak2_read_meta_impl_recognition_witness :
    6 ≤ ([0, 0, 0, 0, 0, 0] : List Nat).length ∧
    Pak2ArchiveDecoder.read_meta_impl lcg_generator id { data := [0, 0, 0, 0, 0, 0], pos := 0 }
      = .ok [] ∧
    Pak2ArchiveDecoder.read_meta_impl lcg_generator id
      { data := [0, 0, 0, 0, 0, 0, 0], pos := 0 } = .fail .recognitionError :=
  ⟨by decide,
   (pak2_read_meta_impl_recognition lcg_generator id { data := [0, 0, 0, 0, 0, 0], pos := 0 }
      (by decide)).2.2.1 (by decide) (by decide) (by decide),
   (pak2_read_meta_impl_recognition lcg_generator id
      { data := [0, 0, 0, 0, 0, 0, 0], pos := 0 } (by decide)).1.mpr
      (Or.inl ⟨by decide, by decide⟩)⟩

/-! ## `Pak1ArchiveDecoder::read_meta_impl` -/

theorem ByteStream.read_to_zero_of_le {st : ByteStream} {n : Nat}
    (h : st.pos + n ≤ st.data.length) :
    st.read_to_zero n =
      .ok (zero_terminated ((st.data.drop st.pos).take n), { st with pos := st.pos + n }) := by
  unfold ByteStream.read_to_zero
  rw [ByteStream.read_of_le h]

theorem ByteStream.read_to_zero_fail {st : ByteStream} {n : Nat} {f : Fault}
    (h : st.read_to_zero n = .fail f) : f = .eofError := by
  unfold ByteStream.read_to_zero at h
  split at h
  · rename_i f1 hr
    simp only [Outcome.fail.injEq] at h
    rw [← h]
    exact (ByteStream.read_fail hr).1
  · simp at h

/-- The table loop on a fully readable table: started at row `i` it appends the
rows `i, ..., i + k - 1` whose size field is not zero and stops behind row
`i + k - 1`. -/
theorem pak1_read_meta_loop_rows (sjis : List Nat → List Nat) (data : List Nat)
    (k : Nat) :
    ∀ (i : Nat) (acc : List Pak1ArchiveDecoder.ArchiveEntryImpl),
      4 + 28 * (i + k) ≤ data.length →
      Pak1ArchiveDecoder.read_meta_loop sjis k { data := data, pos := 4 + 28 * i } acc =
        .ok (acc ++ ((List.range' i k).map (pak1_row sjis data)).filter
              (fun e => decide (e.size ≠ 0)),
             { data := data, pos := 4 + 28 * (i + k) }) := by
  induction k with
  | zero =>
    intro i acc _
    simp [Pak1ArchiveDecoder.read_meta_loop]
  | succ k ih =>
    intro i acc hlen
    rw [Pak1ArchiveDecoder.read_meta_loop,
      ByteStream.read_to_zero_of_le (by simp only; omega)]
    simp only
    rw [ByteStream.read_u32_le_of_le (by simp only; omega)]
    simp only
    rw [ByteStream.read_u32_le_of_le (by simp only; omega)]
    simp only
    rw [ByteStream.read_u32_le_of_le (by simp only; omega)]
    simp only
    have e1 : 4 + 28 * i + 16 + 4 = 4 + 28 * i + 20 := by omega
    have e2 : 4 + 28 * i + 20 + 4 = 4 + 28 * i + 24 := by omega
    have e3 : 4 + 28 * i + 24 + 4 = 4 + 28 * (i + 1) := by omega
    have e4 : i + (k + 1) = i + 1 + k := by omega
    rw [e1, e2, e3, e4]
    have hrow : ({ path := sjis (zero_terminated ((data.drop (4 + 28 * i)).take 16))
                   offset := le_value ((data.drop (4 + 28 * i + 24)).take 4) % 2 ^ 32
                   size := le_value ((data.drop (4 + 28 * i + 16)).take 4) % 2 ^ 32
                   compressed :=
                    decide (le_value ((data.drop (4 + 28 * i + 20)).take 4) % 2 ^ 32 > 0)
                   already_unpacked := false } : Pak1ArchiveDecoder.ArchiveEntryImpl)
        = pak1_row sjis data i := rfl
    have hsize : le_value ((data.drop (4 + 28 * i + 16)).take 4) % 2 ^ 32
        = (pak1_row sjis data i).size := rfl
    rw [hrow, hsize, List.range'_succ, List.map_cons, List.filter_cons]
    by_cases hz : (pak1_row sjis data i).size ≠ 0
    · rw [if_pos hz, ih (i + 1) _ (by omega)]
      simp [hz]
    · rw [if_neg hz, ih (i + 1) _ (by omega)]
      simp [hz]

/-- On a container whose table is fully readable, `read_meta_impl` started at the
beginning returns the rows with a non-zero size field and leaves the stream
behind the table. -/
theorem pak1_read_meta_impl_eq (sjis : List Nat → List Nat) (data : List Nat)
    (hlen : 4 + 28 * pak1_file_count data ≤ data.length) :
    Pak1ArchiveDecoder.read_meta_impl sjis { data := data, pos := 0 } =
      .ok ((pak1_rows sjis data).filter (fun e => decide (e.size ≠ 0)),
           { data := data, pos := 4 + 28 * pak1_file_count data }) := by
  unfold Pak1ArchiveDecoder.read_meta_impl
  rw [ByteStream.read_u32_le_of_le (by simp only; omega)]
  simp only [List.drop_zero, Nat.zero_add]
  have hfc : le_value (List.take 4 data) % 2 ^ 32 = pak1_file_count data := rfl
  rw [hfc]
  have := pak1_read_meta_loop_rows sjis data (pak1_file_count data) 0 [] (by omega)
  simp only [Nat.mul_zero, Nat.add_zero, Nat.zero_add, List.nil_append] at this
  rw [this, pak1_rows, List.range_eq_range']

/-- C7. On a container whose table is fully readable, the entry sequence
returned by `Pak1ArchiveDecoder::read_meta_impl` is the subsequence of the
`file_count` table rows (16-byte zero-terminated name, `u32` size, `u32`
compression indicator, `u32` offset, with `compressed = (indicator > 0)` and
`already_unpacked = false`) whose size field is not zero, in table order; the
stream is left behind the last row and no returned entry has size 0. -/
theorem pak1_read_meta_impl_rows (sjis_to_utf8 : List Nat → List Nat) (data : List Nat)
    (hlen : 4 + 28 * pak1_file_count data ≤ data.length) :
    Pak1ArchiveDecoder.read_meta_impl sjis_to_utf8 { data := data, pos := 0 } =
      .ok ((pak1_rows sjis_to_utf8 data).filter (fun e => decide (e.size ≠ 0)),
           { data := data, pos := 4 + 28 * pak1_file_count data }) ∧
    ∀ e ∈ (pak1_rows sjis_to_utf8 data).filter (fun e => decide (e.size ≠ 0)),
      e.size ≠ 0 ∧ e.already_unpacked = false := by
  constructor
  · exact pak1_read_meta_impl_eq sjis_to_utf8 data hlen
  · intro e he
    obtain ⟨hm, hs⟩ := List.mem_filter.mp he
    refine ⟨by simpa using hs, ?_⟩
    unfold pak1_rows at hm
    obtain ⟨i, _, rfl⟩ := List.mem_map.mp hm
    rfl

theorem pak1_read_meta_impl_rows_witness :
    4 + 28 * 2 ≤ ([2, 0, 0, 0,
          97, 98, 0, 0, 0, 0, 0, 0, 0, 0, 0, 0, 0, 0, 0, 0, 3, 0, 0, 0, 0, 0, 0, 0, 60, 0, 0, 0,
          99, 0, 0, 0, 0, 0, 0, 0, 0, 0, 0, 0, 0, 0, 0, 0, 0, 0, 0, 0, 1, 0, 0, 0, 63, 0, 0, 0,
          7, 8, 9] : List Nat).length ∧
    Pak1ArchiveDecoder.read_meta_impl id
      { data := [2, 0, 0, 0,
          97, 98, 0, 0, 0, 0, 0, 0, 0, 0, 0, 0, 0, 0, 0, 0, 3, 0, 0, 0, 0, 0, 0, 0, 60, 0, 0, 0,
          99, 0, 0, 0, 0, 0, 0, 0, 0, 0, 0, 0, 0, 0, 0, 0, 0, 0, 0, 0, 1, 0, 0, 0, 63, 0, 0, 0,
          7, 8, 9], pos := 0 } =
      .ok ([{ path := [97, 98], offset := 60, size := 3, compressed := false,
              already_unpacked := false }],
           { data := [2, 0, 0, 0,
          97, 98, 0, 0, 0, 0, 0, 0, 0, 0, 0, 0, 0, 0, 0, 0, 3, 0, 0, 0, 0, 0, 0, 0, 60, 0, 0, 0,
          99, 0, 0, 0, 0, 0, 0, 0, 0, 0, 0, 0, 0, 0, 0, 0, 0, 0, 0, 0, 1, 0, 0, 0, 63, 0, 0, 0,
          7, 8, 9], pos := 60 }) :=
  ⟨by decide,
   (pak1_read_meta_impl_rows id _ (by decide)).1⟩

theorem pak1_read_meta_loop_fields (sjis : List Nat → List Nat) (k : Nat) :
    ∀ (st st1 : ByteStream) (acc es : List Pak1ArchiveDecoder.ArchiveEntryImpl),
      Pak1ArchiveDecoder.read_meta_loop sjis k st acc = .ok (es, st1) →
      (∀ e ∈ acc, 0 < e.size ∧ e.size < 2 ^ 32 ∧ e.offset < 2 ^ 32) →
      ∀ e ∈ es, 0 < e.size ∧ e.size < 2 ^ 32 ∧ e.offset < 2 ^ 32 := by
  induction k with
  | zero =>
    intro st st1 acc es h hacc
    simp only [Pak1ArchiveDecoder.read_meta_loop, Outcome.ok.injEq, Prod.mk.injEq] at h
    rw [← h.1]
    exact hacc
  | succ k ih =>
    intro st st1 acc es h hacc
    rw [Pak1ArchiveDecoder.read_meta_loop] at h
    split at h
    · simp at h
    split at h
    · simp at h
    rename_i size sb hsize
    split at h
    · simp at h
    split at h
    · simp at h
    rename_i offset sd hoffset
    have hs := (ByteStream.read_u32_le_ok hsize).2.1
    have ho := (ByteStream.read_u32_le_ok hoffset).2.1
    simp only at h
    split at h
    · rename_i hz
      refine ih _ _ _ _ h ?_
      intro e he
      rcases List.mem_append.mp he with he | he
      · exact hacc e he
      · rw [List.mem_singleton.mp he]
        refine ⟨Nat.pos_of_ne_zero hz, ?_, ?_⟩
        · simp only
          rw [hs]
          exact Nat.mod_lt _ (by norm_num)
        · simp only
          rw [ho]
          exact Nat.mod_lt _ (by norm_num)
    · exact ih _ _ _ _ h hacc

theorem pak1_read_meta_loop_fail (sjis : List Nat → List Nat) (k : Nat) :
    ∀ (st : ByteStream) (acc : List Pak1ArchiveDecoder.ArchiveEntryImpl) (f : Fault),
      Pak1ArchiveDecoder.read_meta_loop sjis k st acc = .fail f → f = .eofError := by
  induction k with
  | zero =>
    intro st acc f h
    simp [Pak1ArchiveDecoder.read_meta_loop] at h
  | succ k ih =>
    intro st acc f h
    rw [Pak1ArchiveDecoder.read_meta_loop] at h
    split at h
    · rename_i f1 h1
      simp only [Outcome.fail.injEq] at h
      rw [← h]
      exact ByteStream.read_to_zero_fail h1
    split at h
    · rename_i f1 h1
      simp only [Outcome.fail.injEq] at h
      rw [← h]
      exact (ByteStream.read_u32_le_fail h1).1
    split at h
    · rename_i f1 h1
      simp only [Outcome.fail.injEq] at h
      rw [← h]
      exact (ByteStream.read_u32_le_fail h1).1
    split at h
    · rename_i f1 h1
      simp only [Outcome.fail.injEq] at h
      rw [← h]
      exact (ByteStream.read_u32_le_fail h1).1
    simp only at h
    split at h
    · exact ih _ _ _ h
    · exact ih _ _ _ h

/-- C6 (counterexample). A 32-byte container whose single row has size 1 and
offset `0xFFFFFFFF`: `read_meta_impl` returns the row as an entry although
`offset + size` exceeds the container length. -/
theorem pak1_read_meta_impl_unchecked_extent :
    Pak1ArchiveDecoder.read_meta_impl id { data := pak1_sample_far_offset, pos := 0 } =
      .ok ([{ path := [97], offset := 4294967295, size := 1, compressed := false,
              already_unpacked := false }],
           { data := pak1_sample_far_offset, pos := 32 }) ∧
    ¬ (4294967295 + 1 ≤ pak1_sample_far_offset.length) := by
  decide

/-- C6 (amended). Whenever `Pak1ArchiveDecoder::read_meta_impl` returns metadata,
every returned entry carries table fields with `0 < size < 2^32` and
`offset < 2^32`; the extent is not compared with the container length. Metadata
parsing fails only with `EofError`, when the table itself cannot be read; no row
content makes it fail. -/
theorem pak1_read_meta_impl_fields (sjis_to_utf8 : List Nat → List Nat) (st : ByteStream) :
    (∀ entries st1, Pak1ArchiveDecoder.read_meta_impl sjis_to_utf8 st = .ok (entries, st1) →
      ∀ e ∈ entries, 0 < e.size ∧ e.size < 2 ^ 32 ∧ e.offset < 2 ^ 32) ∧
    (∀ f, Pak1ArchiveDecoder.read_meta_impl sjis_to_utf8 st = .fail f → f = .eofError) := by
  constructor
  · intro entries st1 h
    unfold Pak1ArchiveDecoder.read_meta_impl at h
    split at h
    · simp at h
    · exact pak1_read_meta_loop_fields sjis_to_utf8 _ _ _ _ _ h
        (fun e he => absurd he (List.not_mem_nil e))
  · intro f h
    unfold Pak1ArchiveDecoder.read_meta_impl at h
    split at h
    · rename_i f1 h1
      simp only [Outcome.fail.injEq] at h
      rw [← h]
      exact (ByteStream.read_u32_le_fail h1).1
    · exact pak1_read_meta_loop_fail sjis_to_utf8 _ _ _ _ h

theorem pak1_read_meta_impl_fields_witness :
    Pak1ArchiveDecoder.read_meta_impl id { data := pak1_sample_far_offset, pos := 0 } =
      .ok ([{ path := [97], offset := 4294967295, size := 1, compressed := false,
              already_unpacked := false }],
           { data := pak1_sample_far_offset, pos := 32 }) ∧
    ∀ e ∈ [({ path := [97], offset := 4294967295, size := 1, compressed := false,
              already_unpacked := false } : Pak1ArchiveDecoder.ArchiveEntryImpl)],
      0 < e.size ∧ e.size < 2 ^ 32 ∧ e.offset < 2 ^ 32 :=
  ⟨by decide,
   (pak1_read_meta_impl_fields id { data := pak1_sample_far_offset, pos := 0 }).1 _
     { data := pak1_sample_far_offset, pos := 32 } (by decide)⟩

/-! ## `Pak2ArchiveDecoder::read_file_impl` -/

theorem xor_lt_256 {x y : Nat} (hx : x < 256) (hy : y < 256) : x ^^^ y < 256 := by
  have e : (256 : Nat) = 2 ^ 8 := by norm_num
  rw [e] at hx hy ⊢
  exact Nat.xor_lt_two_pow hx hy

theorem take_drop_getElem? (data : List Nat) (offset size j : Nat) (hj : j < size) :
    ((data.drop offset).take size)[j]? = data[offset + j]? := by
  rw [List.getElem?_take, if_pos hj, List.getElem?_drop]

/-- C11. For an entry that is not yet unpacked and lies inside the container,
`Pak2ArchiveDecoder::read_file_impl` returns a file with the entry's path and
exactly `size` bytes, byte `j` being `container[offset + j] XOR m` for the single
constant `m = ((offset >> 1) | 0x23) mod 256`; for an entry that is already
unpacked it returns no file. -/
theorem pak2_read_file_impl_spec (st : ByteStream) (e : Pak2ArchiveDecoder.ArchiveEntryImpl)
    (hb : ∀ b ∈ st.data, b < 256) :
    (e.already_unpacked = false → e.offset + e.size ≤ st.data.length →
      ∃ file, Pak2ArchiveDecoder.read_file_impl st e = .ok (some file) ∧
        file.path = e.path ∧ file.data.length = e.size ∧
        ∀ j, j < e.size → ∃ b, st.data[e.offset + j]? = some b ∧
          file.data[j]? = some (b ^^^ (((e.offset >>> 1) ||| 0x23) % 256))) ∧
    (e.already_unpacked = true → Pak2ArchiveDecoder.read_file_impl st e = .ok none) := by
  constructor
  · intro hflag hlen
    unfold Pak2ArchiveDecoder.read_file_impl ByteStream.seek
    rw [hflag]
    simp only [Bool.false_eq_true, if_false]
    rw [if_pos (show e.offset ≤ st.data.length by omega)]
    simp only
    rw [ByteStream.read_of_le (by simp only; omega)]
    simp only
    refine ⟨_, rfl, rfl, ?_, ?_⟩
    · simp only [unxor, List.length_map, List.length_take, List.length_drop]
      omega
    · intro j hj
      have hlt : e.offset + j < st.data.length := by omega
      refine ⟨st.data[e.offset + j], List.getElem?_eq_getElem hlt, ?_⟩
      simp only [unxor, List.getElem?_map]
      rw [take_drop_getElem? _ _ _ _ hj, List.getElem?_eq_getElem hlt]
      simp only [Option.map_some', Option.some.injEq]
      exact Nat.mod_eq_of_lt
        (xor_lt_256 (hb _ (List.getElem_mem hlt)) (Nat.mod_lt _ (by norm_num)))
  · intro hflag
    unfold Pak2ArchiveDecoder.read_file_impl
    rw [hflag, if_pos rfl]

theorem pak2_read_file_impl_spec_witness :
    (∀ b ∈ pak2_sample, b < 256) ∧
    Pak2ArchiveDecoder.read_file_impl { data := pak2_sample, pos := 0 }
      { path := [97], offset := 16, size := 4, already_unpacked := false }
      = .ok (some { path := [97], data := [42, 41, 40, 47] }) ∧
    (∃ file, Pak2ArchiveDecoder.read_file_impl { data := pak2_sample, pos := 0 }
        { path := [97], offset := 16, size := 4, already_unpacked := false }
        = .ok (some file) ∧
      file.path = [97] ∧ file.data.length = 4 ∧
      ∀ j, j < 4 → ∃ b, pak2_sample[16 + j]? = some b ∧
        file.data[j]? = some (b ^^^ (((16 >>> 1) ||| 0x23) % 256))) ∧
    Pak2ArchiveDecoder.read_file_impl { data := pak2_sample, pos := 0 }
      { path := [97], offset := 16, size := 4, already_unpacked := true } = .ok none :=
  ⟨by decide, by decide,
   (pak2_read_file_impl_spec { data := pak2_sample, pos := 0 }
      { path := [97], offset := 16, size := 4, already_unpacked := false }
      (by decide)).1 rfl (by decide),
   (pak2_read_file_impl_spec { data := pak2_sample, pos := 0 }
      { path := [97], offset := 16, size := 4, already_unpacked := true }
      (by decide)).2 rfl⟩

/-! ## `Pak1ArchiveDecoder::read_file_impl` and `set_version` -/

theorem ByteStream.seek_fail {st : ByteStream} {offset : Nat} {f : Fault}
    (h : st.seek offset = .fail f) : f = .eofError := by
  unfold ByteStream.seek at h
  split at h
  · simp at h
  · simp only [Outcome.fail.injEq] at h
    exact h.symm

theorem ByteStream.seek_of_le {st : ByteStream} {offset : Nat} (h : offset ≤ st.data.length) :
    st.seek offset = .ok { st with pos := offset } := by
  unfold ByteStream.seek
  rw [if_pos h]

/-- With a version selector set, `read_file_impl` fails only with `EofError` or
with an undefined access of the decompression routine. -/
theorem pak1_read_file_impl_fail {p : Pak1ArchiveDecoder.Priv} {st : ByteStream}
    {e : Pak1ArchiveDecoder.ArchiveEntryImpl} {v : Int} {f : Fault}
    (hv : p.version = some v) (h : Pak1ArchiveDecoder.read_file_impl p st e = .fail f) :
    f = .eofError ∨ f.isException = false := by
  unfold Pak1ArchiveDecoder.read_file_impl at h
  rw [hv] at h
  simp only at h
  by_cases hflag : e.already_unpacked = true
  · rw [if_pos hflag] at h
    simp at h
  rw [if_neg hflag] at h
  cases h0 : st.seek e.offset with
  | fail f0 =>
    rw [h0] at h
    simp only [Outcome.fail.injEq] at h
    rw [← h]
    exact Or.inl (ByteStream.seek_fail h0)
  | ok st0 =>
    rw [h0] at h
    simp only at h
    by_cases hc : e.compressed = true
    · rw [if_pos hc] at h
      cases h1 : st0.read_u32_le with
      | fail f1 =>
        rw [h1] at h
        simp only [Outcome.fail.injEq] at h
        rw [← h]
        exact Or.inl (ByteStream.read_u32_le_fail h1).1
      | ok r1 =>
        obtain ⟨size_comp, st2⟩ := r1
        rw [h1] at h
        simp only at h
        cases h2 : st2.read_u32_le with
        | fail f2 =>
          rw [h2] at h
          simp only [Outcome.fail.injEq] at h
          rw [← h]
          exact Or.inl (ByteStream.read_u32_le_fail h2).1
        | ok r2 =>
          obtain ⟨size_orig, st3⟩ := r2
          rw [h2] at h
          simp only at h
          cases h3 : st3.read (u32_sub size_comp 8) with
          | fail f3 =>
            rw [h3] at h
            simp only [Outcome.fail.injEq] at h
            rw [← h]
            exact Or.inl (ByteStream.read_fail h3).1
          | ok r3 =>
            obtain ⟨data, st4⟩ := r3
            rw [h3] at h
            simp only at h
            cases h4 : custom_lzss_decompress data size_orig
                (if v = 1 then 0x1000 else 0x800) with
            | fail f4 =>
              rw [h4] at h
              simp only [Outcome.fail.injEq] at h
              rw [← h]
              exact Or.inr (custom_lzss_decompress_fail h4)
            | ok out =>
              rw [h4] at h
              simp at h
    · rw [if_neg hc] at h
      cases h1 : st0.read e.size with
      | fail f1 =>
        rw [h1] at h
        simp only [Outcome.fail.injEq] at h
        rw [← h]
        exact Or.inl (ByteStream.read_fail h1).1
      | ok r1 =>
        rw [h1] at h
        simp at h

/-- C12. With the version selector `v` in `{1, 2}` set and an entry that is not
yet unpacked, `Pak1ArchiveDecoder::read_file_impl` returns the entry's path with,
for an entry that is not compressed, the bytes `container[offset .. offset+size)`
verbatim and, for a compressed one, the result of `custom_lzss_decompress` on
`container[offset+8 .. offset+8+(compressed_size-8))` with output size
`uncompressed_size`, these being the little-endian `u32` values at `offset` and
`offset + 4`, and capacity `0x1000` for `v = 1`, `0x800` for `v = 2`. -/
theorem pak1_read_file_impl_spec (p : Pak1ArchiveDecoder.Priv) (st : ByteStream)
    (e : Pak1ArchiveDecoder.ArchiveEntryImpl) (v : Int)
    (hv : p.version = some v) (hflag : e.already_unpacked = false) :
    (e.compressed = false → e.offset + e.size ≤ st.data.length →
      Pak1ArchiveDecoder.read_file_impl p st e =
        .ok (some { path := e.path, data := (st.data.drop e.offset).take e.size })) ∧
    (e.compressed = true → e.offset + 8 ≤ st.data.length →
      8 ≤ le_value ((st.data.drop e.offset).take 4) % 2 ^ 32 →
      e.offset + le_value ((st.data.drop e.offset).take 4) % 2 ^ 32 ≤ st.data.length →
      ∀ capacity, (v = 1 ∧ capacity = 0x1000) ∨ (v = 2 ∧ capacity = 0x800) →
      Pak1ArchiveDecoder.read_file_impl p st e =
        match custom_lzss_decompress
            ((st.data.drop (e.offset + 8)).take
              (le_value ((st.data.drop e.offset).take 4) % 2 ^ 32 - 8))
            (le_value ((st.data.drop (e.offset + 4)).take 4) % 2 ^ 32)
            capacity with
        | .fail f => .fail f
        | .ok data => .ok (some { path := e.path, data := data })) ∧
    (∀ file, Pak1ArchiveDecoder.read_file_impl p st e = .ok (some file) →
      file.path = e.path) := by
  refine ⟨?_, ?_, ?_⟩
  · intro hc hlen
    unfold Pak1ArchiveDecoder.read_file_impl
    rw [hv]
    simp only
    rw [hflag, hc]
    simp only [Bool.false_eq_true, if_false]
    rw [ByteStream.seek_of_le (by omega)]
    simp only
    rw [ByteStream.read_of_le (by simp only; omega)]
  · intro hc h8 hc8 hlen capacity hcap
    have hcap1 : (if v = 1 then 0x1000 else 0x800) = capacity := by
      rcases hcap with ⟨h1, h2⟩ | ⟨h1, h2⟩
      · rw [h1, h2]
        rfl
      · rw [h1, h2]
        rfl
    unfold Pak1ArchiveDecoder.read_file_impl
    rw [hv]
    simp only
    rw [hflag, hc]
    simp only [Bool.false_eq_true, if_false, if_true]
    rw [ByteStream.seek_of_le (by omega)]
    simp only
    rw [ByteStream.read_u32_le_of_le (by simp only; omega)]
    simp only
    rw [ByteStream.read_u32_le_of_le (by simp only; omega)]
    simp only
    have hsub : u32_sub (le_value ((st.data.drop e.offset).take 4) % 2 ^ 32) 8
        = le_value ((st.data.drop e.offset).take 4) % 2 ^ 32 - 8 := by
      unfold u32_sub
      rw [if_pos hc8]
    rw [hsub, ByteStream.read_of_le (by simp only; omega), hcap1]
  · intro file h
    unfold Pak1ArchiveDecoder.read_file_impl at h
    rw [hv] at h
    simp only at h
    rw [hflag] at h
    simp only [Bool.false_eq_true, if_false] at h
    cases h0 : st.seek e.offset with
    | fail f0 =>
      rw [h0] at h
      simp at h
    | ok st0 =>
      rw [h0] at h
      simp only at h
      by_cases hc : e.compressed = true
      · rw [if_pos hc] at h
        cases h1 : st0.read_u32_le with
        | fail f1 =>
          rw [h1] at h
          simp at h
        | ok r1 =>
          obtain ⟨size_comp, st2⟩ := r1
          rw [h1] at h
          simp only at h
          cases h2 : st2.read_u32_le with
          | fail f2 =>
            rw [h2] at h
            simp at h
          | ok r2 =>
            obtain ⟨size_orig, st3⟩ := r2
            rw [h2] at h
            simp only at h
            cases h3 : st3.read (u32_sub size_comp 8) with
            | fail f3 =>
              rw [h3] at h
              simp at h
            | ok r3 =>
              obtain ⟨data, st4⟩ := r3
              rw [h3] at h
              simp only at h
              cases h4 : custom_lzss_decompress data size_orig
                  (if v = 1 then 0x1000 else 0x800) with
              | fail f4 =>
                rw [h4] at h
                simp at h
              | ok out =>
                rw [h4] at h
                simp only [Outcome.ok.injEq, Option.some.injEq] at h
                rw [← h]
      · rw [if_neg hc] at h
        cases h1 : st0.read e.size with
        | fail f1 =>
          rw [h1] at h
          simp at h
        | ok r1 =>
          rw [h1] at h
          simp only [Outcome.ok.injEq, Option.some.injEq] at h
          rw [← h]

theorem pak1_read_file_impl_spec_witness :
    Pak1ArchiveDecoder.read_file_impl { version := some 1 }
      { data := pak1_sample_payload, pos := 0 }
      { path := [97], offset := 0, size := 14, compressed := true, already_unpacked := false }
      = .ok (some { path := [97], data := [0x68, 0x65, 0x6C, 0x6C, 0x6F] }) ∧
    Pak1ArchiveDecoder.read_file_impl { version := some 2 }
      { data := pak1_sample_payload, pos := 0 }
      { path := [98], offset := 8, size := 6, compressed := false, already_unpacked := false }
      = .ok (some { path := [98], data := [0xFF, 0x68, 0x65, 0x6C, 0x6C, 0x6F] }) :=
  ⟨((pak1_read_file_impl_spec { version := some 1 }
        { data := pak1_sample_payload, pos := 0 }
        { path := [97], offset := 0, size := 14, compressed := true,
          already_unpacked := false } 1 rfl rfl).2.1 rfl (by decide) (by decide) (by decide)
        0x1000 (Or.inl ⟨rfl, rfl⟩)).trans (by decide),
   (pak1_read_file_impl_spec { version := some 2 }
        { data := pak1_sample_payload, pos := 0 }
        { path := [98], offset := 8, size := 6, compressed := false,
          already_unpacked := false } 2 rfl rfl).1 rfl (by decide)⟩

/-- C13. `Pak1ArchiveDecoder::read_file_impl` raises the usage error if and only
if no version selector is set, and then for every entry and whatever the
container holds; `set_version` accepts exactly the values 1 and 2 and on any
other value raises the usage error and leaves the selector as it was; `read_meta`
and `is_recognized_impl` do not depend on the selector. -/
theorem pak1_version_selector (p : Pak1ArchiveDecoder.Priv) :
    (∀ st e, Pak1ArchiveDecoder.read_file_impl p st e = .fail .usageError ↔
      p.version = none) ∧
    (p.version = none → ∀ st st1 e e1,
      Pak1ArchiveDecoder.read_file_impl p st e = .fail .usageError ∧
      Pak1ArchiveDecoder.read_file_impl p st e
        = Pak1ArchiveDecoder.read_file_impl p st1 e1) ∧
    (∀ v : Int, (v = 1 ∨ v = 2) →
      Pak1ArchiveDecoder.set_version p v = (.ok (), { version := some v })) ∧
    (∀ v : Int, ¬(v = 1 ∨ v = 2) →
      Pak1ArchiveDecoder.set_version p v = (.fail .usageError, p)) ∧
    (∀ (p1 : Pak1ArchiveDecoder.Priv) sjis_to_utf8 st,
      Pak1ArchiveDecoder.read_meta p sjis_to_utf8 st
        = Pak1ArchiveDecoder.read_meta p1 sjis_to_utf8 st ∧
      Pak1ArchiveDecoder.is_recognized_impl p sjis_to_utf8 st
        = Pak1ArchiveDecoder.is_recognized_impl p1 sjis_to_utf8 st) := by
  have hnone : p.version = none → ∀ st e,
      Pak1ArchiveDecoder.read_file_impl p st e = .fail .usageError := by
    intro h st e
    unfold Pak1ArchiveDecoder.read_file_impl
    rw [h]
  refine ⟨?_, ?_, ?_, ?_, ?_⟩
  · intro st e
    constructor
    · intro h
      cases hv : p.version with
      | none => rfl
      | some v =>
        rcases pak1_read_file_impl_fail hv h with h1 | h1 <;> simp [Fault.isException] at h1
    · intro h
      exact hnone h st e
  · intro h st st1 e e1
    exact ⟨hnone h st e, by rw [hnone h st e, hnone h st1 e1]⟩
  · intro v hv
    unfold Pak1ArchiveDecoder.set_version
    rw [if_neg (by omega)]
  · intro v hv
    unfold Pak1ArchiveDecoder.set_version
    rw [if_pos (by omega)]
  · intro p1 sjis st
    exact ⟨rfl, rfl⟩

theorem pak1_version_selector_witness :
    Pak1ArchiveDecoder.read_file_impl { version := none }
      { data := pak1_sample_payload, pos := 0 }
      { path := [98], offset := 8, size := 6, compressed := false, already_unpacked := false }
      = .fail .usageError ∧
    Pak1ArchiveDecoder.set_version { version := some 1 } 3
      = (.fail .usageError, { version := some 1 }) ∧
    Pak1ArchiveDecoder.set_version { version := none } 2 = (.ok (), { version := some 2 }) :=
  ⟨((pak1_version_selector { version := none }).2.1 rfl
      { data := pak1_sample_payload, pos := 0 } { data := [], pos := 0 }
      { path := [98], offset := 8, size := 6, compressed := false, already_unpacked := false }
      { path := [], offset := 0, size := 0, compressed := true, already_unpacked := true }).1,
   (pak1_version_selector { version := some 1 }).2.2.2.1 3 (by decide),
   (pak1_version_selector { version := none }).2.2.1 2 (Or.inr rfl)⟩

/-! ## Recognition (`is_recognized_impl`) -/

theorem pak1_rows_lt (sjis : List Nat → List Nat) (data : List Nat) :
    ∀ e ∈ pak1_rows sjis data, e.offset < 2 ^ 32 ∧ e.size < 2 ^ 32 := by
  intro e he
  unfold pak1_rows at he
  obtain ⟨i, _, rfl⟩ := List.mem_map.mp he
  exact ⟨Nat.mod_lt _ (by norm_num), Nat.mod_lt _ (by norm_num)⟩

theorem pak1_read_meta_pos (p : Pak1ArchiveDecoder.Priv) (sjis : List Nat → List Nat)
    (data : List Nat) (pos : Nat) :
    Pak1ArchiveDecoder.read_meta p sjis { data := data, pos := pos } =
      Pak1ArchiveDecoder.read_meta_impl sjis { data := data, pos := 0 } := by
  unfold Pak1ArchiveDecoder.read_meta ByteStream.seek
  rw [if_pos (Nat.zero_le _)]

/-- C14. On a container whose table is fully readable,
`Pak1ArchiveDecoder::is_recognized_impl` returns normally, and returns true if and
only if the last entry the table yields (the last row with a non-zero size field)
has `offset + size` equal to the total length of the container; it returns false
when the table yields no entry. -/
theorem pak1_is_recognized_impl_spec (p : Pak1ArchiveDecoder.Priv)
    (sjis_to_utf8 : List Nat → List Nat) (data : List Nat) (pos : Nat)
    (hlen : 4 + 28 * pak1_file_count data ≤ data.length) :
    ∃ b, Pak1ArchiveDecoder.is_recognized_impl p sjis_to_utf8 { data := data, pos := pos }
        = .ok b ∧
      (b = true ↔ ∃ last,
        ((pak1_rows sjis_to_utf8 data).filter (fun e => decide (e.size ≠ 0))).getLast?
          = some last ∧ last.offset + last.size = data.length) ∧
      ((pak1_rows sjis_to_utf8 data).filter (fun e => decide (e.size ≠ 0)) = [] →
        b = false) := by
  unfold Pak1ArchiveDecoder.is_recognized_impl
  rw [pak1_read_meta_pos, pak1_read_meta_impl_eq sjis_to_utf8 data hlen]
  simp only
  generalize hes : (pak1_rows sjis_to_utf8 data).filter (fun e => decide (e.size ≠ 0)) = es
  have hlt : ∀ e ∈ es, e.offset < 2 ^ 32 ∧ e.size < 2 ^ 32 := by
    intro e he
    rw [← hes] at he
    exact pak1_rows_lt sjis_to_utf8 data e (List.mem_filter.mp he).1
  by_cases h0 : es.length = 0
  · rw [if_pos h0]
    have : es = [] := List.length_eq_zero.mp h0
    refine ⟨false, rfl, ?_, fun _ => rfl⟩
    rw [this]
    simp
  · rw [if_neg h0, ← List.getLast?_eq_getElem?]
    cases hl : es.getLast? with
    | none =>
      rw [List.getLast?_eq_none_iff] at hl
      rw [hl] at h0
      simp at h0
    | some last =>
      simp only
      have hm : last ∈ es := List.mem_of_getLast?_eq_some hl
      have hb := hlt last hm
      have heq : (last.offset + last.size) % 2 ^ 64 = last.offset + last.size := by
        have e1 : (2 : Nat) ^ 32 = 4294967296 := by norm_num
        have e2 : (2 : Nat) ^ 64 = 18446744073709551616 := by norm_num
        rw [e1] at hb
        rw [e2]
        omega
      refine ⟨_, rfl, ?_, ?_⟩
      · rw [heq]
        simp [ByteStream.size]
      · intro hnil
        rw [hnil] at hl
        simp at hl

theorem pak1_is_recognized_impl_spec_witness :
    4 + 28 * pak1_file_count pak1_sample_two_rows ≤ pak1_sample_two_rows.length ∧
    Pak1ArchiveDecoder.is_recognized_impl { version := none } id
      { data := pak1_sample_two_rows, pos := 7 } = .ok true ∧
    ∃ b, Pak1ArchiveDecoder.is_recognized_impl { version := none } id
        { data := pak1_sample_two_rows, pos := 7 } = .ok b ∧
      (b = true ↔ ∃ last,
        ((pak1_rows id pak1_sample_two_rows).filter (fun e => decide (e.size ≠ 0))).getLast?
          = some last ∧ last.offset + last.size = pak1_sample_two_rows.length) ∧
      ((pak1_rows id pak1_sample_two_rows).filter (fun e => decide (e.size ≠ 0)) = [] →
        b = false) :=
  ⟨by decide, by decide,
   pak1_is_recognized_impl_spec { version := none } id pak1_sample_two_rows 7 (by decide)⟩

theorem pak2_read_meta_impl_fail (G : MersenneTwister) (sjis : List Nat → List Nat)
    (st : ByteStream) (f : Fault)
    (h : Pak2ArchiveDecoder.read_meta_impl G sjis st = .fail f) : f.isException = true := by
  by_cases h6 : 6 ≤ st.data.length
  · rw [pak2_read_meta_impl_eq G sjis st h6] at h
    split at h
    · simp only [Outcome.fail.injEq] at h
      rw [← h]
      rfl
    split at h
    · simp only [Outcome.fail.injEq] at h
      rw [← h]
      rfl
    split at h
    · simp only [Outcome.fail.injEq] at h
      rw [← h]
      rfl
    rcases pak2_read_meta_loop_fail _ _ _ _ _ _ h with h1 | h1 <;> rw [h1] <;> rfl
  · rcases pak2_read_meta_impl_short G sjis st (by omega) with h1 | h1 <;>
      rw [h1] at h <;> simp only [Outcome.fail.injEq] at h <;> rw [← h] <;> rfl

theorem pak2_read_meta_pos (G : MersenneTwister) (sjis : List Nat → List Nat)
    (data : List Nat) (pos : Nat) :
    Pak2ArchiveDecoder.read_meta G sjis { data := data, pos := pos } =
      Pak2ArchiveDecoder.read_meta_impl G sjis { data := data, pos := 0 } := by
  unfold Pak2ArchiveDecoder.read_meta ByteStream.seek
  rw [if_pos (Nat.zero_le _)]

theorem pak1_read_meta_impl_fail (sjis : List Nat → List Nat) (st : ByteStream) (f : Fault)
    (h : Pak1ArchiveDecoder.read_meta_impl sjis st = .fail f) : f = .eofError := by
  unfold Pak1ArchiveDecoder.read_meta_impl at h
  cases h1 : st.read_u32_le with
  | fail f1 =>
    rw [h1] at h
    simp only [Outcome.fail.injEq] at h
    rw [← h]
    exact (ByteStream.read_u32_le_fail h1).1
  | ok r =>
    obtain ⟨file_count, st1⟩ := r
    rw [h1] at h
    exact pak1_read_meta_loop_fail sjis file_count st1 [] f h

/-- C17 (counterexample). On the 4-byte container `01 00 00 00`, whose header
announces one table row and which holds none, the probe of the
dictionary-compressed decoder propagates `EofError`: it yields no boolean. -/
theorem pak1_is_recognized_impl_truncated :
    Pak1ArchiveDecoder.is_recognized_impl { version := none } id
        { data := [1, 0, 0, 0], pos := 0 } = .fail .eofError ∧
    ¬ ∃ b, Pak1ArchiveDecoder.is_recognized_impl { version := none } id
        { data := [1, 0, 0, 0], pos := 0 } = .ok b := by
  have h : Pak1ArchiveDecoder.is_recognized_impl { version := none } id
      { data := [1, 0, 0, 0], pos := 0 } = .fail .eofError := by decide
  refine ⟨h, ?_⟩
  rintro ⟨b, hb⟩
  rw [h] at hb
  exact absurd hb (by simp)

/-- C17 (amended). For both decoders the outcome of the recognition probe on a
container does not depend on the read cursor, so two calls in succession on the
same container have the same outcome, whatever the cursor was and whatever the
bytes are. The probe of the encrypted-table decoder always returns a boolean,
true exactly when `read_meta` succeeds and false on every failure of
`read_meta`. The probe of the dictionary-compressed decoder returns a boolean
or propagates `EofError`, and nothing else. -/
theorem is_recognized_impl_idempotent (G : MersenneTwister) (p : Pak1ArchiveDecoder.Priv)
    (sjis_to_utf8 : List Nat → List Nat) (data : List Nat) (pos pos1 : Nat) :
    Pak1ArchiveDecoder.is_recognized_impl p sjis_to_utf8 { data := data, pos := pos }
      = Pak1ArchiveDecoder.is_recognized_impl p sjis_to_utf8 { data := data, pos := pos1 } ∧
    Pak2ArchiveDecoder.is_recognized_impl G sjis_to_utf8 { data := data, pos := pos }
      = Pak2ArchiveDecoder.is_recognized_impl G sjis_to_utf8 { data := data, pos := pos1 } ∧
    (∃ b, Pak2ArchiveDecoder.is_recognized_impl G sjis_to_utf8 { data := data, pos := pos }
        = .ok b ∧
      (b = true ↔
        ∃ es, Pak2ArchiveDecoder.read_meta G sjis_to_utf8 { data := data, pos := pos }
          = .ok es)) ∧
    (∀ f, Pak2ArchiveDecoder.read_meta G sjis_to_utf8 { data := data, pos := pos } = .fail f →
      Pak2ArchiveDecoder.is_recognized_impl G sjis_to_utf8 { data := data, pos := pos }
        = .ok false) ∧
    (∀ f, Pak1ArchiveDecoder.is_recognized_impl p sjis_to_utf8 { data := data, pos := pos }
        = .fail f → f = .eofError) := by
  refine ⟨?_, ?_, ?_, ?_, ?_⟩
  · unfold Pak1ArchiveDecoder.is_recognized_impl
    rw [pak1_read_meta_pos, pak1_read_meta_pos]
  · unfold Pak2ArchiveDecoder.is_recognized_impl
    rw [pak2_read_meta_pos, pak2_read_meta_pos]
  · unfold Pak2ArchiveDecoder.is_recognized_impl
    rw [pak2_read_meta_pos]
    cases h : Pak2ArchiveDecoder.read_meta_impl G sjis_to_utf8 { data := data, pos := 0 } with
    | ok es => exact ⟨true, rfl, by simp⟩
    | fail f =>
      simp only
      rw [pak2_read_meta_impl_fail G sjis_to_utf8 _ f h]
      exact ⟨false, rfl, by simp⟩
  · intro f hf
    unfold Pak2ArchiveDecoder.is_recognized_impl
    rw [hf]
    simp only
    rw [pak2_read_meta_pos] at hf
    rw [pak2_read_meta_impl_fail G sjis_to_utf8 _ f hf]
    rfl
  · intro f hf
    unfold Pak1ArchiveDecoder.is_recognized_impl at hf
    rw [pak1_read_meta_pos] at hf
    cases h : Pak1ArchiveDecoder.read_meta_impl sjis_to_utf8 { data := data, pos := 0 } with
    | fail f1 =>
      rw [h] at hf
      simp only [Outcome.fail.injEq] at hf
      rw [← hf]
      exact pak1_read_meta_impl_fail sjis_to_utf8 _ f1 h
    | ok r =>
      obtain ⟨entries, st1⟩ := r
      rw [h] at hf
      simp only at hf
      by_cases h0 : entries.length = 0
      · rw [if_pos h0] at hf
        exact absurd hf (by simp)
      · rw [if_neg h0] at hf
        cases hl : entries[entries.length - 1]? with
        | none => rw [hl] at hf; exact absurd hf (by simp)
        | some last => rw [hl] at hf; exact absurd hf (by simp)

theorem is_recognized_impl_idempotent_witness :
    Pak2ArchiveDecoder.read_meta lcg_generator id { data := [0, 0, 0, 0, 0, 0, 0], pos := 3 }
      = .fail .recognitionError ∧
    Pak2ArchiveDecoder.is_recognized_impl lcg_generator id
      { data := [0, 0, 0, 0, 0, 0, 0], pos := 3 } = .ok false ∧
    Pak1ArchiveDecoder.is_recognized_impl { version := none } id
        { data := pak1_sample_two_rows, pos := 60 }
      = Pak1ArchiveDecoder.is_recognized_impl { version := none } id
        { data := pak1_sample_two_rows, pos := 0 } :=
  ⟨by decide,
   (is_recognized_impl_idempotent lcg_generator { version := none } id
      [0, 0, 0, 0, 0, 0, 0] 3 0).2.2.2.1 .recognitionError (by decide),
   (is_recognized_impl_idempotent lcg_generator { version := none } id
      pak1_sample_two_rows 60 0).1⟩

/-! ## The LZSS routine: back-reference tokens -/

theorem and_15_eq_mod (x : Nat) : x &&& 0xF = x % 16 := by
  have := Nat.and_pow_two_sub_one_eq_mod x 4
  simpa using this

/-- The copy pass of a back-reference whose start position lies below the fill:
it never faults, emits `min i (space left)` bytes, and the `k`-th of them is the
dictionary byte at `(q + k) mod fill`. -/
theorem lzss_copy_spec {n cap : Nat} (i : Nat) :
    ∀ (q : Nat) (s : LzssState), LzssWf n cap s → q < s.dict_size →
      ∃ s1, lzss_copy n cap i q s = .ok s1 ∧
        s1.output_ptr = s.output_ptr + min i (n - s.output_ptr) ∧
        (∀ k, k < min i (n - s.output_ptr) →
          s1.output[s.output_ptr + k]? = some (s.dict.getD ((q + k) % s.dict_size) 0)) ∧
        (∀ j, j < s.output_ptr → s1.output[j]? = s.output[j]?) := by
  induction i with
  | zero =>
    intro q s _ _
    exact ⟨s, rfl, by simp, fun k hk => by simp at hk, fun _ _ => rfl⟩
  | succ i ih =>
    intro q s hwf hq
    obtain ⟨hd, hds, hdp, hol, hop⟩ := hwf
    rw [lzss_copy]
    by_cases hlt : s.output_ptr < n
    · rw [if_pos hlt, if_pos (show q < cap by omega), if_neg (show s.dict_size ≠ 0 by omega)]
      have hwf1 : LzssWf n cap { s with
          output := s.output.set s.output_ptr (s.dict.getD q 0)
          output_ptr := s.output_ptr + 1 } :=
        ⟨hd, hds, hdp, by simp only [List.length_set]; exact hol, by simp only; omega⟩
      obtain ⟨s1, h1, h2, h3, h4⟩ :=
        ih ((q + 1) % s.dict_size) _ hwf1 (Nat.mod_lt _ (by omega))
      simp only at h2 h3 h4
      refine ⟨s1, h1, by omega, ?_, ?_⟩
      · intro k hk
        cases k with
        | zero =>
          rw [Nat.add_zero, h4 s.output_ptr (by omega),
            List.getElem?_set_self (by omega), Nat.add_zero, Nat.mod_eq_of_lt hq]
        | succ k =>
          have := h3 k (by omega)
          rw [show s.output_ptr + (k + 1) = s.output_ptr + 1 + k by omega, this,
            Nat.mod_add_mod, show q + 1 + k = q + (k + 1) by omega]
      · intro j hj
        rw [h4 j (by omega), List.getElem?_set_ne (by omega)]
    · rw [if_neg hlt]
      have hmin : min (i + 1) (n - s.output_ptr) = 0 := by omega
      exact ⟨s, rfl, by omega, fun k hk => by omega, fun _ _ => rfl⟩

/-- C19. A back-reference token with little-endian word `w = lo + 256 * hi`,
processed when the dictionary holds `D` with fill `f >= 1` and start position
`p = w >> 4 < f`: the repetition count is `n = (w mod 16) + 3` when
`w mod 16 != 15` and `n = 18 + e` otherwise, `e` being the next input byte, so
`n` lies in `3..17` or `18..273`; the copy pass emits `min n (space left)` bytes,
the `k`-th being `D[(p + k) mod f]`, and they are the bytes the token leaves in
the output. -/
theorem lzss_backref_semantics (input : List Nat) (output_size dict_capacity : Nat)
    (s : LzssState) (lo hi : Nat) (hwf : LzssWf output_size dict_capacity s)
    (hlo : input[s.input_ptr]? = some lo) (hhi : input[s.input_ptr + 1]? = some hi)
    (hlo8 : lo < 256) (hhi8 : hi < 256)
    (hp : (lo + 256 * hi) >>> 4 < s.dict_size) :
    ((lo + 256 * hi) % 16 ≠ 15 →
      3 ≤ (lo + 256 * hi) % 16 + 3 ∧ (lo + 256 * hi) % 16 + 3 ≤ 17 ∧
      lzss_backref input output_size dict_capacity s =
        lzss_backref_exec output_size dict_capacity ((lo + 256 * hi) >>> 4)
          ((lo + 256 * hi) % 16 + 3) { s with input_ptr := s.input_ptr + 2 }) ∧
    ((lo + 256 * hi) % 16 = 15 → ∀ e, input[s.input_ptr + 2]? = some e → e < 256 →
      18 ≤ 18 + e ∧ 18 + e ≤ 273 ∧
      lzss_backref input output_size dict_capacity s =
        lzss_backref_exec output_size dict_capacity ((lo + 256 * hi) >>> 4)
          (18 + e) { s with input_ptr := s.input_ptr + 3 }) ∧
    (∀ (count : Nat) (s0 : LzssState), s0.dict = s.dict → s0.dict_size = s.dict_size →
      s0.dict_pos = s.dict_pos → s0.output = s.output → s0.output_ptr = s.output_ptr →
      ∃ s1, lzss_copy output_size dict_capacity count ((lo + 256 * hi) >>> 4) s0 = .ok s1 ∧
        s1.output_ptr = s.output_ptr + min count (output_size - s.output_ptr) ∧
        (∀ k, k < min count (output_size - s.output_ptr) →
          s1.output[s.output_ptr + k]? =
            some (s.dict.getD (((lo + 256 * hi) >>> 4 + k) % s.dict_size) 0)) ∧
        (∀ z, lzss_backref_exec output_size dict_capacity ((lo + 256 * hi) >>> 4) count s0
            = .ok z → z.output = s1.output)) := by
  have hw : (lo + 256 * hi) % 65536 = lo + 256 * hi := Nat.mod_eq_of_lt (by omega)
  have hr1 := lzss_read_input_some hlo
  have hr2 : lzss_read_input input { s with input_ptr := s.input_ptr + 1 }
      = .ok (hi, { s with input_ptr := s.input_ptr + 1 + 1 }) :=
    lzss_read_input_some (s := { s with input_ptr := s.input_ptr + 1 }) hhi
  refine ⟨?_, ?_, ?_⟩
  · intro h15
    refine ⟨by omega, by omega, ?_⟩
    unfold lzss_backref
    rw [hr1]
    simp only
    rw [hr2]
    simp only
    rw [hw, and_15_eq_mod, if_neg h15]
    rfl
  · intro h15 e he he8
    refine ⟨by omega, by omega, ?_⟩
    have hr3 : lzss_read_input input { s with input_ptr := s.input_ptr + 1 + 1 }
        = .ok (e, { s with input_ptr := s.input_ptr + 1 + 1 + 1 }) :=
      lzss_read_input_some (s := { s with input_ptr := s.input_ptr + 1 + 1 }) he
    unfold lzss_backref
    rw [hr1]
    simp only
    rw [hr2]
    simp only
    rw [hw, and_15_eq_mod, if_pos h15, hr3]
    simp only
    rw [h15, show 15 + e + 3 = 18 + e by omega]
    rfl
  · intro count s0 h1 h2 h3 h4 h5
    have hwf0 : LzssWf output_size dict_capacity s0 := by
      obtain ⟨a, b, c, d, e⟩ := hwf
      exact ⟨by rw [h1]; exact a, by rw [h2]; exact b, by rw [h3]; exact c,
        by rw [h4]; exact d, by rw [h5]; exact e⟩
    obtain ⟨s1, hc, hop, hbytes, _⟩ :=
      lzss_copy_spec count ((lo + 256 * hi) >>> 4) s0 hwf0 (by rw [h2]; exact hp)
    rw [h5] at hop hbytes
    rw [h1, h2] at hbytes
    refine ⟨s1, hc, hop, hbytes, ?_⟩
    intro z hz
    unfold lzss_backref_exec at hz
    rw [hc] at hz
    simp only at hz
    split at hz
    · exact (lzss_reinsert_ok _ _ _ _ hz).1
    · simp at hz

theorem lzss_backref_semantics_witness :
    LzssWf 8 8 lzss_sample_state ∧
    (3 ≤ (0x12 + 256 * 0) % 16 + 3 ∧ (0x12 + 256 * 0) % 16 + 3 ≤ 17 ∧
      lzss_backref [0x07, 97, 98, 99, 0x12, 0x00] 8 8 lzss_sample_state =
        lzss_backref_exec 8 8 ((0x12 + 256 * 0) >>> 4) ((0x12 + 256 * 0) % 16 + 3)
          { lzss_sample_state with input_ptr := lzss_sample_state.input_ptr + 2 }) ∧
    (match lzss_backref [0x07, 97, 98, 99, 0x12, 0x00] 8 8 lzss_sample_state with
      | .ok z => z.output
      | .fail _ => []) = [97, 98, 99, 98, 99, 97, 98, 99] :=
  ⟨⟨rfl, by decide, by decide, rfl, by decide⟩,
   (lzss_backref_semantics [0x07, 97, 98, 99, 0x12, 0x00] 8 8 lzss_sample_state 0x12 0
      ⟨rfl, by decide, by decide, rfl, by decide⟩ rfl rfl (by decide) (by decide)
      (by decide)).1 (by decide),
   by decide⟩

/-! ## The LZSS routine: dictionary accesses and the early stop -/

set_option maxRecDepth 100000 in
/-- C18 (evaluation at the failing inputs). A stream whose first token is a
back-reference makes the routine compute `look_behind_pos %= dict_size` with
`dict_size = 0`; and with capacity `0x800` the back-reference start position
`0x800`, a 12-bit value, is used unreduced as the index `dict[0x800]`, one past
the end of the dictionary. The wrapped positions after the first read and the
write cursor do stay below the capacity. -/
theorem custom_lzss_decompress_dict_access :
    custom_lzss_decompress [0x00, 0x00, 0x00] 1 0x1000 = .fail .ubModZero ∧
    custom_lzss_decompress [0x00, 0x00, 0x00] 1 0x800 = .fail .ubModZero ∧
    custom_lzss_decompress [0x01, 0x41, 0x00, 0x80] 4 0x800 = .fail (.ubDictIndex 0x800) ∧
    custom_lzss_decompress [0x01, 0x41, 0x00, 0x80] 4 0x1000 = .ok [0x41, 0, 0x41, 0x41] := by
  decide

/-- C20 (evaluation at the failing inputs). After the literal `A`, a
back-reference with count 5 is processed with 3 bytes of space left
(`output_size = 4`): the second pass starts at `output_ptr - 5`, one byte before
the output buffer. With the literals `A B C D` and the same kind of token with 2
bytes of space left (`output_size = 6`) the routine emits `A B` and returns the
full output, but inserts the 5 bytes `B C D A B` into the dictionary, three of
which were emitted by earlier tokens. -/
theorem custom_lzss_decompress_early_stop :
    custom_lzss_decompress [0x01, 0x41, 0x02, 0x00] 4 0x800 = .fail .ubOutputBefore ∧
    (match lzss_run [0x0F, 0x41, 0x42, 0x43, 0x44, 0x02, 0x00] 6 0x800 with
      | .ok s => (s.output, s.dict.take 10, s.dict_size, s.dict_pos)
      | .fail _ => ([], [], 0, 0)) =
      ([0x41, 0x42, 0x43, 0x44, 0x41, 0x42],
       [0x41, 0x42, 0x43, 0x44, 0x42, 0x43, 0x44, 0x41, 0x42, 0], 9, 9) := by
  decide

/-! ## The routine against the naive reference decoder: exact agreement -/

theorem lzss_copy_frame {n cap : Nat} (i : Nat) :
    ∀ (q : Nat) (s s1 : LzssState), lzss_copy n cap i q s = .ok s1 → s.output_ptr ≤ n →
      s1.output_ptr = s.output_ptr + min i (n - s.output_ptr) ∧
      ∀ j, (j < s.output_ptr ∨ s1.output_ptr ≤ j) → s1.output[j]? = s.output[j]? := by
  induction i with
  | zero =>
    intro q s s1 h _
    simp only [lzss_copy, Outcome.ok.injEq] at h
    subst h
    exact ⟨by simp, fun _ _ => rfl⟩
  | succ i ih =>
    intro q s s1 h hle
    rw [lzss_copy] at h
    by_cases hlt : s.output_ptr < n
    · rw [if_pos hlt] at h
      by_cases hq : q < cap
      · rw [if_pos hq] at h
        by_cases hz : s.dict_size = 0
        · rw [if_pos hz] at h
          exact absurd h (by simp)
        · rw [if_neg hz] at h
          obtain ⟨hp, hf⟩ := ih _ _ s1 h (by simp only; omega)
          simp only at hp hf
          refine ⟨by omega, ?_⟩
          intro j hj
          rw [hf j (by omega), List.getElem?_set_ne (by omega)]
      · rw [if_neg hq] at h
        exact absurd h (by simp)
    · rw [if_neg hlt] at h
      simp only [Outcome.ok.injEq] at h
      subst h
      exact ⟨by omega, fun _ _ => rfl⟩

theorem naive_copy_frame {n cap : Nat} (i : Nat) :
    ∀ (q : Nat) (s s1 : LzssState), naive_copy n cap i q s = .ok s1 → s.output_ptr ≤ n →
      s1.output_ptr = s.output_ptr + min i (n - s.output_ptr) ∧
      (∀ j, (j < s.output_ptr ∨ s1.output_ptr ≤ j) → s1.output[j]? = s.output[j]?) ∧
      s1.output.length = s.output.length := by
  induction i with
  | zero =>
    intro q s s1 h _
    simp only [naive_copy, Outcome.ok.injEq] at h
    subst h
    exact ⟨by simp, fun _ _ => rfl, rfl⟩
  | succ i ih =>
    intro q s s1 h hle
    rw [naive_copy] at h
    by_cases hlt : s.output_ptr < n
    · rw [if_pos hlt] at h
      by_cases hq : q < cap
      · rw [if_pos hq] at h
        cases hl : lzss_literal_exec cap (s.dict.getD q 0) s with
        | fail f => rw [hl] at h; exact absurd h (by simp)
        | ok s2 =>
          rw [hl] at h
          simp only at h
          unfold lzss_literal_exec at hl
          obtain ⟨ho, hop, _, _⟩ := lzss_dict_put_ok hl
          simp only at ho hop
          obtain ⟨hp, hf, hlen⟩ := ih _ _ s1 h (by rw [hop]; omega)
          rw [hop] at hp
          rw [hop, ho] at hf
          rw [ho, List.length_set] at hlen
          refine ⟨by omega, ?_, hlen⟩
          intro j hj
          rw [hf j (by omega), List.getElem?_set_ne (by omega)]
      · rw [if_neg hq] at h
        exact absurd h (by simp)
    · rw [if_neg hlt] at h
      simp only [Outcome.ok.injEq] at h
      subst h
      exact ⟨by omega, fun _ _ => rfl, rfl⟩

/-- The dictionary after a naive copy that is not cut short is the dictionary
after inserting, from the state before the copy, the bytes it emitted. -/
theorem naive_copy_reinsert {n cap : Nat} (i : Nat) :
    ∀ (q : Nat) (s sn : LzssState), naive_copy n cap i q s = .ok sn →
      s.output_ptr + i ≤ n → s.output_ptr + i ≤ s.output.length →
      lzss_reinsert cap i s.output_ptr
        { s with output := sn.output, output_ptr := sn.output_ptr } = .ok sn := by
  induction i with
  | zero =>
    intro q s sn h _ _
    simp only [naive_copy, Outcome.ok.injEq] at h
    subst h
    rfl
  | succ i ih =>
    intro q s sn h hn hlen
    rw [naive_copy] at h
    rw [if_pos (show s.output_ptr < n by omega)] at h
    by_cases hq : q < cap
    swap
    · rw [if_neg hq] at h
      exact absurd h (by simp)
    rw [if_pos hq] at h
    cases hl : lzss_literal_exec cap (s.dict.getD q 0) s with
    | fail f => rw [hl] at h; exact absurd h (by simp)
    | ok s2 =>
      rw [hl] at h
      simp only at h
      unfold lzss_literal_exec at hl
      have hdp : s.dict_pos < cap := by
        by_contra hge
        unfold lzss_dict_put at hl
        rw [if_neg hge] at hl
        exact absurd hl (by simp)
      rw [lzss_dict_put_eq (show ({ s with
          output := s.output.set s.output_ptr (s.dict.getD q 0)
          output_ptr := s.output_ptr + 1 } : LzssState).dict_pos < cap from hdp)] at hl
      simp only [Outcome.ok.injEq] at hl
      subst hl
      have hfr := naive_copy_frame i _ _ sn h (by simp only; omega)
      have hih := ih _ _ sn h (by simp only; omega)
        (by simp only [List.length_set]; omega)
      simp only at hih hfr
      have hb : sn.output.getD s.output_ptr 0 = s.dict.getD q 0 := by
        rw [List.getD_eq_getElem?_getD, hfr.2.1 s.output_ptr (Or.inl (by omega)),
          List.getElem?_set_self (by omega), Option.getD_some]
      rw [lzss_reinsert]
      simp only
      rw [hb, lzss_dict_put_eq (show ({ s with
          output := sn.output, output_ptr := sn.output_ptr } : LzssState).dict_pos < cap
          from hdp)]
      simp only
      exact hih

/-- One back-reference on which the two copies agree: the naive copy emits what
the two passes of the source emit, and ends in the same state unless the output
became full inside the token. -/
theorem lzss_backref_exec_agrees {n cap p r : Nat} {s z : LzssState}
    (hwf : LzssWf n cap s) (hag : lzss_backref_agrees n cap p r s = true)
    (h : lzss_backref_exec n cap p r s = .ok z) :
    ∃ z1, naive_copy n cap r p s = .ok z1 ∧ z1.output = z.output ∧
      z1.output_ptr = z.output_ptr ∧ (s.output_ptr + r ≤ n → z1 = z) ∧
      (n < s.output_ptr + r → z.output_ptr = n) := by
  obtain ⟨_, _, _, hol, hop⟩ := hwf
  unfold lzss_backref_exec at h
  unfold lzss_backref_agrees at hag
  cases hc : lzss_copy n cap r p s with
  | fail f => rw [hc] at h; exact absurd h (by simp)
  | ok sc =>
    rw [hc] at h hag
    simp only at h hag
    cases hnv : naive_copy n cap r p s with
    | fail f => rw [hnv] at hag; exact absurd hag (by simp)
    | ok sn =>
      rw [hnv] at hag
      simp only [decide_eq_true_eq] at hag
      by_cases hr : r ≤ sc.output_ptr
      swap
      · rw [if_neg hr] at h
        exact absurd h (by simp)
      rw [if_pos hr] at h
      obtain ⟨hzo, hzp, _⟩ := lzss_reinsert_ok _ _ _ _ h
      have hcf := lzss_copy_frame r p s sc hc hop
      have hnf := naive_copy_frame r p s sn hnv hop
      have hcd := lzss_copy_dict r p s sc hc
      have hco := lzss_copy_ok r p s sc hc
      refine ⟨sn, rfl, by rw [hzo, hag], by rw [hzp, hcf.1, hnf.1], ?_, ?_⟩
      · intro hcase
        have hmin : min r (n - s.output_ptr) = r := by omega
        have hscp : sc.output_ptr = s.output_ptr + r := by rw [hcf.1, hmin]
        have hsnp : sn.output_ptr = s.output_ptr + r := by rw [hnf.1, hmin]
        have hsc : sc = { s with output := sn.output, output_ptr := sn.output_ptr } := by
          cases sc
          cases s
          simp only [LzssState.mk.injEq] at hcd hco hag hscp hsnp ⊢
          exact ⟨hcd.1, hcd.2.1, hcd.2.2.1, hag, by rw [hscp, hsnp], hco.2.2.2.2,
            hcd.2.2.2.1⟩
        have hre := naive_copy_reinsert r p s sn hnv hcase (by rw [hol]; exact hcase)
        rw [hscp, Nat.add_sub_cancel, hsc, hre] at h
        simp only [Outcome.ok.injEq] at h
        exact h
      · intro hcase
        rw [hzp, hcf.1]
        omega

theorem lzss_agrees_done {input : List Nat} {n cap : Nat} (fuel : Nat) (s : LzssState)
    (h : n ≤ s.output_ptr) : lzss_agrees input n cap fuel s = true := by
  cases fuel with
  | zero => rfl
  | succ fuel => rw [lzss_agrees, if_neg (by omega)]

theorem lzss_parse_wf {input : List Nat} {n cap : Nat} {s s1 : LzssState} {tok : LzssToken}
    (hwf : LzssWf n cap s) (hp : lzss_parse input s = .ok (tok, s1)) : LzssWf n cap s1 := by
  have hp1 := lzss_parse_ok hp
  obtain ⟨h1, h2, h3, h4, h5⟩ := hwf
  exact ⟨by rw [hp1.1]; exact h1, by rw [hp1.2.1]; exact h2,
    by rw [hp1.2.2.1]; exact h3, by rw [hp1.2.2.2.1]; exact h4,
    by rw [hp1.2.2.2.2]; exact h5⟩

/-- On a run of the routine in which the two copies agree at every
back-reference, the naive decoder produces the output of the routine. -/
theorem lzss_loop_agrees_naive {input : List Nat} {n cap : Nat} (fuel : Nat) :
    ∀ (s z : LzssState), LzssWf n cap s → lzss_agrees input n cap fuel s = true →
      lzss_loop input n cap fuel s = .ok z →
      ∃ z1, naive_loop input n cap fuel s = .ok z1 ∧ z1.output = z.output := by
  induction fuel with
  | zero =>
    intro s z _ _ h
    simp only [lzss_loop, Outcome.ok.injEq] at h
    exact ⟨s, rfl, by rw [h]⟩
  | succ fuel ih =>
    intro s z hwf hag h
    rw [lzss_loop] at h
    rw [naive_loop]
    by_cases hlt : s.output_ptr < n
    swap
    · rw [if_neg hlt] at h ⊢
      simp only [Outcome.ok.injEq] at h
      exact ⟨s, rfl, by rw [h]⟩
    rw [if_pos hlt] at h ⊢
    cases hs2 : lzss_token input n cap s with
    | fail f => rw [hs2] at h; exact absurd h (by simp)
    | ok s2 =>
      rw [hs2] at h
      simp only at h
      rw [lzss_agrees, if_pos hlt, hs2] at hag
      have hview := lzss_token_eq_parse input n cap s
      rw [hs2] at hview
      unfold naive_token
      cases hp : lzss_parse input s with
      | fail f =>
        rw [hp] at hview
        exact absurd hview (by simp)
      | ok v =>
        obtain ⟨tok, s1⟩ := v
        rw [hp] at hview hag
        have hp1 := lzss_parse_ok hp
        have hwf1 : LzssWf n cap s1 := lzss_parse_wf hwf hp
        cases tok with
        | literal b =>
          simp only at hview hag ⊢
          rw [← hview]
          simp only
          exact ih s2 z
            (lzss_literal_exec_wf hwf1 (by rw [hp1.2.2.2.2]; exact hlt) hview.symm) hag h
        | backref p r =>
          simp only [Bool.and_eq_true] at hview hag ⊢
          obtain ⟨z1, hz1, hout, _, hsame, hfull⟩ :=
            lzss_backref_exec_agrees hwf1 hag.1 hview.symm
          rw [hz1]
          simp only
          by_cases hcase : s1.output_ptr + r ≤ n
          · rw [hsame hcase]
            exact ih s2 z (lzss_backref_exec_wf hwf1 hview.symm) hag.2 h
          · have h2 := hfull (by omega)
            rw [lzss_loop_done fuel s2 (by omega)] at h
            simp only [Outcome.ok.injEq] at h
            rw [naive_loop_done fuel z1 (by omega)]
            exact ⟨z1, rfl, by rw [hout, h]⟩

theorem lzss_literal_exec_frame {cap b : Nat} {s s1 : LzssState}
    (h : lzss_literal_exec cap b s = .ok s1) :
    s1.output_ptr = s.output_ptr + 1 ∧
    ∀ j, j ≠ s.output_ptr → s1.output[j]? = s.output[j]? := by
  unfold lzss_literal_exec at h
  obtain ⟨ho, hop, _, _⟩ := lzss_dict_put_ok h
  simp only at ho hop
  refine ⟨hop, ?_⟩
  intro j hj
  rw [ho, List.getElem?_set_ne (fun e => hj e.symm)]

theorem lzss_backref_exec_frame {n cap p r : Nat} {s s1 : LzssState}
    (hle : s.output_ptr ≤ n) (h : lzss_backref_exec n cap p r s = .ok s1) :
    s1.output_ptr = s.output_ptr + min r (n - s.output_ptr) ∧
    ∀ j, (j < s.output_ptr ∨ s1.output_ptr ≤ j) → s1.output[j]? = s.output[j]? := by
  unfold lzss_backref_exec at h
  cases hc : lzss_copy n cap r p s with
  | fail f => rw [hc] at h; exact absurd h (by simp)
  | ok sc =>
    rw [hc] at h
    simp only at h
    by_cases hr : r ≤ sc.output_ptr
    · rw [if_pos hr] at h
      obtain ⟨hzo, hzp, _⟩ := lzss_reinsert_ok _ _ _ _ h
      obtain ⟨hcp, hcf⟩ := lzss_copy_frame r p s sc hc hle
      refine ⟨by rw [hzp, hcp], ?_⟩
      intro j hj
      rw [hzo]
      exact hcf j (by rw [← hzp]; exact hj)
    · rw [if_neg hr] at h
      exact absurd h (by simp)

/-- The routine never changes an output byte it has written. -/
theorem lzss_loop_written {input : List Nat} {n cap : Nat} (fuel : Nat) :
    ∀ (s z : LzssState), LzssWf n cap s → lzss_loop input n cap fuel s = .ok z →
      ∀ j, j < s.output_ptr → z.output[j]? = s.output[j]? := by
  induction fuel with
  | zero =>
    intro s z _ h j _
    simp only [lzss_loop, Outcome.ok.injEq] at h
    rw [h]
  | succ fuel ih =>
    intro s z hwf h j hj
    rw [lzss_loop] at h
    by_cases hlt : s.output_ptr < n
    swap
    · rw [if_neg hlt] at h
      simp only [Outcome.ok.injEq] at h
      rw [h]
    rw [if_pos hlt] at h
    cases hs2 : lzss_token input n cap s with
    | fail f => rw [hs2] at h; exact absurd h (by simp)
    | ok s2 =>
      rw [hs2] at h
      simp only at h
      have hview := lzss_token_eq_parse input n cap s
      rw [hs2] at hview
      cases hp : lzss_parse input s with
      | fail f =>
        rw [hp] at hview
        exact absurd hview (by simp)
      | ok v =>
        obtain ⟨tok, s1⟩ := v
        rw [hp] at hview
        have hp1 := lzss_parse_ok hp
        have hwf1 : LzssWf n cap s1 := lzss_parse_wf hwf hp
        cases tok with
        | literal b =>
          simp only at hview
          obtain ⟨hp2, hf2⟩ := lzss_literal_exec_frame hview.symm
          rw [ih s2 z
            (lzss_literal_exec_wf hwf1 (by rw [hp1.2.2.2.2]; exact hlt) hview.symm) h j
            (by rw [hp2, hp1.2.2.2.2]; omega),
            hf2 j (by rw [hp1.2.2.2.2]; omega), hp1.2.2.2.1]
        | backref p r =>
          simp only at hview
          obtain ⟨hp2, hf2⟩ := lzss_backref_exec_frame hwf1.2.2.2.2 hview.symm
          rw [ih s2 z (lzss_backref_exec_wf hwf1 hview.symm) h j
            (by rw [hp2, hp1.2.2.2.2]; omega),
            hf2 j (Or.inl (by rw [hp1.2.2.2.2]; exact hj)), hp1.2.2.2.1]

/-- The naive decoder never changes an output byte it has written. -/
theorem naive_loop_written {input : List Nat} {n cap : Nat} (fuel : Nat) :
    ∀ (s z : LzssState), s.output_ptr ≤ n → naive_loop input n cap fuel s = .ok z →
      ∀ j, j < s.output_ptr → z.output[j]? = s.output[j]? := by
  induction fuel with
  | zero =>
    intro s z _ h j _
    simp only [naive_loop, Outcome.ok.injEq] at h
    rw [h]
  | succ fuel ih =>
    intro s z hle h j hj
    rw [naive_loop] at h
    by_cases hlt : s.output_ptr < n
    swap
    · rw [if_neg hlt] at h
      simp only [Outcome.ok.injEq] at h
      rw [h]
    rw [if_pos hlt] at h
    cases hs2 : naive_token input n cap s with
    | fail f => rw [hs2] at h; exact absurd h (by simp)
    | ok s2 =>
      rw [hs2] at h
      simp only at h
      unfold naive_token at hs2
      cases hp : lzss_parse input s with
      | fail f =>
        rw [hp] at hs2
        exact absurd hs2 (by simp)
      | ok v =>
        obtain ⟨tok, s1⟩ := v
        rw [hp] at hs2
        have hp1 := lzss_parse_ok hp
        cases tok with
        | literal b =>
          simp only at hs2
          obtain ⟨hp2, hf2⟩ := lzss_literal_exec_frame hs2
          rw [ih s2 z (by rw [hp2, hp1.2.2.2.2]; omega) h j
            (by rw [hp2, hp1.2.2.2.2]; omega),
            hf2 j (by rw [hp1.2.2.2.2]; omega), hp1.2.2.2.1]
        | backref p r =>
          simp only at hs2
          obtain ⟨hp2, hf2, _⟩ := naive_copy_frame r p s1 s2 hs2
            (by rw [hp1.2.2.2.2]; exact hle)
          rw [ih s2 z (by rw [hp2, hp1.2.2.2.2]; omega) h j
            (by rw [hp2, hp1.2.2.2.2]; omega),
            hf2 j (Or.inl (by rw [hp1.2.2.2.2]; exact hj)), hp1.2.2.2.1]

/-- When the naive decoder produces the output of the routine, the two copies
agree at every back-reference of the run. -/
theorem lzss_loop_naive_agrees {input : List Nat} {n cap : Nat} (fuel : Nat) :
    ∀ (s z z1 : LzssState), LzssWf n cap s → lzss_loop input n cap fuel s = .ok z →
      naive_loop input n cap fuel s = .ok z1 → z1.output = z.output →
      lzss_agrees input n cap fuel s = true := by
  induction fuel with
  | zero =>
    intro s z z1 _ _ _ _
    rfl
  | succ fuel ih =>
    intro s z z1 hwf h hn hout
    rw [lzss_loop] at h
    rw [naive_loop] at hn
    rw [lzss_agrees]
    by_cases hlt : s.output_ptr < n
    swap
    · rw [if_neg hlt]
    rw [if_pos hlt] at h hn ⊢
    cases hs2 : lzss_token input n cap s with
    | fail f => rw [hs2] at h; exact absurd h (by simp)
    | ok s2 =>
      rw [hs2] at h
      simp only at h
      have hview := lzss_token_eq_parse input n cap s
      rw [hs2] at hview
      unfold naive_token at hn
      cases hp : lzss_parse input s with
      | fail f =>
        rw [hp] at hview
      | ok v =>
        obtain ⟨tok, s1⟩ := v
        rw [hp] at hview hn
        have hp1 := lzss_parse_ok hp
        have hwf1 : LzssWf n cap s1 := lzss_parse_wf hwf hp
        cases tok with
        | literal b =>
          simp only at hview hn ⊢
          rw [← hview] at hn
          simp only at hn
          exact ih s2 z z1
            (lzss_literal_exec_wf hwf1 (by rw [hp1.2.2.2.2]; exact hlt) hview.symm) h hn hout
        | backref p r =>
          simp only at hview hn ⊢
          cases hy : naive_copy n cap r p s1 with
          | fail f => rw [hy] at hn; exact absurd hn (by simp)
          | ok y =>
            rw [hy] at hn
            simp only at hn
            have hwf2 := lzss_backref_exec_wf hwf1 hview.symm
            obtain ⟨hp2, hf2⟩ := lzss_backref_exec_frame hwf1.2.2.2.2 hview.symm
            obtain ⟨hpy, hfy, _⟩ := naive_copy_frame r p s1 y hy hwf1.2.2.2.2
            have hyo : y.output = s2.output := by
              apply List.ext_getElem?
              intro j
              by_cases hj : j < s2.output_ptr
              · rw [← lzss_loop_written fuel s2 z hwf2 h j hj,
                  ← naive_loop_written fuel y z1 (by rw [hpy]; omega) hn j
                    (by rw [hpy, ← hp2]; exact hj), hout]
              · rw [hf2 j (Or.inr (by omega)), hfy j (Or.inr (by rw [hpy, ← hp2]; omega))]
            have hagt : lzss_backref_agrees n cap p r s1 = true := by
              unfold lzss_backref_agrees
              have hx := hview.symm
              unfold lzss_backref_exec at hx
              cases hc : lzss_copy n cap r p s1 with
              | fail f => rw [hc] at hx; exact absurd hx (by simp)
              | ok sc =>
                rw [hc] at hx
                simp only at hx
                by_cases hr : r ≤ sc.output_ptr
                · rw [if_pos hr] at hx
                  rw [hy]
                  simp only [decide_eq_true_eq]
                  rw [hyo, (lzss_reinsert_ok _ _ _ _ hx).1]
                · rw [if_neg hr] at hx
                  exact absurd hx (by simp)
            rw [Bool.and_eq_true]
            refine ⟨hagt, ?_⟩
            by_cases hcase : s1.output_ptr + r ≤ n
            · obtain ⟨y1, hy1, _, _, hsame, _⟩ :=
                lzss_backref_exec_agrees hwf1 hagt hview.symm
              rw [hy] at hy1
              simp only [Outcome.ok.injEq] at hy1
              rw [hy1, hsame hcase] at hn
              exact ih s2 z z1 hwf2 h hn hout
            · exact lzss_agrees_done fuel s2 (by rw [hp2]; omega)

/-- The naive copy in a dictionary that has not wrapped (write cursor at the
fill): the read position never wraps, and once it reaches the fill it reads back
the bytes of the token, so the bytes emitted repeat the dictionary bytes from
the start position up to the fill. `k0` bytes are already emitted. -/
theorem naive_copy_unwrapped {n cap : Nat} (D : List Nat) (f p : Nat) (hp : p < f)
    (i : Nat) :
    ∀ (k0 : Nat) (v : LzssState),
      v.dict_size = f + k0 → (0 < i → v.dict_pos = f + k0) → f + k0 + i ≤ cap →
      v.output_ptr + i ≤ n → v.output.length = n → v.dict.length = cap →
      (∀ j, j < f → v.dict.getD j 0 = D.getD j 0) →
      (∀ t, t < k0 → v.dict.getD (f + t) 0 = D.getD (p + t % (f - p)) 0) →
      ∃ sn, naive_copy n cap i (p + k0) v = .ok sn ∧
        ∀ t, t < i →
          sn.output[v.output_ptr + t]? = some (D.getD (p + (k0 + t) % (f - p)) 0) := by
  induction i with
  | zero =>
    intro k0 v _ _ _ _ _ _ _ _
    exact ⟨v, rfl, fun t ht => absurd ht (Nat.not_lt_zero _)⟩
  | succ i ih =>
    intro k0 v hds hdp hcap hptr hlen hdl hlow hhigh
    have hdp1 : v.dict_pos = f + k0 := hdp (Nat.succ_pos _)
    have hb : v.dict.getD (p + k0) 0 = D.getD (p + k0 % (f - p)) 0 := by
      by_cases hlt : p + k0 < f
      · rw [hlow _ hlt, Nat.mod_eq_of_lt (by omega)]
      · have he : p + k0 = f + (p + k0 - f) := by omega
        have hm : k0 % (f - p) = (p + k0 - f) % (f - p) := by
          have hk : k0 = (p + k0 - f) + (f - p) := by omega
          conv_lhs => rw [hk]
          exact Nat.add_mod_right _ _
        rw [he, hhigh _ (by omega), hm]
    rw [naive_copy, if_pos (show v.output_ptr < n by omega),
      if_pos (show p + k0 < cap by omega)]
    unfold lzss_literal_exec
    rw [lzss_dict_put_eq (show ({ v with
        output := v.output.set v.output_ptr (v.dict.getD (p + k0) 0)
        output_ptr := v.output_ptr + 1 } : LzssState).dict_pos < cap by
      simp only; omega)]
    simp only
    rw [if_pos (show v.dict_size < cap by omega), hds, hdp1,
      Nat.mod_eq_of_lt (show p + k0 + 1 < f + k0 + 1 by omega)]
    obtain ⟨sn, hsn, hbytes⟩ := ih (k0 + 1)
      { v with
        dict := v.dict.set (f + k0) (v.dict.getD (p + k0) 0)
        dict_pos := (f + k0 + 1) % cap
        dict_size := f + k0 + 1
        output := v.output.set v.output_ptr (v.dict.getD (p + k0) 0)
        output_ptr := v.output_ptr + 1 }
      rfl
      (fun hi => Nat.mod_eq_of_lt (by omega))
      (by omega) (by simp only; omega)
      (by simp only [List.length_set]; exact hlen)
      (by simp only [List.length_set]; exact hdl)
      (by
        intro j hj
        simp only
        rw [List.getD_eq_getElem?_getD, List.getElem?_set_ne (by omega),
          ← List.getD_eq_getElem?_getD]
        exact hlow j hj)
      (by
        intro t ht
        simp only
        by_cases htk : t = k0
        · rw [htk, List.getD_eq_getElem?_getD,
            List.getElem?_set_self (by rw [hdl]; omega), Option.getD_some]
          exact hb
        · rw [List.getD_eq_getElem?_getD, List.getElem?_set_ne (by omega),
            ← List.getD_eq_getElem?_getD]
          exact hhigh t (by omega))
    refine ⟨sn, hsn, ?_⟩
    intro t ht
    cases t with
    | zero =>
      have hfr := naive_copy_frame i _ _ sn hsn (by simp only; omega)
      simp only at hfr
      rw [Nat.add_zero, hfr.2.1 v.output_ptr (Or.inl (by omega)),
        List.getElem?_set_self (by rw [hlen]; omega), hb]
      rfl
    | succ t =>
      have h := hbytes t (by omega)
      simp only at h
      rw [show v.output_ptr + (t + 1) = v.output_ptr + 1 + t by omega,
        show k0 + (t + 1) = k0 + 1 + t by omega]
      exact h

/-- A back-reference in a dictionary that has not wrapped, with start position
below the fill: the two copies agree exactly when the dictionary bytes read with
the position wrapped at the fill are the bytes of the repeating pattern that
starts at the start position. -/
theorem lzss_backref_agrees_unwrapped {n cap p r : Nat} {s : LzssState}
    (hwf : LzssWf n cap s) (hp : p < s.dict_size) (hdp : s.dict_pos = s.dict_size)
    (hcap : s.dict_size + min r (n - s.output_ptr) ≤ cap) :
    lzss_backref_agrees n cap p r s = true ↔
      ∀ k, k < min r (n - s.output_ptr) →
        s.dict.getD ((p + k) % s.dict_size) 0 =
          s.dict.getD (p + k % (s.dict_size - p)) 0 := by
  obtain ⟨sc, hsc, hscp, hscb, hscf⟩ := lzss_copy_spec r p s hwf hp
  have hcf := lzss_copy_frame r p s sc hsc hwf.2.2.2.2
  have hnaive : ∃ sn, naive_copy n cap r p s = .ok sn ∧
      ∀ t, t < min r (n - s.output_ptr) →
        sn.output[s.output_ptr + t]? =
          some (s.dict.getD (p + t % (s.dict_size - p)) 0) := by
    have hgen : ∀ i, s.output_ptr + i ≤ n → s.dict_size + i ≤ cap →
        ∃ sn, naive_copy n cap i p s = .ok sn ∧
          ∀ t, t < i → sn.output[s.output_ptr + t]? =
            some (s.dict.getD (p + t % (s.dict_size - p)) 0) := by
      intro i hi hc
      obtain ⟨sn, hsn, hb⟩ :=
        naive_copy_unwrapped s.dict s.dict_size p hp i 0 s rfl (fun _ => hdp)
          hc hi hwf.2.2.2.1 hwf.1 (fun _ _ => rfl)
          (fun t ht => absurd ht (Nat.not_lt_zero _))
      refine ⟨sn, hsn, ?_⟩
      intro t ht
      have h := hb t ht
      rw [Nat.zero_add] at h
      exact h
    by_cases hcase : s.output_ptr + r ≤ n
    · have hmin : min r (n - s.output_ptr) = r := by omega
      rw [hmin] at hcap ⊢
      exact hgen r hcase hcap
    · have hmin : min r (n - s.output_ptr) = n - s.output_ptr := by omega
      rw [hmin] at hcap ⊢
      have hle := hwf.2.2.2.2
      obtain ⟨sn, hsn, hb⟩ := hgen (n - s.output_ptr) (by omega) hcap
      rw [← naive_copy_truncate (n - s.output_ptr) r p s (by omega) (by omega)] at hsn
      exact ⟨sn, hsn, hb⟩
  obtain ⟨sn, hsn, hsnb⟩ := hnaive
  have hnf := naive_copy_frame r p s sn hsn hwf.2.2.2.2
  unfold lzss_backref_agrees
  rw [hsc, hsn]
  simp only [decide_eq_true_eq]
  constructor
  · intro heq k hk
    have h1 := hscb k hk
    have h2 := hsnb k hk
    rw [heq, h2] at h1
    simp only [Option.some.injEq] at h1
    exact h1.symm
  · intro hall
    apply List.ext_getElem?
    intro j
    by_cases h1 : j < s.output_ptr
    · rw [hcf.2 j (Or.inl h1), hnf.2.1 j (Or.inl h1)]
    · by_cases h2 : j < s.output_ptr + min r (n - s.output_ptr)
      · have hj : j = s.output_ptr + (j - s.output_ptr) := by omega
        rw [hj, hscb _ (by omega), hsnb _ (by omega), hall _ (by omega)]
      · rw [hcf.2 j (Or.inr (by rw [hcf.1]; omega)),
          hnf.2.1 j (Or.inr (by rw [hnf.1]; omega))]

/-- C4 (amended). On every token stream that the routine decodes: the naive
self-copying reference decoder produces the same output if and only if, at every
back-reference of the run, the bytes the routine copies from the dictionary as
it stood when the token began are the bytes the naive copy emits; this is so in
particular when every back-reference keeps clear of the bytes it writes (read
range below the fill, write cursor not strictly inside it). At a back-reference
with its start position `p` below the fill `f`, the routine does not change the
dictionary `D` while it copies: the `k`-th byte it emits is `D[(p + k) mod f]`,
and the bytes are inserted into the dictionary by the second pass. While the
dictionary has not wrapped (write cursor at the fill, the emitted bytes fitting
below the capacity), the copies of such a back-reference agree exactly when
`D[(p + k) mod f] = D[p + k mod (f - p)]` for every emitted byte `k`: always for
`p = 0`, and whenever the copy ends at or below the fill. -/
theorem custom_lzss_decompress_eq_naive (input : List Nat) (output_size dict_capacity : Nat)
    (out : List Nat) (hcap : 0 < dict_capacity)
    (hok : custom_lzss_decompress input output_size dict_capacity = .ok out) :
    (naive_lzss_decompress input output_size dict_capacity = .ok out ↔
      lzss_agrees input output_size dict_capacity output_size
        (lzss_init output_size dict_capacity) = true) ∧
    (lzss_separated input output_size dict_capacity output_size
        (lzss_init output_size dict_capacity) = true →
      naive_lzss_decompress input output_size dict_capacity = .ok out) ∧
    (∀ (s : LzssState) (p r : Nat), LzssWf output_size dict_capacity s → p < s.dict_size →
      ∃ sc, lzss_copy output_size dict_capacity r p s = .ok sc ∧
        sc.dict = s.dict ∧ sc.dict_size = s.dict_size ∧ sc.dict_pos = s.dict_pos ∧
        sc.output_ptr = s.output_ptr + min r (output_size - s.output_ptr) ∧
        (∀ k, k < min r (output_size - s.output_ptr) →
          sc.output[s.output_ptr + k]? = some (s.dict.getD ((p + k) % s.dict_size) 0)) ∧
        lzss_backref_exec output_size dict_capacity p r s =
          if r ≤ sc.output_ptr then
            lzss_reinsert dict_capacity r (sc.output_ptr - r) sc
          else .fail .ubOutputBefore) ∧
    (∀ (s : LzssState) (p r : Nat), LzssWf output_size dict_capacity s → p < s.dict_size →
      s.dict_pos = s.dict_size →
      s.dict_size + min r (output_size - s.output_ptr) ≤ dict_capacity →
      (lzss_backref_agrees output_size dict_capacity p r s = true ↔
        ∀ k, k < min r (output_size - s.output_ptr) →
          s.dict.getD ((p + k) % s.dict_size) 0 =
            s.dict.getD (p + k % (s.dict_size - p)) 0) ∧
      (p = 0 → lzss_backref_agrees output_size dict_capacity p r s = true) ∧
      (p + min r (output_size - s.output_ptr) ≤ s.dict_size →
        lzss_backref_agrees output_size dict_capacity p r s = true)) := by
  have hwf : LzssWf output_size dict_capacity (lzss_init output_size dict_capacity) :=
    ⟨by simp [lzss_init], Nat.zero_le _, hcap, by simp [lzss_init], Nat.zero_le _⟩
  unfold custom_lzss_decompress lzss_run at hok
  cases hz : lzss_loop input output_size dict_capacity output_size
      (lzss_init output_size dict_capacity) with
  | fail f => rw [hz] at hok; exact absurd hok (by simp)
  | ok z =>
    rw [hz] at hok
    simp only [Outcome.ok.injEq] at hok
    refine ⟨⟨?_, ?_⟩, ?_, ?_, ?_⟩
    · intro hnv
      unfold naive_lzss_decompress at hnv
      cases hz1 : naive_loop input output_size dict_capacity output_size
          (lzss_init output_size dict_capacity) with
      | fail f => rw [hz1] at hnv; exact absurd hnv (by simp)
      | ok z1 =>
        rw [hz1] at hnv
        simp only [Outcome.ok.injEq] at hnv
        exact lzss_loop_naive_agrees output_size _ z z1 hwf hz hz1 (by rw [hnv, hok])
    · intro hag
      obtain ⟨z1, hz1, hout⟩ := lzss_loop_agrees_naive output_size _ _ hwf hag hz
      unfold naive_lzss_decompress
      rw [hz1]
      simp only [Outcome.ok.injEq]
      rw [hout, hok]
    · intro hsep
      obtain ⟨z1, hz1, hout⟩ := lzss_loop_naive output_size _ _ hwf hsep hz
      unfold naive_lzss_decompress
      rw [hz1]
      simp only [Outcome.ok.injEq]
      rw [hout, hok]
    · intro s p r hwfs hp
      obtain ⟨sc, hsc, hptr, hbytes, _⟩ := lzss_copy_spec r p s hwfs hp
      have hd := lzss_copy_dict r p s sc hsc
      refine ⟨sc, hsc, hd.1, hd.2.1, hd.2.2.1, hptr, hbytes, ?_⟩
      unfold lzss_backref_exec
      rw [hsc]
    · intro s p r hwfs hp hdp hfit
      have hiff := lzss_backref_agrees_unwrapped hwfs hp hdp hfit
      refine ⟨hiff, ?_, ?_⟩
      · intro h0
        rw [hiff]
        intro k _
        rw [h0, Nat.zero_add, Nat.zero_add, Nat.sub_zero]
      · intro hle
        rw [hiff]
        intro k hk
        rw [Nat.mod_eq_of_lt (show p + k < s.dict_size by omega),
          Nat.mod_eq_of_lt (show k < s.dict_size - p by omega)]

/-- Worked example for C4: after the literals `a b c`, the back-reference with
start 0 and count 5 runs past the fill (3) and both decoders emit `a b c a b`;
the copy is not clear of the bytes it writes, and the two copies agree. -/
theorem custom_lzss_decompress_eq_naive_witness :
    lzss_separated [0x07, 97, 98, 99, 0x02, 0x00] 8 0x800 8 (lzss_init 8 0x800) = false ∧
    lzss_agrees [0x07, 97, 98, 99, 0x02, 0x00] 8 0x800 8 (lzss_init 8 0x800) = true ∧
    custom_lzss_decompress [0x07, 97, 98, 99, 0x02, 0x00] 8 0x800
      = .ok [97, 98, 99, 97, 98, 99, 97, 98] ∧
    naive_lzss_decompress [0x07, 97, 98, 99, 0x02, 0x00] 8 0x800
      = .ok [97, 98, 99, 97, 98, 99, 97, 98] :=
  ⟨by decide, by decide, by decide,
   (custom_lzss_decompress_eq_naive [0x07, 97, 98, 99, 0x02, 0x00] 8 0x800
     [97, 98, 99, 97, 98, 99, 97, 98] (by decide) (by decide)).1.2 (by decide)⟩

/-! ## Cross-entry preprocessing: one group -/

namespace Pak1ArchiveDecoder

/-- The `try` block succeeds when each of its steps does, and then marks the
sprite entry and the matched mask and palette entries and saves one file. -/
theorem preprocess_try_of_steps (p : Priv) (c : Collaborators) (st : ByteStream)
    (maps : Role → PathMap) (key : List Nat) (sprite : Nat) (s : PreprocessState)
    (sf : File) (pf mf : Option File) (img : List Nat)
    (h1 : read_file p st (s.entries.getD sprite default) = .ok (some sf))
    (h2 : preprocess_read p st s.entries (map_find (maps .palette) key) = .ok pf)
    (h3 : preprocess_read p st s.entries (map_find (maps .mask) key) = .ok mf)
    (h4 : c.decode sf pf mf = some img)
    (h5 : c.save s.saved
      (c.file_from_image img (s.entries.getD sprite default).path) ≠ .thrown) :
    preprocess_try p c st maps key sprite s =
      .ok { entries :=
              set_already_unpacked_if
                (set_already_unpacked_if (set_already_unpacked s.entries sprite)
                  (map_find (maps .mask) key))
                (map_find (maps .palette) key)
            saved :=
              if c.save s.saved
                  (c.file_from_image img (s.entries.getD sprite default).path) = .saved
              then s.saved ++ [c.file_from_image img (s.entries.getD sprite default).path]
              else s.saved } := by
  unfold preprocess_try
  simp only [h1, h2, h3, h4]

/-- When the `try` block succeeds, each of its steps has succeeded. -/
theorem preprocess_try_steps (p : Priv) (c : Collaborators) (st : ByteStream)
    (maps : Role → PathMap) (key : List Nat) (sprite : Nat) (s s1 : PreprocessState)
    (h : preprocess_try p c st maps key sprite s = .ok s1) :
    ∃ sf pf mf img,
      read_file p st (s.entries.getD sprite default) = .ok (some sf) ∧
      preprocess_read p st s.entries (map_find (maps .palette) key) = .ok pf ∧
      preprocess_read p st s.entries (map_find (maps .mask) key) = .ok mf ∧
      c.decode sf pf mf = some img ∧
      c.save s.saved
        (c.file_from_image img (s.entries.getD sprite default).path) ≠ .thrown := by
  unfold preprocess_try at h
  dsimp only at h
  cases h1 : read_file p st (s.entries.getD sprite default) with
  | fail f => rw [h1] at h; simp only at h; exact absurd h (by simp)
  | ok sfo =>
    rw [h1] at h; simp only at h
    cases h2 : preprocess_read p st s.entries (map_find (maps .palette) key) with
    | fail f => rw [h2] at h; simp only at h; exact absurd h (by simp)
    | ok pf =>
      rw [h2] at h; simp only at h
      cases h3 : preprocess_read p st s.entries (map_find (maps .mask) key) with
      | fail f => rw [h3] at h; simp only at h; exact absurd h (by simp)
      | ok mf =>
        rw [h3] at h; simp only at h
        cases sfo with
        | none => simp only at h; exact absurd h (by simp)
        | some sf =>
          simp only at h
          cases h4 : c.decode sf pf mf with
          | none => rw [h4] at h; simp only at h; exact absurd h (by simp)
          | some img =>
            rw [h4] at h; simp only at h
            cases h5 : c.save s.saved
                (c.file_from_image img (s.entries.getD sprite default).path) with
            | thrown => rw [h5] at h; exact absurd h (by simp)
            | saved => exact ⟨sf, pf, mf, img, rfl, rfl, rfl, h4, by rw [h5]; simp⟩
            | failed => exact ⟨sf, pf, mf, img, rfl, rfl, rfl, h4, by rw [h5]; simp⟩

/-- The entries after `entry->already_unpacked = true` through the pointer `j`:
the entry `j` with its flag set, every other entry as before. -/
theorem set_already_unpacked_getElem? (es : List ArchiveEntryImpl) (j i : Nat) :
    (set_already_unpacked es j)[i]? =
      if i = j then es[i]?.map (fun e => { e with already_unpacked := true })
      else es[i]? := by
  unfold set_already_unpacked
  cases h : es[j]? with
  | none =>
    simp only
    by_cases hij : i = j
    · rw [if_pos hij, hij, h]; rfl
    · rw [if_neg hij]
  | some e =>
    simp only
    rw [List.getElem?_set]
    by_cases hij : i = j
    · subst hij
      have hlt : i < es.length := (List.getElem?_eq_some_iff.1 h).1
      rw [if_pos rfl, if_pos hlt, if_pos rfl, h]; rfl
    · rw [if_neg (fun hji => hij hji.symm), if_neg hij]

/-- The guarded assignment changes at most the flag of the entry pointed to. -/
theorem set_already_unpacked_if_getElem? (es : List ArchiveEntryImpl) (j : Option Nat)
    (i : Nat) :
    (set_already_unpacked_if es j)[i]? =
      if j = some i then es[i]?.map (fun e => { e with already_unpacked := true })
      else es[i]? := by
  cases j with
  | none => simp [set_already_unpacked_if]
  | some j =>
    simp only [set_already_unpacked_if, set_already_unpacked_getElem?, Option.some.injEq]
    by_cases hij : i = j
    · rw [if_pos hij, if_pos hij.symm]
    · rw [if_neg hij, if_neg (fun hji => hij hji.symm)]

/-- The entries of a group after its three assignments: the sprite entry and the
matched mask and palette entries with their flags set, every other entry as
before. -/
theorem preprocess_marks_getElem? (es : List ArchiveEntryImpl) (sprite : Nat)
    (mask_entry palette_entry : Option Nat) (i : Nat) :
    (set_already_unpacked_if
      (set_already_unpacked_if (set_already_unpacked es sprite) mask_entry)
      palette_entry)[i]? =
      if i = sprite ∨ mask_entry = some i ∨ palette_entry = some i then
        es[i]?.map (fun e => { e with already_unpacked := true })
      else es[i]? := by
  rw [set_already_unpacked_if_getElem?, set_already_unpacked_if_getElem?,
    set_already_unpacked_getElem?]
  generalize es[i]? = o
  cases o <;> split_ifs <;> first | rfl | (exfalso; tauto)

end Pak1ArchiveDecoder

/-! ## Cross-entry preprocessing: the maps -/

/-- Insertion keeps the pairs of the map and adds the new one. -/
theorem map_insert_perm (key : List Nat) (value : Nat) (m : PathMap) :
    (map_insert key value m).Perm ((key, value) :: m) := by
  induction m with
  | nil => exact List.Perm.refl _
  | cons x rest ih =>
    obtain ⟨k, v⟩ := x
    unfold map_insert
    by_cases h : key < k
    · rw [if_pos h]
    · rw [if_neg h]
      exact (List.Perm.cons _ ih).trans (List.Perm.swap _ _ _)

/-- The pairs of a map after `m[key] = value`: the new pair and the old pairs
with another key. -/
theorem mem_map_assign (m : PathMap) (key : List Nat) (value : Nat) (x : List Nat × Nat) :
    x ∈ map_assign m key value ↔ x = (key, value) ∨ (x ∈ m ∧ x.1 ≠ key) := by
  unfold map_assign
  by_cases hany : m.any (fun e => e.1 == key) = true
  · rw [if_pos hany]
    rw [List.any_eq_true] at hany
    obtain ⟨y, hy, hyk⟩ := hany
    have hyk1 : y.1 = key := by simpa using hyk
    rw [List.mem_map]
    constructor
    · rintro ⟨e, he, hx⟩
      by_cases hek : e.1 = key
      · rw [if_pos hek] at hx
        exact Or.inl hx.symm
      · rw [if_neg hek] at hx
        subst hx
        exact Or.inr ⟨he, hek⟩
    · rintro (hx | ⟨hx, hxk⟩)
      · exact ⟨y, hy, by rw [if_pos hyk1, hx]⟩
      · exact ⟨x, hx, by rw [if_neg hxk]⟩
  · rw [if_neg hany]
    rw [(map_insert_perm key value m).mem_iff, List.mem_cons]
    have hnone : ∀ y ∈ m, y.1 ≠ key := by
      intro y hy hyk
      apply hany
      rw [List.any_eq_true]
      exact ⟨y, hy, by simpa using hyk⟩
    constructor
    · rintro (hx | hx)
      · exact Or.inl hx
      · exact Or.inr ⟨hx, hnone x hx⟩
    · rintro (hx | ⟨hx, _⟩)
      · exact Or.inl hx
      · exact Or.inr hx

/-- The assignment `m[key] = value` keeps the keys of a map distinct. -/
theorem map_assign_nodup (m : PathMap) (key : List Nat) (value : Nat)
    (h : (m.map Prod.fst).Nodup) : ((map_assign m key value).map Prod.fst).Nodup := by
  unfold map_assign
  by_cases hany : m.any (fun e => e.1 == key) = true
  · rw [if_pos hany]
    have hkeys : (m.map (fun e => if e.1 = key then (key, value) else e)).map Prod.fst =
        m.map Prod.fst := by
      rw [List.map_map]
      apply List.map_congr_left
      intro e _
      show (if e.1 = key then (key, value) else e).1 = e.1
      by_cases hek : e.1 = key
      · rw [if_pos hek]; exact hek.symm
      · rw [if_neg hek]
    rw [hkeys]
    exact h
  · rw [if_neg hany]
    have hperm := (map_insert_perm key value m).map Prod.fst
    rw [hperm.nodup_iff, List.map_cons, List.nodup_cons]
    refine ⟨?_, h⟩
    intro hmem
    rw [List.mem_map] at hmem
    obtain ⟨y, hy, hyk⟩ := hmem
    apply hany
    rw [List.any_eq_true]
    exact ⟨y, hy, by simpa using hyk⟩

/-- A pair found by `m.find(key)` is a pair of the map. -/
theorem map_find_mem (m : PathMap) (key : List Nat) (value : Nat)
    (h : map_find m key = some value) : (key, value) ∈ m := by
  unfold map_find at h
  induction m with
  | nil => exact absurd h (by simp [List.lookup])
  | cons x rest ih =>
    obtain ⟨k, v⟩ := x
    rw [List.lookup_cons] at h
    by_cases hk : key = k
    · have hb : (key == k) = true := by simpa using hk
      rw [hb] at h
      simp only [Option.some.injEq] at h
      rw [hk, h]
      exact List.mem_cons_self _ _
    · have hb : (key == k) = false := by simpa using hk
      rw [hb] at h
      exact List.mem_cons_of_mem _ (ih h)

/-- In a map, whose keys are distinct, `m.find(key)` finds the pair with that
key. -/
theorem map_find_of_mem (m : PathMap) (key : List Nat) (value : Nat)
    (hnd : (m.map Prod.fst).Nodup) (h : (key, value) ∈ m) :
    map_find m key = some value := by
  unfold map_find
  induction m with
  | nil => exact absurd h (by simp)
  | cons x rest ih =>
    obtain ⟨k, v⟩ := x
    rw [List.map_cons, List.nodup_cons] at hnd
    rw [List.lookup_cons]
    rcases List.mem_cons.1 h with hx | hx
    · simp only [Prod.mk.injEq] at hx
      have hb : (key == k) = true := by simpa using hx.1
      rw [hb, hx.2]
    · have hk : key ≠ k := by
        intro hk
        apply hnd.1
        rw [List.mem_map]
        exact ⟨(key, value), hx, hk⟩
      have hb : (key == k) = false := by simpa using hk
      rw [hb]
      exact ih hnd.2 hx

namespace Pak1ArchiveDecoder

/-- The first loop of `preprocess` keeps the invariant of the maps. -/
theorem preprocess_collect_inv (c : Collaborators) (es : List ArchiveEntryImpl) :
    ∀ (rest : List ArchiveEntryImpl) (n : Nat) (maps : Role → PathMap),
      (∀ k, rest[k]? = es[n + k]?) → PreprocessMapsInv c es n maps →
      PreprocessMapsInv c es (n + rest.length) (preprocess_collect c rest n maps) := by
  intro rest
  induction rest with
  | nil =>
    intro n maps _ hinv
    exact hinv
  | cons entry rest ih =>
    intro n maps hrest hinv
    have hn : es[n]? = some entry := by
      have h0 := hrest 0
      simp only [List.getElem?_cons_zero, Nat.add_zero] at h0
      exact h0.symm
    have hrest1 : ∀ k, rest[k]? = es[n + 1 + k]? := by
      intro k
      have hk := hrest (k + 1)
      simp only [List.getElem?_cons_succ] at hk
      rw [hk]
      congr 1
      omega
    have hlen : n + (entry :: rest).length = n + 1 + rest.length := by
      simp only [List.length_cons]; omega
    rw [hlen]
    obtain ⟨hnd, hmem, hcov⟩ := hinv
    unfold preprocess_collect
    cases hr : preprocess_role c entry.path with
    | none =>
      simp only
      apply ih (n + 1) maps hrest1
      refine ⟨hnd, ?_, ?_⟩
      · intro r k i hki
        obtain ⟨hlt, he⟩ := hmem r k i hki
        exact ⟨by omega, he⟩
      · intro i e r hi he hre
        by_cases hin : i = n
        · subst hin
          rw [hn] at he
          simp only [Option.some.injEq] at he
          subst he
          rw [hr] at hre
          exact absurd hre (by simp)
        · exact hcov i e r (by omega) he hre
    | some r =>
      simp only
      apply ih (n + 1) _ hrest1
      refine ⟨?_, ?_, ?_⟩
      · intro r2
        by_cases h2 : r2 = r
        · simp only [h2, if_true]
          exact map_assign_nodup _ _ _ (hnd r)
        · simp only [h2, if_false]
          exact hnd r2
      · intro r2 k i hki
        by_cases h2 : r2 = r
        · simp only [h2, if_true] at hki
          rw [mem_map_assign] at hki
          rcases hki with hki | ⟨hki, _⟩
          · simp only [Prod.mk.injEq] at hki
            refine ⟨by omega, entry, ?_, ?_, ?_⟩
            · rw [hki.2]; exact hn
            · rw [h2]; exact hr
            · exact hki.1.symm
          · obtain ⟨hlt, he⟩ := hmem r k i hki
            rw [h2]
            exact ⟨by omega, he⟩
        · simp only [h2, if_false] at hki
          obtain ⟨hlt, he⟩ := hmem r2 k i hki
          exact ⟨by omega, he⟩
      · intro i e r2 hi he hre
        by_cases hin : i = n
        · subst hin
          rw [hn] at he
          simp only [Option.some.injEq] at he
          subst he
          rw [hr] at hre
          simp only [Option.some.injEq] at hre
          subst hre
          refine ⟨i, ?_⟩
          simp only [if_true]
          rw [mem_map_assign]
          exact Or.inl rfl
        · obtain ⟨j, hj⟩ := hcov i e r2 (by omega) he hre
          by_cases h2 : r2 = r
          · subst h2
            simp only [if_true]
            by_cases hst : c.stem e.path = c.stem entry.path
            · refine ⟨n, ?_⟩
              rw [mem_map_assign]
              exact Or.inl (by rw [hst])
            · refine ⟨j, ?_⟩
              rw [mem_map_assign]
              exact Or.inr ⟨hj, hst⟩
          · refine ⟨j, ?_⟩
            simp only [h2, if_false]
            exact hj

/-- The maps of `preprocess` satisfy the invariant for all the entries. -/
theorem preprocess_maps_inv (c : Collaborators) (es : List ArchiveEntryImpl) :
    PreprocessMapsInv c es es.length (preprocess_maps c es) := by
  have h := preprocess_collect_inv c es es 0 (fun _ => [])
    (fun k => by rw [Nat.zero_add])
    ⟨fun _ => List.nodup_nil, fun r k i h => absurd h (List.not_mem_nil _),
      fun i e r hi => absurd hi (Nat.not_lt_zero _)⟩
  rw [Nat.zero_add] at h
  exact h

/-- The first loop of `preprocess` keeps, under each stem of the map of a role,
the last visited entry that has this role and stem: a later assignment
`map[fn] = entry` replaces the earlier one. -/
theorem preprocess_collect_last (c : Collaborators) (es : List ArchiveEntryImpl) :
    ∀ (rest : List ArchiveEntryImpl) (n : Nat) (maps : Role → PathMap),
      (∀ k, rest[k]? = es[n + k]?) →
      (∀ r k i, (k, i) ∈ maps r → ∀ a e, a < n → es[a]? = some e →
        preprocess_role c e.path = some r → c.stem e.path = k → a ≤ i) →
      ∀ r k i, (k, i) ∈ preprocess_collect c rest n maps r →
        ∀ a e, a < n + rest.length → es[a]? = some e →
          preprocess_role c e.path = some r → c.stem e.path = k → a ≤ i := by
  intro rest
  induction rest with
  | nil =>
    intro n maps _ hlast
    exact hlast
  | cons entry rest ih =>
    intro n maps hrest hlast
    have hn : es[n]? = some entry := by
      have h0 := hrest 0
      simp only [List.getElem?_cons_zero, Nat.add_zero] at h0
      exact h0.symm
    have hrest1 : ∀ k, rest[k]? = es[n + 1 + k]? := by
      intro k
      have hk := hrest (k + 1)
      simp only [List.getElem?_cons_succ] at hk
      rw [hk]
      congr 1
      omega
    have hlen : n + (entry :: rest).length = n + 1 + rest.length := by
      simp only [List.length_cons]; omega
    rw [hlen]
    unfold preprocess_collect
    cases hr : preprocess_role c entry.path with
    | none =>
      simp only
      apply ih (n + 1) maps hrest1
      intro r k i hki a e ha he hre hse
      by_cases han : a = n
      · subst han
        rw [hn] at he
        simp only [Option.some.injEq] at he
        subst he
        rw [hr] at hre
        exact absurd hre (by simp)
      · exact hlast r k i hki a e (by omega) he hre hse
    | some r =>
      simp only
      apply ih (n + 1) _ hrest1
      intro r2 k i hki a e ha he hre hse
      by_cases h2 : r2 = r
      · simp only [h2, if_true] at hki
        rw [mem_map_assign] at hki
        rcases hki with hki | ⟨hki, hkne⟩
        · simp only [Prod.mk.injEq] at hki
          omega
        · by_cases han : a = n
          · subst han
            rw [hn] at he
            simp only [Option.some.injEq] at he
            subst he
            exact absurd hse.symm hkne
          · exact hlast r k i hki a e (by omega) he (by rw [← h2]; exact hre) hse
      · simp only [h2, if_false] at hki
        by_cases han : a = n
        · subst han
          rw [hn] at he
          simp only [Option.some.injEq] at he
          subst he
          rw [hr] at hre
          simp only [Option.some.injEq] at hre
          exact absurd hre.symm h2
        · exact hlast r2 k i hki a e (by omega) he hre hse

/-- An entry that no later entry of its role and stem follows is the entry that
the map of its role holds under its stem. -/
theorem preprocess_maps_mem_last (c : Collaborators) (es : List ArchiveEntryImpl)
    (r : Role) (a : Nat) (ea : ArchiveEntryImpl) (ha : es[a]? = some ea)
    (hr : preprocess_role c ea.path = some r)
    (hlast : ∀ e ∈ es.drop (a + 1),
      ¬ (preprocess_role c e.path = some r ∧ c.stem e.path = c.stem ea.path)) :
    (c.stem ea.path, a) ∈ preprocess_maps c es r := by
  obtain ⟨_, hmem, hcov⟩ := preprocess_maps_inv c es
  have halt : a < es.length := (List.getElem?_eq_some_iff.1 ha).1
  obtain ⟨j, hj⟩ := hcov a ea r halt ha hr
  obtain ⟨_, e, he, hre, hse⟩ := hmem r _ j hj
  have hle : a ≤ j := by
    have h := preprocess_collect_last c es es 0 (fun _ => [])
      (fun k => by rw [Nat.zero_add])
      (fun r k i h => absurd h (List.not_mem_nil _)) r _ j hj a ea
      (by rw [Nat.zero_add]; exact halt) ha hr rfl
    exact h
  have hja : j = a := by
    by_contra hne
    have hdrop : (es.drop (a + 1))[j - (a + 1)]? = some e := by
      rw [List.getElem?_drop]
      rw [show a + 1 + (j - (a + 1)) = j by omega]
      exact he
    exact hlast e (List.mem_iff_getElem?.2 ⟨_, hdrop⟩) ⟨hre, hse⟩
  rw [← hja]
  exact hj

end Pak1ArchiveDecoder

/-! ## Cross-entry preprocessing: the loop over the groups -/

namespace Pak1ArchiveDecoder

/-- The extraction of an entry that is not marked never returns a null file. -/
theorem read_file_fresh {p : Priv} {st : ByteStream} {e : ArchiveEntryImpl}
    {o : Option File} (hflag : e.already_unpacked = false)
    (h : read_file p st e = .ok o) : ∃ file, o = some file := by
  unfold read_file read_file_impl at h
  cases hv : p.version with
  | none => rw [hv] at h; exact absurd h (by simp)
  | some v =>
    rw [hv] at h
    simp only at h
    rw [hflag] at h
    simp only [Bool.false_eq_true, if_false] at h
    cases h0 : st.seek e.offset with
    | fail f0 => rw [h0] at h; exact absurd h (by simp)
    | ok st0 =>
      rw [h0] at h
      simp only at h
      by_cases hc : e.compressed = true
      · rw [if_pos hc] at h
        cases h1 : st0.read_u32_le with
        | fail f1 => rw [h1] at h; exact absurd h (by simp)
        | ok r1 =>
          obtain ⟨size_comp, st2⟩ := r1
          rw [h1] at h
          simp only at h
          cases h2 : st2.read_u32_le with
          | fail f2 => rw [h2] at h; exact absurd h (by simp)
          | ok r2 =>
            obtain ⟨size_orig, st3⟩ := r2
            rw [h2] at h
            simp only at h
            cases h3 : st3.read (u32_sub size_comp 8) with
            | fail f3 => rw [h3] at h; exact absurd h (by simp)
            | ok r3 =>
              obtain ⟨data, st4⟩ := r3
              rw [h3] at h
              simp only at h
              cases h4 : custom_lzss_decompress data size_orig
                  (if v = 1 then 0x1000 else 0x800) with
              | fail f4 => rw [h4] at h; exact absurd h (by simp)
              | ok out =>
                rw [h4] at h
                simp only [Outcome.ok.injEq] at h
                exact ⟨_, h.symm⟩
      · rw [if_neg hc] at h
        cases h1 : st0.read e.size with
        | fail f1 => rw [h1] at h; exact absurd h (by simp)
        | ok r1 =>
          obtain ⟨data, st2⟩ := r1
          rw [h1] at h
          simp only [Outcome.ok.injEq] at h
          exact ⟨_, h.symm⟩

/-- An extraction that returns a file was made with the version selector set. -/
theorem read_file_version {p : Priv} {st : ByteStream} {e : ArchiveEntryImpl}
    {o : Option File} (h : read_file p st e = .ok o) : ∃ v, p.version = some v := by
  unfold read_file read_file_impl at h
  cases hv : p.version with
  | none => rw [hv] at h; exact absurd h (by simp)
  | some v => exact ⟨v, rfl⟩

/-- With the version selector set, the extraction of a marked entry returns no
file. -/
theorem read_file_impl_marked {p : Priv} {v : Int} (st : ByteStream) (e : ArchiveEntryImpl)
    (hv : p.version = some v) :
    read_file_impl p st { e with already_unpacked := true } = .ok none := by
  unfold read_file_impl
  rw [hv]
  simp only [if_true]

/-- An iteration that ends normally either changed nothing or ran all its steps,
applied its flag assignments and saved at most one file. -/
theorem preprocess_group_cases (p : Priv) (c : Collaborators) (st : ByteStream)
    (maps : Role → PathMap) (it : List Nat × Nat) (s s1 : PreprocessState)
    (h : preprocess_group p c st maps it s = .ok s1) :
    s1 = s ∨ ((s1.saved = s.saved ∨ ∃ file, s1.saved = s.saved ++ [file]) ∧
      s1.entries =
        set_already_unpacked_if
          (set_already_unpacked_if (set_already_unpacked s.entries it.2)
            (map_find (maps .mask) it.1))
          (map_find (maps .palette) it.1)) := by
  unfold preprocess_group at h
  cases ht : preprocess_try p c st maps it.1 it.2 s with
  | ok s2 =>
    rw [ht] at h
    simp only [Outcome.ok.injEq] at h
    subst h
    obtain ⟨sf, pf, mf, img, h1, h2, h3, h4, h5⟩ :=
      preprocess_try_steps p c st maps it.1 it.2 s s2 ht
    have h := preprocess_try_of_steps p c st maps it.1 it.2 s sf pf mf img h1 h2 h3 h4 h5
    rw [ht] at h
    simp only [Outcome.ok.injEq] at h
    subst h
    refine Or.inr ⟨?_, rfl⟩
    simp only
    split
    · exact Or.inr ⟨_, rfl⟩
    · exact Or.inl rfl
  | fail f =>
    rw [ht] at h
    simp only at h
    by_cases hf : f.isException = true
    · rw [if_pos hf] at h
      simp only [Outcome.ok.injEq] at h
      exact Or.inl h.symm
    · rw [if_neg hf] at h
      exact absurd h (by simp)

/-- An iteration leaves alone every entry that its group does not touch. -/
theorem preprocess_group_frame (p : Priv) (c : Collaborators) (st : ByteStream)
    (maps : Role → PathMap) (it : List Nat × Nat) (s s1 : PreprocessState)
    (h : preprocess_group p c st maps it s = .ok s1) (i : Nat)
    (hi : ¬ preprocess_touches maps it i) : s1.entries[i]? = s.entries[i]? := by
  rcases preprocess_group_cases p c st maps it s s1 h with h1 | ⟨_, h1⟩
  · rw [h1]
  · rw [h1, preprocess_marks_getElem?]
    exact if_neg hi

/-- The loop over the groups leaves alone every entry that none of its groups
touches. -/
theorem preprocess_loop_frame (p : Priv) (c : Collaborators) (st : ByteStream)
    (maps : Role → PathMap) :
    ∀ (gs : List (List Nat × Nat)) (s final : PreprocessState),
      preprocess_loop p c st maps gs s = .ok final →
      ∀ i, (∀ g ∈ gs, ¬ preprocess_touches maps g i) →
        final.entries[i]? = s.entries[i]? := by
  intro gs
  induction gs with
  | nil =>
    intro s final h i _
    unfold preprocess_loop at h
    simp only [Outcome.ok.injEq] at h
    rw [h]
  | cons g rest ih =>
    intro s final h i hi
    unfold preprocess_loop at h
    cases hg : preprocess_group p c st maps g s with
    | fail f => rw [hg] at h; exact absurd h (by simp)
    | ok s1 =>
      rw [hg] at h
      simp only at h
      rw [ih s1 final h i (fun g2 hg2 => hi g2 (List.mem_cons_of_mem _ hg2))]
      exact preprocess_group_frame p c st maps g s s1 hg i (hi g (List.mem_cons_self _ _))

/-- The loop over a concatenation of group lists runs the first list and then
the second. -/
theorem preprocess_loop_append (p : Priv) (c : Collaborators) (st : ByteStream)
    (maps : Role → PathMap) :
    ∀ (gs1 gs2 : List (List Nat × Nat)) (s : PreprocessState),
      preprocess_loop p c st maps (gs1 ++ gs2) s =
        match preprocess_loop p c st maps gs1 s with
        | .fail f => .fail f
        | .ok s1 => preprocess_loop p c st maps gs2 s1 := by
  intro gs1
  induction gs1 with
  | nil =>
    intro gs2 s
    rfl
  | cons g rest ih =>
    intro gs2 s
    show (match preprocess_group p c st maps g s with
      | Outcome.fail f => Outcome.fail f
      | Outcome.ok s1 => preprocess_loop p c st maps (rest ++ gs2) s1) =
      match (match preprocess_group p c st maps g s with
        | Outcome.fail f => Outcome.fail f
        | Outcome.ok s1 => preprocess_loop p c st maps rest s1) with
      | Outcome.fail f => Outcome.fail f
      | Outcome.ok s1 => preprocess_loop p c st maps gs2 s1
    cases preprocess_group p c st maps g s with
    | fail f => rfl
    | ok s1 => exact ih gs2 s1

/-- A failure of the `try` block is the failure of one of its extractions, the
dereference of a null sprite file, or a collaborator that throws. -/
theorem preprocess_try_fail_cases (p : Priv) (c : Collaborators) (st : ByteStream)
    (maps : Role → PathMap) (key : List Nat) (sprite : Nat) (s : PreprocessState) (f : Fault)
    (h : preprocess_try p c st maps key sprite s = .fail f) :
    read_file p st (s.entries.getD sprite default) = .fail f ∨
    preprocess_read p st s.entries (map_find (maps .palette) key) = .fail f ∨
    preprocess_read p st s.entries (map_find (maps .mask) key) = .fail f ∨
    read_file p st (s.entries.getD sprite default) = .ok none ∨
    f = .otherError := by
  unfold preprocess_try at h
  dsimp only at h
  cases h1 : read_file p st (s.entries.getD sprite default) with
  | fail f1 =>
    rw [h1] at h
    simp only [Outcome.fail.injEq] at h
    rw [h]
    exact Or.inl rfl
  | ok sfo =>
    rw [h1] at h; simp only at h
    cases h2 : preprocess_read p st s.entries (map_find (maps .palette) key) with
    | fail f2 =>
      rw [h2] at h
      simp only [Outcome.fail.injEq] at h
      rw [h]
      exact Or.inr (Or.inl rfl)
    | ok pf =>
      rw [h2] at h; simp only at h
      cases h3 : preprocess_read p st s.entries (map_find (maps .mask) key) with
      | fail f3 =>
        rw [h3] at h
        simp only [Outcome.fail.injEq] at h
        rw [h]
        exact Or.inr (Or.inr (Or.inl rfl))
      | ok mf =>
        rw [h3] at h; simp only at h
        cases sfo with
        | none => exact Or.inr (Or.inr (Or.inr (Or.inl rfl)))
        | some sf =>
          simp only at h
          cases h4 : c.decode sf pf mf with
          | none =>
            rw [h4] at h
            simp only [Outcome.fail.injEq] at h
            exact Or.inr (Or.inr (Or.inr (Or.inr h.symm)))
          | some img =>
            rw [h4] at h; simp only at h
            cases h5 : c.save s.saved
                (c.file_from_image img (s.entries.getD sprite default).path) with
            | thrown =>
              rw [h5] at h
              simp only [Outcome.fail.injEq] at h
              exact Or.inr (Or.inr (Or.inr (Or.inr h.symm)))
            | saved => rw [h5] at h; exact absurd h (by simp)
            | failed => rw [h5] at h; exact absurd h (by simp)

/-- An entry that a group of the sprite map touches has a role and the stem of
the group. -/
theorem preprocess_touches_stem (c : Collaborators) (es : List ArchiveEntryImpl) (n : Nat)
    (maps : Role → PathMap) (hinv : PreprocessMapsInv c es n maps)
    (g : List Nat × Nat) (hg : g ∈ maps .sprite) (i : Nat)
    (hi : preprocess_touches maps g i) :
    ∃ e, es[i]? = some e ∧ c.stem e.path = g.1 ∧ preprocess_role c e.path ≠ none := by
  obtain ⟨_, hmem, _⟩ := hinv
  rcases hi with hi | hi | hi
  · obtain ⟨_, e, he, hr, hs⟩ := hmem .sprite g.1 g.2 hg
    exact ⟨e, by rw [hi]; exact he, hs, by rw [hr]; simp⟩
  · obtain ⟨_, e, he, hr, hs⟩ := hmem .mask g.1 i (map_find_mem _ _ _ hi)
    exact ⟨e, he, hs, by rw [hr]; simp⟩
  · obtain ⟨_, e, he, hr, hs⟩ := hmem .palette g.1 i (map_find_mem _ _ _ hi)
    exact ⟨e, he, hs, by rw [hr]; simp⟩

/-- The optional extraction of a group, on entries that agree with `es` where the
group touches them, fails only as the extraction of an entry of `es` does. -/
theorem preprocess_read_fail (p : Priv) (st : ByteStream) (es entries : List ArchiveEntryImpl)
    (entry : Option Nat) (f : Fault)
    (hagree : ∀ i, entry = some i → entries[i]? = es[i]? ∧ ∃ e, es[i]? = some e)
    (h : preprocess_read p st entries entry = .fail f) :
    ∃ e ∈ es, read_file p st e = .fail f := by
  cases entry with
  | none => exact absurd h (by simp [preprocess_read])
  | some i =>
    obtain ⟨h1, e, he⟩ := hagree i rfl
    unfold preprocess_read at h
    simp only at h
    rw [List.getD_eq_getElem?_getD, h1, he, Option.getD_some] at h
    exact ⟨e, List.mem_iff_getElem?.2 ⟨i, he⟩, h⟩

/-- An entry is touched by groups of one stem only. -/
theorem preprocess_touches_stem_eq (c : Collaborators) (es : List ArchiveEntryImpl) (n : Nat)
    (maps : Role → PathMap) (hinv : PreprocessMapsInv c es n maps)
    (g1 g2 : List Nat × Nat) (hg1 : g1 ∈ maps .sprite) (hg2 : g2 ∈ maps .sprite) (i : Nat)
    (h1 : preprocess_touches maps g1 i) (h2 : preprocess_touches maps g2 i) :
    g1.1 = g2.1 := by
  obtain ⟨e1, he1, hs1, _⟩ := preprocess_touches_stem c es n maps hinv g1 hg1 i h1
  obtain ⟨e2, he2, hs2, _⟩ := preprocess_touches_stem c es n maps hinv g2 hg2 i h2
  rw [he1] at he2
  simp only [Option.some.injEq] at he2
  rw [← hs1, ← hs2, he2]

/-- When every extraction of an entry fails only by throwing and no entry is
marked, the iteration for a group of the sprite map ends normally, provided the
entries it touches are as in `es`. -/
theorem preprocess_group_total (p : Priv) (c : Collaborators) (st : ByteStream)
    (es : List ArchiveEntryImpl) (n : Nat) (maps : Role → PathMap)
    (hinv : PreprocessMapsInv c es n maps)
    (hub : ∀ e ∈ es, ∀ f, read_file p st e = .fail f → f.isException = true)
    (hfresh : ∀ e ∈ es, e.already_unpacked = false)
    (g : List Nat × Nat) (hg : g ∈ maps .sprite) (s : PreprocessState)
    (hagree : ∀ i, preprocess_touches maps g i → s.entries[i]? = es[i]?) :
    ∃ s1, preprocess_group p c st maps g s = .ok s1 := by
  unfold preprocess_group
  cases ht : preprocess_try p c st maps g.1 g.2 s with
  | ok s1 => exact ⟨s1, rfl⟩
  | fail f =>
    have hf : f.isException = true := by
      obtain ⟨e, he, _, _⟩ :=
        preprocess_touches_stem c es n maps hinv g hg g.2 (Or.inl rfl)
      have hsprite : s.entries.getD g.2 default = e := by
        rw [List.getD_eq_getElem?_getD, hagree g.2 (Or.inl rfl), he, Option.getD_some]
      have hmem : e ∈ es := List.mem_iff_getElem?.2 ⟨g.2, he⟩
      rcases preprocess_try_fail_cases p c st maps g.1 g.2 s f ht with h | h | h | h | h
      · rw [hsprite] at h
        exact hub e hmem f h
      · obtain ⟨e2, he2, hr2⟩ := preprocess_read_fail p st es s.entries _ f
          (fun i hi => ⟨hagree i (Or.inr (Or.inr hi)), by
            obtain ⟨e3, he3, _, _⟩ :=
              preprocess_touches_stem c es n maps hinv g hg i (Or.inr (Or.inr hi))
            exact ⟨e3, he3⟩⟩) h
        exact hub e2 he2 f hr2
      · obtain ⟨e2, he2, hr2⟩ := preprocess_read_fail p st es s.entries _ f
          (fun i hi => ⟨hagree i (Or.inr (Or.inl hi)), by
            obtain ⟨e3, he3, _, _⟩ :=
              preprocess_touches_stem c es n maps hinv g hg i (Or.inr (Or.inl hi))
            exact ⟨e3, he3⟩⟩) h
        exact hub e2 he2 f hr2
      · rw [hsprite] at h
        obtain ⟨file, hfile⟩ := read_file_fresh (hfresh e hmem) h
        exact absurd hfile (by simp)
      · rw [h]; rfl
    simp only [hf, if_true]
    exact ⟨s, rfl⟩

/-- Under the conditions of `preprocess_group_total`, the loop over groups of the
sprite map with distinct stems ends normally. -/
theorem preprocess_loop_total (p : Priv) (c : Collaborators) (st : ByteStream)
    (es : List ArchiveEntryImpl) (n : Nat) (maps : Role → PathMap)
    (hinv : PreprocessMapsInv c es n maps)
    (hub : ∀ e ∈ es, ∀ f, read_file p st e = .fail f → f.isException = true)
    (hfresh : ∀ e ∈ es, e.already_unpacked = false) :
    ∀ (gs : List (List Nat × Nat)) (s : PreprocessState),
      (∀ g ∈ gs, g ∈ maps .sprite) → (gs.map Prod.fst).Nodup →
      (∀ g ∈ gs, ∀ i, preprocess_touches maps g i → s.entries[i]? = es[i]?) →
      ∃ final, preprocess_loop p c st maps gs s = .ok final := by
  intro gs
  induction gs with
  | nil =>
    intro s _ _ _
    exact ⟨s, rfl⟩
  | cons g rest ih =>
    intro s hsub hnd hagree
    obtain ⟨s1, hs1⟩ := preprocess_group_total p c st es n maps hinv hub hfresh g
      (hsub g (List.mem_cons_self _ _)) s (hagree g (List.mem_cons_self _ _))
    rw [List.map_cons, List.nodup_cons] at hnd
    have hrest : ∃ final, preprocess_loop p c st maps rest s1 = .ok final := by
      apply ih s1 (fun g2 hg2 => hsub g2 (List.mem_cons_of_mem _ hg2)) hnd.2
      intro g2 hg2 i hi
      rw [preprocess_group_frame p c st maps g s s1 hs1 i]
      · exact hagree g2 (List.mem_cons_of_mem _ hg2) i hi
      · intro hgi
        apply hnd.1
        rw [preprocess_touches_stem_eq c es n maps hinv g g2
          (hsub g (List.mem_cons_self _ _)) (hsub g2 (List.mem_cons_of_mem _ hg2)) i hgi hi]
        exact List.mem_map_of_mem _ hg2
    obtain ⟨final, hfinal⟩ := hrest
    refine ⟨final, ?_⟩
    unfold preprocess_loop
    rw [hs1]
    exact hfinal

/-- The loop over the groups hands at most one file per group to the saver, after
the files saved before. -/
theorem preprocess_loop_saved (p : Priv) (c : Collaborators) (st : ByteStream)
    (maps : Role → PathMap) :
    ∀ (gs : List (List Nat × Nat)) (s final : PreprocessState),
      preprocess_loop p c st maps gs s = .ok final →
      ∃ files, final.saved = s.saved ++ files ∧ files.length ≤ gs.length := by
  intro gs
  induction gs with
  | nil =>
    intro s final h
    unfold preprocess_loop at h
    simp only [Outcome.ok.injEq] at h
    exact ⟨[], by rw [h, List.append_nil], Nat.le_refl _⟩
  | cons g rest ih =>
    intro s final h
    unfold preprocess_loop at h
    cases hg : preprocess_group p c st maps g s with
    | fail f => rw [hg] at h; exact absurd h (by simp)
    | ok s1 =>
      rw [hg] at h
      simp only at h
      obtain ⟨files, hfiles, hlen⟩ := ih s1 final h
      rcases preprocess_group_cases p c st maps g s s1 hg with
        h1 | ⟨h1 | ⟨file, h1⟩, _⟩
      · rw [h1] at hfiles
        exact ⟨files, hfiles, by rw [List.length_cons]; omega⟩
      · rw [h1] at hfiles
        exact ⟨files, hfiles, by rw [List.length_cons]; omega⟩
      · rw [h1, List.append_assoc] at hfiles
        exact ⟨[file] ++ files, hfiles, by
          rw [List.length_append, List.length_cons, List.length_cons, List.length_nil]
          omega⟩

end Pak1ArchiveDecoder

/-! ## Cross-entry preprocessing: a sprite, palette and mask trio -/

namespace Pak1ArchiveDecoder

/-- One iteration of the loop over the groups. -/
theorem preprocess_loop_cons (p : Priv) (c : Collaborators) (st : ByteStream)
    (maps : Role → PathMap) (g : List Nat × Nat) (rest : List (List Nat × Nat))
    (s : PreprocessState) :
    preprocess_loop p c st maps (g :: rest) s =
      match preprocess_group p c st maps g s with
      | .fail f => .fail f
      | .ok s1 => preprocess_loop p c st maps rest s1 := rfl

end Pak1ArchiveDecoder

namespace Pak1ArchiveDecoder

/-- An iteration that ends normally and changes the state has run all the steps
of its `try` block. -/
theorem preprocess_group_steps (p : Priv) (c : Collaborators) (st : ByteStream)
    (maps : Role → PathMap) (it : List Nat × Nat) (s s1 : PreprocessState)
    (h : preprocess_group p c st maps it s = .ok s1) :
    s1 = s ∨ ∃ sf pf mf img,
      read_file p st (s.entries.getD it.2 default) = .ok (some sf) ∧
      preprocess_read p st s.entries (map_find (maps .palette) it.1) = .ok pf ∧
      preprocess_read p st s.entries (map_find (maps .mask) it.1) = .ok mf ∧
      c.decode sf pf mf = some img ∧
      c.save s.saved
        (c.file_from_image img (s.entries.getD it.2 default).path) ≠ .thrown := by
  unfold preprocess_group at h
  cases ht : preprocess_try p c st maps it.1 it.2 s with
  | ok s2 => exact Or.inr (preprocess_try_steps p c st maps it.1 it.2 s s2 ht)
  | fail f =>
    rw [ht] at h
    simp only at h
    by_cases hf : f.isException = true
    · rw [if_pos hf] at h
      simp only [Outcome.ok.injEq] at h
      exact Or.inl h.symm
    · rw [if_neg hf] at h
      exact absurd h (by simp)

end Pak1ArchiveDecoder

end ArcUnpacker
